import Mathlib

/-!
# Verification of the ephemeral-artifact lifecycle manager

A shallow embedding of `src/apps/backend/src/lib/deleteScheduler.ts` and of
the workspace middleware (`withTempWorkspace` / `cleanupDir`), together with
theorems checking the specification's claims about them.

## Modelling conventions

* A file or directory **name** is an `FName`: either a plain atom
  (`FName.base s`, where by convention the string `s` does not end in
  `".created"` or `".downloaded"`), or a name obtained by appending the
  marker suffix `".created"` (`FName.created n`) or `".downloaded"`
  (`FName.downloaded n`) to another name.  This mirrors exactly the string
  operations the source performs on names: appending a marker suffix
  (`filePath + MARKER_CREATED`), stripping one
  (`full.slice(0, -MARKER_DOWNLOADED.length)`), and testing
  `e.name.endsWith(...)`.
* A **path** is the list of its segments (`path.join` is list append,
  `path.dirname` is `List.dropLast`).
* The **filesystem** is a pair of association lists: file paths with their
  data, and the set of existing directories.  `readdirSync(d)` returns the
  entries whose parent is `d` (directories first, then files; the OS order
  is unspecified and the model fixes one).
* File **content** is modelled by the result of
  `parseInt(readFileSync(p,'utf-8').trim(), 10)`: `some t` for a finite
  parse, `none` for `NaN` — the only reads the source performs go through
  `parseInt`.  `writeFileSync(p, Date.now().toString())` therefore writes
  `some now` and refreshes `mtimeMs`/`ctimeMs`.
* A JavaScript number that may be `NaN` (a delay computed from an
  unparseable marker) is likewise an `Option Int`, with `none` for `NaN`;
  `NaN <= 0` is `false`.
* `fs.rmSync` failures (permission errors, locks) are modelled by an
  explicit environment `fail : FPath → Bool` saying which removals throw;
  `rmSync(file)` on a directory throws `EISDIR` and is modelled so.
  `try`/`catch` is modelled by keeping the state reached at the throwing
  step; `finally` always runs.  Reads of paths that are missing or are
  directories (`readFileSync`, `statSync`) throw in Node; they do not occur
  on the well-formed states considered below and the model totalizes them
  (an unparseable read / `now`).
* The in-memory `timers : Map<string, Timeout>` is an association list
  from paths to the scheduled delay; firing of timers is not modelled,
  only the bookkeeping the source performs on the map.
-/

set_option autoImplicit false

namespace FileTools

/-- A file or directory name, structured by its marker suffixes.
`FName.created n` is the name `n + ".created"`, `FName.downloaded n` is
`n + ".downloaded"`; `FName.base s` is an atom ending in neither suffix. -/
inductive FName where
  | base (s : String)
  | created (n : FName)
  | downloaded (n : FName)
deriving DecidableEq

/-- A filesystem path, as its list of segments. -/
abbrev FPath := List FName

/-- Apply `f` to the last segment of a path: `filePath + suffix` in the
source appends the suffix to the final path segment. -/
def mapLast (f : FName → FName) : FPath → FPath
  | [] => []
  | [a] => [f a]
  | a :: b :: rest => a :: mapLast f (b :: rest)

/-- The observable data of a regular file: the `parseInt` reading of its
content (`none` when the parse is not a finite number) and its stat
timestamps. -/
structure FileData where
  content : Option Int
  mtimeMs : Int
  ctimeMs : Int
deriving DecidableEq

/-- The filesystem: an association list of regular files and the list of
existing directories. -/
structure FS where
  files : List (FPath × FileData)
  dirs : List FPath
deriving DecidableEq

/-- `statSync`/`readFileSync` lookup of a regular file. -/
def lookupFile (fs : FS) (p : FPath) : Option FileData :=
  (fs.files.find? (fun e => decide (e.1 = p))).map (fun e => e.2)

/-- Does a regular file exist at `p`? -/
def fileExists (fs : FS) (p : FPath) : Bool :=
  (lookupFile fs p).isSome

/-- Does a directory exist at `p`? -/
def dirExists (fs : FS) (p : FPath) : Bool :=
  decide (p ∈ fs.dirs)

/-- `fs.existsSync`: true for files and for directories. -/
def existsSync (fs : FS) (p : FPath) : Bool :=
  fileExists fs p || dirExists fs p

/-- `fs.writeFileSync(p, now.toString())`: create or overwrite the file at
`p`; the content parses back to `some c` and both stat times become `now`. -/
def writeFile (fs : FS) (p : FPath) (c : Option Int) (now : Int) : FS :=
  if fileExists fs p then
    { fs with files := fs.files.map (fun e => if e.1 = p then (p, ⟨c, now, now⟩) else e) }
  else
    { fs with files := fs.files ++ [(p, ⟨c, now, now⟩)] }

/-- `fs.rmSync(p, { force: true })` on a regular file (no error if absent). -/
def removeFile (fs : FS) (p : FPath) : FS :=
  { fs with files := fs.files.filter (fun e => decide (e.1 ≠ p)) }

/-- `fs.rmSync(p, { force: true, recursive: true })`: remove `p` and
everything below it. -/
def removeRecursive (fs : FS) (p : FPath) : FS :=
  { files := fs.files.filter (fun e => decide (¬ p <+: e.1)),
    dirs := fs.dirs.filter (fun d => decide (¬ p <+: d)) }

/-- The name under which `q` appears as a direct child of directory `d`,
if it is one. -/
def childName (d q : FPath) : Option FName :=
  if q.dropLast = d then q.getLast? else none

/-- `fs.readdirSync(d, { withFileTypes: true })`: the direct children of
`d`, as `(name, isDirectory)` pairs. -/
def readdir (fs : FS) (d : FPath) : List (FName × Bool) :=
  fs.dirs.filterMap (fun q => (childName d q).map (fun n => (n, true)))
    ++ fs.files.filterMap (fun e => (childName d e.1).map (fun n => (n, false)))

/-- `readContent fs p` is `parseInt(fs.readFileSync(p,'utf-8').trim(), 10)`:
`none` when the parse is `NaN` (and, as a totalization, when `p` is not a
regular file — a case that throws in Node and does not occur on the states
considered below). -/
def readContent (fs : FS) (p : FPath) : Option Int :=
  (lookupFile fs p).bind (fun fd => fd.content)

/-- The whole state of `deleteScheduler.ts`: the filesystem plus the
module-level `timers` map (path → delay of the pending timer; the delay is
`none` when the source computed `NaN`). -/
structure SchedState where
  fs : FS
  timers : List (FPath × Option Int)
deriving DecidableEq

/-! ## The embedded source functions of `deleteScheduler.ts` -/

/-- `markCreated` (deleteScheduler.ts:18): write/refresh the `.created`
marker with the current timestamp (the write is wrapped in `try`/`catch`;
the model takes the successful branch). -/
def markCreated (filePath : FPath) (now : Int) (st : SchedState) : SchedState :=
  { st with fs := writeFile st.fs (mapLast FName.created filePath) (some now) now }

/-- `clearScheduledDeletion` (deleteScheduler.ts:49): cancel and forget the
pending timer for `filePath`, if any. -/
def clearScheduledDeletion (filePath : FPath) (st : SchedState) : SchedState :=
  { st with timers := st.timers.filter (fun e => decide (e.1 ≠ filePath)) }

/-- `scheduleDeletion` (deleteScheduler.ts:30): clear any existing timer
for `filePath`, write the `.downloaded` marker with the current timestamp,
then record a new timer with delay `delayMs` (a `none` delay is a `NaN`
delay). -/
def scheduleDeletion (filePath : FPath) (delayMs : Option Int) (now : Int)
    (st : SchedState) : SchedState :=
  let st1 := clearScheduledDeletion filePath st
  { fs := writeFile st1.fs (mapLast FName.downloaded filePath) (some now) now,
    timers := st1.timers ++ [(filePath, delayMs)] }

/-- One `if (fs.existsSync(t)) fs.rmSync(t, { force: true })` line inside
`safeDelete`'s `try` block.  `.error fs` is a throw (the environment says
the removal fails, or `t` is a directory — `EISDIR`), carrying the state at
the throw point; `.ok` carries the state after the (possibly skipped)
removal. -/
def tryRm (fail : FPath → Bool) (t : FPath) (fs : FS) : Except FS FS :=
  if existsSync fs t then
    if fail t || dirExists fs t then .error fs else .ok (removeFile fs t)
  else .ok fs

/-- The final step of `safeDelete` (deleteScheduler.ts:70-74): remove the
containing directory when it exists and is now empty.  When `d` exists but
is a regular file, `readdirSync` throws (caught by the enclosing `catch`),
leaving the state unchanged; an environment-injected failure of the
recursive `rmSync` likewise leaves it unchanged. -/
def dirCleanupStep (fail : FPath → Bool) (fs : FS) (d : FPath) : FS :=
  if existsSync fs d then
    if dirExists fs d then
      if (readdir fs d).isEmpty then
        if fail d then fs else removeRecursive fs d
      else fs
    else fs
  else fs

/-- The `try`/`catch` body of `safeDelete` (deleteScheduler.ts:59-76): the
artifact, its `.downloaded` marker and its `.created` marker are removed in
turn, each guarded by `existsSync`; a throw at any step abandons the
remaining steps (single `try` block), keeping the state reached so far. -/
def safeDeleteFS (fail : FPath → Bool) (filePath : FPath) (fs0 : FS) : FS :=
  match tryRm fail filePath fs0 with
  | .error fs => fs
  | .ok fs1 =>
    match tryRm fail (mapLast FName.downloaded filePath) fs1 with
    | .error fs => fs
    | .ok fs2 =>
      match tryRm fail (mapLast FName.created filePath) fs2 with
      | .error fs => fs
      | .ok fs3 => dirCleanupStep fail fs3 filePath.dropLast

/-- `safeDelete` (deleteScheduler.ts:58): best-effort deletion of the
artifact, its markers and the emptied parent directory; any error is caught
and logged; the `finally` block always erases the timer entry. -/
def safeDelete (fail : FPath → Bool) (filePath : FPath) (st : SchedState) : SchedState :=
  { fs := safeDeleteFS fail filePath st.fs,
    timers := st.timers.filter (fun e => decide (e.1 ≠ filePath)) }

/-- The failure-free filesystem environment (no `rmSync` call throws). -/
def noFail : FPath → Bool := fun _ => false

/-- The body of `hydrateFromDisk`'s walk for one regular-file entry named
`n` of directory `dir` (deleteScheduler.ts:96-107): only `.downloaded`
markers are acted on; an orphaned marker (artifact gone) is removed; else
the remaining grace is computed from the marker's timestamp and the
artifact is deleted now (`remaining <= 0`; `NaN <= 0` is false) or
re-armed for the remaining delay. -/
def hydrateEntry (downloadDelayMs now : Int) (dir : FPath) (st : SchedState)
    (n : FName) : SchedState :=
  match n with
  | FName.downloaded m =>
    let full := dir ++ [n]
    let original := dir ++ [m]
    if existsSync st.fs original = false then
      { st with fs := removeFile st.fs full }
    else
      let remaining := (readContent st.fs full).map (fun t => downloadDelayMs - (now - t))
      if (match remaining with | some r => decide (r ≤ 0) | none => false) then
        safeDelete noFail original st
      else
        scheduleDeletion original remaining now st
  | _ => st

/-- The recursive walk of `hydrateFromDisk` (deleteScheduler.ts:91-110),
with explicit fuel bounding the recursion depth (`walkFuel` below always
suffices, since nothing during hydration creates directories). -/
def hydrateWalk (downloadDelayMs now : Int) : Nat → FPath → SchedState → SchedState
  | 0, _, st => st
  | fuel+1, dir, st =>
    (readdir st.fs dir).foldl
      (fun st' e =>
        if e.2 then hydrateWalk downloadDelayMs now fuel (dir ++ [e.1]) st'
        else hydrateEntry downloadDelayMs now dir st' e.1)
      st

/-- Sufficient fuel for the walks: the nesting depth of reachable
directories never exceeds the number of existing directories, and the walk
bodies never create directories. -/
def walkFuel (fs : FS) : Nat := fs.dirs.length + 1

/-- The body of `purgeOlderThan`'s walk for one regular-file entry named
`n` of directory `dir` (deleteScheduler.ts:132-158): marker-named files
are skipped; for the rest, the effective creation time is the `.created`
marker's parse (`NaN` → `0`) when that marker exists, else
`st.mtimeMs || st.ctimeMs || now`; the file is deleted when
`now - createdAt >= ttlMs`. -/
def purgeEntryFile (ttlMs now : Int) (dir : FPath) (st : SchedState)
    (n : FName) : SchedState :=
  match n with
  | FName.created _ => st
  | FName.downloaded _ => st
  | FName.base s =>
    let full := dir ++ [FName.base s]
    let createdMarker := mapLast FName.created full
    let createdAt : Int :=
      if existsSync st.fs createdMarker then
        (readContent st.fs createdMarker).getD 0
      else
        match lookupFile st.fs full with
        | some fd =>
          if fd.mtimeMs ≠ 0 then fd.mtimeMs
          else if fd.ctimeMs ≠ 0 then fd.ctimeMs else now
        | none => now
    if ttlMs ≤ now - createdAt then safeDelete noFail full st else st

/-- The recursive walk of `purgeOlderThan` (deleteScheduler.ts:122-161):
directories are recursed into first and removed afterwards when empty;
regular files go through `purgeEntryFile`. -/
def purgeWalk (ttlMs now : Int) : Nat → FPath → SchedState → SchedState
  | 0, _, st => st
  | fuel+1, dir, st =>
    (readdir st.fs dir).foldl
      (fun st' e =>
        if e.2 then
          let full := dir ++ [e.1]
          let st2 := purgeWalk ttlMs now fuel full st'
          if existsSync st2.fs full && (readdir st2.fs full).isEmpty then
            { st2 with fs := removeRecursive st2.fs full }
          else st2
        else purgeEntryFile ttlMs now dir st' e.1)
      st

/-- `purgeOlderThan` (deleteScheduler.ts:118): the TTL sweep over the
output root. -/
def purgeOlderThan (outputsRoot : FPath) (ttlMs now : Int) (st : SchedState) : SchedState :=
  if existsSync st.fs outputsRoot then
    purgeWalk ttlMs now (walkFuel st.fs) outputsRoot st
  else st

/-- `hydrateFromDisk` (deleteScheduler.ts:83): restore timers from
`.downloaded` markers, then run one TTL sweep. -/
def hydrateFromDisk (outputsRoot : FPath) (downloadDelayMs ttlMs now : Int)
    (st : SchedState) : SchedState :=
  if existsSync st.fs outputsRoot then
    purgeOlderThan outputsRoot ttlMs now
      (hydrateWalk downloadDelayMs now (walkFuel st.fs) outputsRoot st)
  else st

/-! ## The embedded workspace middleware (`withTempWorkspace`) -/

/-- `cleanupDir` from the workspace middleware: recursive force-delete of
a directory, a no-op when it does not exist. -/
def cleanupDir (dir : FPath) (fs : FS) : FS :=
  if existsSync fs dir then removeRecursive fs dir else fs

/-- The `res.on('finish', ...)` hook registered by `withTempWorkspace`:
it cleans up only `uploads/<requestId>`; the call cleaning the output side
is commented out in the source. -/
def finishHook (baseUploads _baseOutputs : FPath) (requestId : FName) (fs : FS) : FS :=
  cleanupDir (baseUploads ++ [requestId]) fs

/-- The pending delays recorded for path `p` (the claims are about this
projection of the timer map). -/
def timersFor (st : SchedState) (p : FPath) : List (Option Int) :=
  (st.timers.filter (fun e => decide (e.1 = p))).map (fun e => e.2)

/-! ## General list lemmas -/

theorem find?_filter_of_imp {α : Type} (pred keep : α → Bool) (l : List α)
    (h : ∀ x, pred x = true → keep x = true) :
    (l.filter keep).find? pred = l.find? pred := by
  induction l with
  | nil => rfl
  | cons a t ih =>
    by_cases hk : keep a = true
    · rw [List.filter_cons_of_pos hk]
      by_cases hp : pred a = true
      · rw [List.find?_cons_of_pos _ hp, List.find?_cons_of_pos _ hp]
      · rw [List.find?_cons_of_neg _ hp, List.find?_cons_of_neg _ hp, ih]
    · rw [List.filter_cons_of_neg (by simpa using hk)]
      have hp : ¬ pred a = true := fun hpa => hk (h a hpa)
      rw [List.find?_cons_of_neg _ hp, ih]

theorem filterMap_filter_of_none {α β : Type} (f : α → Option β) (keep : α → Bool)
    (l : List α) (h : ∀ x ∈ l, keep x = false → f x = none) :
    (l.filter keep).filterMap f = l.filterMap f := by
  induction l with
  | nil => rfl
  | cons a t ih =>
    have ih' := ih (fun x hx => h x (List.mem_cons_of_mem a hx))
    by_cases hk : keep a = true
    · rw [List.filter_cons_of_pos hk, List.filterMap_cons, List.filterMap_cons]
      cases f a <;> simp [ih']
    · rw [List.filter_cons_of_neg (by simpa using hk), List.filterMap_cons,
        h a (List.mem_cons_self a t) (by simpa using hk), ih']

/-! ## Path lemmas -/

theorem mapLast_append (f : FName → FName) (d : FPath) (n : FName) :
    mapLast f (d ++ [n]) = d ++ [f n] := by
  induction d with
  | nil => rfl
  | cons a t ih =>
    cases t with
    | nil => rfl
    | cons b u => simpa [mapLast] using ih

theorem dropLast_append_singleton (d : FPath) (n : FName) :
    (d ++ [n]).dropLast = d := by
  simp

theorem getLast?_append_singleton (d : FPath) (n : FName) :
    (d ++ [n]).getLast? = some n := by
  simp

theorem childName_self_append (d : FPath) (n : FName) :
    childName d (d ++ [n]) = some n := by
  simp [childName]

theorem childName_ne_none_parent {d q : FPath} (h : childName d q ≠ none) :
    q.dropLast = d ∧ ∃ n, q = d ++ [n] := by
  unfold childName at h
  by_cases hd : q.dropLast = d
  · refine ⟨hd, ?_⟩
    rw [if_pos hd] at h
    cases hq : q.getLast? with
    | none => rw [hq] at h; exact absurd rfl h
    | some n =>
      refine ⟨n, ?_⟩
      have := List.dropLast_append_getLast? (l := q) (a := n) hq
      rw [hd] at this
      exact this.symm
  · rw [if_neg hd] at h; exact absurd rfl h

theorem prefix_of_childName {d q : FPath} (h : childName d q ≠ none) : d <+: q := by
  obtain ⟨-, n, rfl⟩ := childName_ne_none_parent h
  exact ⟨[n], rfl⟩

/-! ## Association-list helper lemmas -/

theorem find?_update_self (l : List (FPath × FileData)) (p : FPath) (d : FileData) :
    (l.map (fun e => if e.1 = p then (p, d) else e)).find? (fun e => decide (e.1 = p))
      = (l.find? (fun e => decide (e.1 = p))).map (fun _ => (p, d)) := by
  induction l with
  | nil => rfl
  | cons a t ih =>
    by_cases h : a.1 = p
    · simp [h]
    · simp [h, ih]

theorem find?_update_ne (l : List (FPath × FileData)) (p q : FPath) (d : FileData)
    (h : q ≠ p) :
    (l.map (fun e => if e.1 = p then (p, d) else e)).find? (fun e => decide (e.1 = q))
      = l.find? (fun e => decide (e.1 = q)) := by
  induction l with
  | nil => rfl
  | cons a t ih =>
    rw [List.map_cons]
    by_cases hp : a.1 = p
    · have h1 : ¬ (((p, d) : FPath × FileData).1 = q) := fun hq => h hq.symm
      have h2 : ¬ (a.1 = q) := fun hq => h (hq.symm.trans hp)
      rw [if_pos hp, List.find?_cons_of_neg _ (by simpa using h1),
        List.find?_cons_of_neg _ (by simpa using h2), ih]
    · rw [if_neg hp]
      by_cases hq : a.1 = q
      · rw [List.find?_cons_of_pos _ (by simpa using hq),
          List.find?_cons_of_pos _ (by simpa using hq)]
      · rw [List.find?_cons_of_neg _ (by simpa using hq),
          List.find?_cons_of_neg _ (by simpa using hq), ih]

theorem find?_append_singleton_ne (l : List (FPath × FileData)) (p q : FPath)
    (d : FileData) (h : q ≠ p) :
    (l ++ [(p, d)]).find? (fun e => decide (e.1 = q))
      = l.find? (fun e => decide (e.1 = q)) := by
  induction l with
  | nil =>
    have h1 : ¬ (((p, d) : FPath × FileData).1 = q) := fun hq => h hq.symm
    rw [List.nil_append, List.find?_cons_of_neg _ (by simpa using h1)]
  | cons a t ih =>
    by_cases hq : a.1 = q
    · rw [List.cons_append, List.find?_cons_of_pos _ (by simpa using hq),
        List.find?_cons_of_pos _ (by simpa using hq)]
    · rw [List.cons_append, List.find?_cons_of_neg _ (by simpa using hq),
        List.find?_cons_of_neg _ (by simpa using hq), ih]

theorem find?_append_singleton_self (l : List (FPath × FileData)) (p : FPath)
    (d : FileData) (h : l.find? (fun e => decide (e.1 = p)) = none) :
    (l ++ [(p, d)]).find? (fun e => decide (e.1 = p)) = some (p, d) := by
  induction l with
  | nil => simp [List.find?]
  | cons a t ih =>
    rw [List.find?_cons] at h
    rcases hd : decide (a.1 = p) with _ | _
    · rw [hd] at h
      rw [List.cons_append, List.find?_cons, hd, ih h]
    · rw [hd] at h; exact absurd h (by simp)

/-! ## Lemmas about the primitive filesystem operations -/

theorem fileExists_eq_false_iff (fs : FS) (p : FPath) :
    fileExists fs p = false ↔ lookupFile fs p = none := by
  unfold fileExists; cases lookupFile fs p <;> simp

theorem fileExists_true_iff (fs : FS) (p : FPath) :
    fileExists fs p = true ↔ ∃ e ∈ fs.files, e.1 = p := by
  simp [fileExists, lookupFile, List.find?_isSome]

theorem dirs_removeFile (fs : FS) (p : FPath) : (removeFile fs p).dirs = fs.dirs := rfl

theorem dirExists_removeFile (fs : FS) (p q : FPath) :
    dirExists (removeFile fs p) q = dirExists fs q := rfl

theorem lookupFile_removeFile_self (fs : FS) (p : FPath) :
    lookupFile (removeFile fs p) p = none := by
  unfold lookupFile removeFile
  rw [Option.map_eq_none', List.find?_eq_none]
  intro x hx
  simp only [List.mem_filter, decide_eq_true_eq] at hx
  simpa using hx.2

theorem lookupFile_removeFile_ne (fs : FS) (p q : FPath) (h : q ≠ p) :
    lookupFile (removeFile fs p) q = lookupFile fs q := by
  unfold lookupFile removeFile
  rw [find?_filter_of_imp]
  intro x hx
  simp only [decide_eq_true_eq] at hx ⊢
  exact hx ▸ h

theorem dirs_removeRecursive (fs : FS) (p : FPath) :
    (removeRecursive fs p).dirs = fs.dirs.filter (fun d => decide (¬ p <+: d)) := rfl

theorem dirExists_removeRecursive_under (fs : FS) (p q : FPath) (h : p <+: q) :
    dirExists (removeRecursive fs p) q = false := by
  simp [dirExists, removeRecursive, List.mem_filter, h]

theorem dirExists_removeRecursive_outside (fs : FS) (p q : FPath) (h : ¬ p <+: q) :
    dirExists (removeRecursive fs p) q = dirExists fs q := by
  simp [dirExists, removeRecursive, List.mem_filter, h]

theorem lookupFile_removeRecursive_under (fs : FS) (p q : FPath) (h : p <+: q) :
    lookupFile (removeRecursive fs p) q = none := by
  unfold lookupFile removeRecursive
  rw [Option.map_eq_none', List.find?_eq_none]
  intro x hx
  simp only [List.mem_filter, decide_eq_true_eq] at hx
  intro hxq
  simp only [decide_eq_true_eq] at hxq
  exact hx.2 (hxq ▸ h)

theorem lookupFile_removeRecursive_outside (fs : FS) (p q : FPath) (h : ¬ p <+: q) :
    lookupFile (removeRecursive fs p) q = lookupFile fs q := by
  unfold lookupFile removeRecursive
  rw [find?_filter_of_imp]
  intro x hx
  simp only [decide_eq_true_eq] at hx ⊢
  exact hx ▸ h

theorem dirs_writeFile (fs : FS) (p : FPath) (c : Option Int) (now : Int) :
    (writeFile fs p c now).dirs = fs.dirs := by
  unfold writeFile; split <;> rfl

theorem dirExists_writeFile (fs : FS) (p q : FPath) (c : Option Int) (now : Int) :
    dirExists (writeFile fs p c now) q = dirExists fs q := by
  unfold dirExists; rw [dirs_writeFile]

theorem lookupFile_writeFile_self (fs : FS) (p : FPath) (c : Option Int) (now : Int) :
    lookupFile (writeFile fs p c now) p = some ⟨c, now, now⟩ := by
  unfold writeFile
  by_cases h : fileExists fs p = true
  · rw [if_pos h]
    unfold lookupFile
    rw [find?_update_self]
    rw [fileExists_true_iff] at h
    obtain ⟨e, he, hep⟩ := h
    have : (fs.files.find? (fun e => decide (e.1 = p))).isSome := by
      rw [List.find?_isSome]; exact ⟨e, he, by simpa using hep⟩
    cases hf : fs.files.find? (fun e => decide (e.1 = p)) with
    | none => rw [hf] at this; simp at this
    | some e' => simp
  · rw [if_neg h]
    unfold lookupFile
    rw [find?_append_singleton_self]
    · rfl
    · have := (fileExists_eq_false_iff fs p).mp (by simpa using h)
      unfold lookupFile at this
      simpa using this

theorem lookupFile_writeFile_ne (fs : FS) (p q : FPath) (c : Option Int) (now : Int)
    (h : q ≠ p) :
    lookupFile (writeFile fs p c now) q = lookupFile fs q := by
  unfold writeFile
  by_cases hx : fileExists fs p = true
  · rw [if_pos hx]; unfold lookupFile; rw [find?_update_ne _ _ _ _ h]
  · rw [if_neg hx]; unfold lookupFile; rw [find?_append_singleton_ne _ _ _ _ h]

theorem fileExists_removeFile_self (fs : FS) (p : FPath) :
    fileExists (removeFile fs p) p = false := by
  rw [fileExists_eq_false_iff]; exact lookupFile_removeFile_self fs p

theorem fileExists_removeFile_ne (fs : FS) (p q : FPath) (h : q ≠ p) :
    fileExists (removeFile fs p) q = fileExists fs q := by
  unfold fileExists; rw [lookupFile_removeFile_ne fs p q h]

theorem fileExists_removeRecursive_under (fs : FS) (p q : FPath) (h : p <+: q) :
    fileExists (removeRecursive fs p) q = false := by
  rw [fileExists_eq_false_iff]; exact lookupFile_removeRecursive_under fs p q h

theorem fileExists_removeRecursive_outside (fs : FS) (p q : FPath) (h : ¬ p <+: q) :
    fileExists (removeRecursive fs p) q = fileExists fs q := by
  unfold fileExists; rw [lookupFile_removeRecursive_outside fs p q h]

theorem fileExists_writeFile_self (fs : FS) (p : FPath) (c : Option Int) (now : Int) :
    fileExists (writeFile fs p c now) p = true := by
  unfold fileExists; rw [lookupFile_writeFile_self]; rfl

theorem fileExists_writeFile_ne (fs : FS) (p q : FPath) (c : Option Int) (now : Int)
    (h : q ≠ p) :
    fileExists (writeFile fs p c now) q = fileExists fs q := by
  unfold fileExists; rw [lookupFile_writeFile_ne fs p q c now h]

/-! ## Timer-map lemmas -/

theorem filter_filter_ne {β : Type} (ts : List (FPath × β)) (p : FPath) :
    ((ts.filter (fun e => decide (e.1 ≠ p))).filter (fun e => decide (e.1 = p))) = [] := by
  induction ts with
  | nil => rfl
  | cons a t ih =>
    by_cases hp : a.1 = p
    · rw [List.filter_cons_of_neg (by simpa using hp)]; exact ih
    · rw [List.filter_cons_of_pos (by simpa using hp),
        List.filter_cons_of_neg (by simpa using hp)]
      exact ih

theorem filter_filter_of_imp {α : Type} (pred keep : α → Bool) (l : List α)
    (h : ∀ x, pred x = true → keep x = true) :
    (l.filter keep).filter pred = l.filter pred := by
  induction l with
  | nil => rfl
  | cons a t ih =>
    by_cases hk : keep a = true
    · rw [List.filter_cons_of_pos hk]
      by_cases hp : pred a = true
      · rw [List.filter_cons_of_pos hp, List.filter_cons_of_pos hp, ih]
      · rw [List.filter_cons_of_neg hp, List.filter_cons_of_neg hp, ih]
    · have hp : ¬ pred a = true := fun hpa => hk (h a hpa)
      rw [List.filter_cons_of_neg (by simpa using hk), List.filter_cons_of_neg hp, ih]

theorem timersFor_clearScheduledDeletion_self (p : FPath) (st : SchedState) :
    timersFor (clearScheduledDeletion p st) p = [] := by
  unfold timersFor clearScheduledDeletion
  rw [filter_filter_ne]
  rfl

theorem timersFor_clearScheduledDeletion_ne (p q : FPath) (st : SchedState) (h : q ≠ p) :
    timersFor (clearScheduledDeletion p st) q = timersFor st q := by
  unfold timersFor clearScheduledDeletion
  rw [filter_filter_of_imp]
  intro x hx
  simp only [decide_eq_true_eq] at hx ⊢
  exact hx ▸ h

theorem timersFor_scheduleDeletion_self (p : FPath) (d : Option Int) (now : Int)
    (st : SchedState) :
    timersFor (scheduleDeletion p d now st) p = [d] := by
  unfold timersFor scheduleDeletion clearScheduledDeletion
  rw [List.filter_append, filter_filter_ne, List.nil_append,
    List.filter_cons_of_pos (by simp), List.filter_nil]
  rfl

theorem timersFor_scheduleDeletion_ne (p q : FPath) (d : Option Int) (now : Int)
    (st : SchedState) (h : q ≠ p) :
    timersFor (scheduleDeletion p d now st) q = timersFor st q := by
  unfold timersFor scheduleDeletion clearScheduledDeletion
  rw [List.filter_append, filter_filter_of_imp _ _ _
    (by intro x hx; simp only [decide_eq_true_eq] at hx ⊢; exact hx ▸ h),
    List.filter_cons_of_neg (by simpa using fun hq : p = q => h hq.symm), List.filter_nil,
    List.append_nil]

theorem timersFor_safeDelete_self (fail : FPath → Bool) (p : FPath) (st : SchedState) :
    timersFor (safeDelete fail p st) p = [] := by
  unfold timersFor safeDelete
  rw [filter_filter_ne]
  rfl

theorem timersFor_safeDelete_ne (fail : FPath → Bool) (p q : FPath) (st : SchedState)
    (h : q ≠ p) :
    timersFor (safeDelete fail p st) q = timersFor st q := by
  unfold timersFor safeDelete
  rw [filter_filter_of_imp _ _ _
    (by intro x hx; simp only [decide_eq_true_eq] at hx ⊢; exact hx ▸ h)]

/-! ## Structure lemmas for `safeDelete` -/

theorem safeDeleteFS_def (fail : FPath → Bool) (p : FPath) (fs : FS) :
    safeDeleteFS fail p fs =
      (match tryRm fail p fs with
        | .error fs => fs
        | .ok fs1 =>
          match tryRm fail (mapLast FName.downloaded p) fs1 with
          | .error fs => fs
          | .ok fs2 =>
            match tryRm fail (mapLast FName.created p) fs2 with
            | .error fs => fs
            | .ok fs3 => dirCleanupStep fail fs3 p.dropLast) := rfl

theorem tryRm_error_eq {fail : FPath → Bool} {t : FPath} {fs fs' : FS}
    (h : tryRm fail t fs = .error fs') : fs' = fs := by
  unfold tryRm at h
  split at h
  · split at h
    · cases h; rfl
    · cases h
  · cases h

theorem tryRm_skip (fail : FPath → Bool) {t : FPath} {fs : FS}
    (h : existsSync fs t = false) : tryRm fail t fs = .ok fs := by
  unfold tryRm
  rw [if_neg (by simp [h])]

theorem tryRm_ok_not_exists {fail : FPath → Bool} {t : FPath} {fs fs' : FS}
    (h : tryRm fail t fs = .ok fs') : existsSync fs' t = false := by
  unfold tryRm at h
  split at h
  · split at h
    · cases h
    · rename_i hex hcond
      cases h
      have hdir : dirExists fs t = false := by
        rcases Bool.or_eq_false_iff.mp (by simpa using hcond) with ⟨-, h2⟩
        exact h2
      simp [existsSync, fileExists_removeFile_self, dirExists_removeFile, hdir]
  · rename_i hex
    cases h
    simpa using hex

theorem tryRm_ok_preserve_not_exists {fail : FPath → Bool} {t : FPath} {fs fs' : FS}
    (h : tryRm fail t fs = .ok fs') {q : FPath} (hq : existsSync fs q = false) :
    existsSync fs' q = false := by
  unfold tryRm at h
  split at h
  · split at h
    · cases h
    · cases h
      rcases Bool.or_eq_false_iff.mp (by simpa [existsSync] using hq) with ⟨hf, hd⟩
      by_cases hqt : q = t
      · subst hqt
        simp [existsSync, fileExists_removeFile_self, dirExists_removeFile, hd]
      · simp [existsSync, fileExists_removeFile_ne fs t q hqt, dirExists_removeFile, hf, hd]
  · cases h; exact hq

theorem tryRm_frame {fail : FPath → Bool} {t : FPath} {fs fs' : FS}
    (h : tryRm fail t fs = .ok fs') (q : FPath) (hq : q ≠ t) :
    lookupFile fs' q = lookupFile fs q ∧ dirExists fs' q = dirExists fs q := by
  unfold tryRm at h
  split at h
  · split at h
    · cases h
    · cases h
      exact ⟨lookupFile_removeFile_ne fs t q hq, rfl⟩
  · cases h; exact ⟨rfl, rfl⟩

theorem dirCleanup_frame (fail : FPath → Bool) (fs : FS) (d q : FPath)
    (h : ¬ d <+: q) :
    lookupFile (dirCleanupStep fail fs d) q = lookupFile fs q ∧
      dirExists (dirCleanupStep fail fs d) q = dirExists fs q := by
  unfold dirCleanupStep
  split_ifs <;>
    first
      | exact ⟨rfl, rfl⟩
      | exact ⟨lookupFile_removeRecursive_outside fs d q h,
          dirExists_removeRecursive_outside fs d q h⟩

theorem dirCleanup_preserve_not_exists (fail : FPath → Bool) (fs : FS) (d q : FPath)
    (hq : existsSync fs q = false) :
    existsSync (dirCleanupStep fail fs d) q = false := by
  unfold dirCleanupStep
  rcases Bool.or_eq_false_iff.mp (by simpa [existsSync] using hq) with ⟨hf, hd⟩
  split_ifs <;>
    first
      | exact hq
      | (by_cases hpre : d <+: q
         · simp [existsSync, fileExists_removeRecursive_under fs d q hpre,
             dirExists_removeRecursive_under fs d q hpre]
         · simp [existsSync, fileExists_removeRecursive_outside fs d q hpre,
             dirExists_removeRecursive_outside fs d q hpre, hf, hd])

theorem dirCleanup_idem (fail : FPath → Bool) (fs : FS) (d : FPath) :
    dirCleanupStep fail (dirCleanupStep fail fs d) d = dirCleanupStep fail fs d := by
  by_cases h1 : existsSync fs d = true
  · by_cases h2 : dirExists fs d = true
    · by_cases h3 : (readdir fs d).isEmpty = true
      · by_cases h4 : fail d = true
        · unfold dirCleanupStep
          rw [if_pos h1, if_pos h2, if_pos h3, if_pos h4, if_pos h1, if_pos h2, if_pos h3,
            if_pos h4]
        · have hred : dirCleanupStep fail fs d = removeRecursive fs d := by
            unfold dirCleanupStep
            rw [if_pos h1, if_pos h2, if_pos h3, if_neg h4]
          rw [hred]
          unfold dirCleanupStep
          rw [if_neg]
          simp [existsSync, fileExists_removeRecursive_under _ d d (List.prefix_refl d),
            dirExists_removeRecursive_under _ d d (List.prefix_refl d)]
      · unfold dirCleanupStep
        rw [if_pos h1, if_pos h2, if_neg h3, if_pos h1, if_pos h2, if_neg h3]
    · unfold dirCleanupStep
      rw [if_pos h1, if_neg h2, if_pos h1, if_neg h2]
  · unfold dirCleanupStep
    rw [if_neg h1, if_neg h1]

theorem safeDeleteFS_of_clean (fail : FPath → Bool) (p : FPath) (fs : FS)
    (h1 : existsSync fs p = false)
    (h2 : existsSync fs (mapLast FName.downloaded p) = false)
    (h3 : existsSync fs (mapLast FName.created p) = false) :
    safeDeleteFS fail p fs = dirCleanupStep fail fs p.dropLast := by
  simp only [safeDeleteFS_def, tryRm_skip fail h1, tryRm_skip fail h2, tryRm_skip fail h3]

theorem safeDeleteFS_idem (fail : FPath → Bool) (p : FPath) (fs0 : FS) :
    safeDeleteFS fail p (safeDeleteFS fail p fs0) = safeDeleteFS fail p fs0 := by
  cases h1 : tryRm fail p fs0 with
  | error fsE =>
    obtain rfl := tryRm_error_eq h1
    have hR : safeDeleteFS fail p fsE = fsE := by simp only [safeDeleteFS_def, h1]
    rw [hR]; exact hR
  | ok fs1 =>
    have hp1 : existsSync fs1 p = false := tryRm_ok_not_exists h1
    cases h2 : tryRm fail (mapLast FName.downloaded p) fs1 with
    | error fsE =>
      obtain rfl := tryRm_error_eq h2
      have hR : safeDeleteFS fail p fs0 = fsE := by simp only [safeDeleteFS_def, h1, h2]
      have hR2 : safeDeleteFS fail p fsE = fsE := by
        simp only [safeDeleteFS_def, tryRm_skip fail hp1, h2]
      rw [hR]; exact hR2
    | ok fs2 =>
      have hp2 : existsSync fs2 p = false := tryRm_ok_preserve_not_exists h2 hp1
      have hd2 : existsSync fs2 (mapLast FName.downloaded p) = false := tryRm_ok_not_exists h2
      cases h3 : tryRm fail (mapLast FName.created p) fs2 with
      | error fsE =>
        obtain rfl := tryRm_error_eq h3
        have hR : safeDeleteFS fail p fs0 = fsE := by simp only [safeDeleteFS_def, h1, h2, h3]
        have hR2 : safeDeleteFS fail p fsE = fsE := by
          simp only [safeDeleteFS_def, tryRm_skip fail hp2, tryRm_skip fail hd2, h3]
        rw [hR]; exact hR2
      | ok fs3 =>
        have hp3 : existsSync fs3 p = false := tryRm_ok_preserve_not_exists h3 hp2
        have hd3 : existsSync fs3 (mapLast FName.downloaded p) = false :=
          tryRm_ok_preserve_not_exists h3 hd2
        have hc3 : existsSync fs3 (mapLast FName.created p) = false := tryRm_ok_not_exists h3
        have hR : safeDeleteFS fail p fs0 = dirCleanupStep fail fs3 p.dropLast := by
          simp only [safeDeleteFS_def, h1, h2, h3]
        have hpR : existsSync (dirCleanupStep fail fs3 p.dropLast) p = false :=
          dirCleanup_preserve_not_exists fail fs3 p.dropLast p hp3
        have hdR : existsSync (dirCleanupStep fail fs3 p.dropLast)
            (mapLast FName.downloaded p) = false :=
          dirCleanup_preserve_not_exists fail fs3 p.dropLast _ hd3
        have hcR : existsSync (dirCleanupStep fail fs3 p.dropLast)
            (mapLast FName.created p) = false :=
          dirCleanup_preserve_not_exists fail fs3 p.dropLast _ hc3
        rw [hR, safeDeleteFS_of_clean fail p _ hpR hdR hcR, dirCleanup_idem]

theorem safeDeleteFS_frame (fail : FPath → Bool) (t q : FPath) (fs : FS)
    (h1 : q ≠ t) (h2 : q ≠ mapLast FName.downloaded t) (h3 : q ≠ mapLast FName.created t)
    (h4 : ¬ t.dropLast <+: q) :
    lookupFile (safeDeleteFS fail t fs) q = lookupFile fs q ∧
      dirExists (safeDeleteFS fail t fs) q = dirExists fs q := by
  cases e1 : tryRm fail t fs with
  | error fsE =>
    obtain rfl := tryRm_error_eq e1
    simp [safeDeleteFS_def, e1]
  | ok fs1 =>
    have f1 := tryRm_frame e1 q h1
    cases e2 : tryRm fail (mapLast FName.downloaded t) fs1 with
    | error fsE =>
      obtain rfl := tryRm_error_eq e2
      simp only [safeDeleteFS_def, e1, e2]
      exact f1
    | ok fs2 =>
      have f2 := tryRm_frame e2 q h2
      cases e3 : tryRm fail (mapLast FName.created t) fs2 with
      | error fsE =>
        obtain rfl := tryRm_error_eq e3
        simp only [safeDeleteFS_def, e1, e2, e3]
        exact ⟨f2.1.trans f1.1, f2.2.trans f1.2⟩
      | ok fs3 =>
        have f3 := tryRm_frame e3 q h3
        have f4 := dirCleanup_frame fail fs3 t.dropLast q h4
        simp only [safeDeleteFS_def, e1, e2, e3]
        exact ⟨f4.1.trans (f3.1.trans (f2.1.trans f1.1)),
          f4.2.trans (f3.2.trans (f2.2.trans f1.2))⟩

theorem safeDelete_frame (fail : FPath → Bool) (t q : FPath) (st : SchedState)
    (h1 : q ≠ t) (h2 : q ≠ mapLast FName.downloaded t) (h3 : q ≠ mapLast FName.created t)
    (h4 : ¬ t.dropLast <+: q) :
    lookupFile (safeDelete fail t st).fs q = lookupFile st.fs q ∧
      dirExists (safeDelete fail t st).fs q = dirExists st.fs q ∧
      timersFor (safeDelete fail t st) q = timersFor st q :=
  ⟨(safeDeleteFS_frame fail t q st.fs h1 h2 h3 h4).1,
   (safeDeleteFS_frame fail t q st.fs h1 h2 h3 h4).2,
   timersFor_safeDelete_ne fail t q st h1⟩

theorem lookupFile_eq_none_iff (fs : FS) (p : FPath) :
    lookupFile fs p = none ↔ ∀ e ∈ fs.files, e.1 ≠ p := by
  unfold lookupFile
  rw [Option.map_eq_none', List.find?_eq_none]
  simp

theorem removeFile_of_absent (fs : FS) (p : FPath) (h : fileExists fs p = false) :
    removeFile fs p = fs := by
  unfold removeFile
  have hall := (lookupFile_eq_none_iff fs p).mp ((fileExists_eq_false_iff fs p).mp h)
  have : fs.files.filter (fun e => decide (e.1 ≠ p)) = fs.files :=
    List.filter_eq_self.mpr (fun e he => by simpa using hall e he)
  rw [this]

theorem tryRm_noFail (t : FPath) (fs : FS) (hd : dirExists fs t = false) :
    tryRm noFail t fs = .ok (removeFile fs t) := by
  unfold tryRm
  by_cases he : existsSync fs t = true
  · rw [if_pos he, if_neg (by simp [noFail, hd])]
  · rw [if_neg he, removeFile_of_absent fs t
      (by rcases Bool.or_eq_false_iff.mp (by simpa [existsSync] using he) with ⟨hf, -⟩; exact hf)]

theorem safeDeleteFS_noFail_eq (p : FPath) (fs : FS)
    (h1 : dirExists fs p = false)
    (h2 : dirExists fs (mapLast FName.downloaded p) = false)
    (h3 : dirExists fs (mapLast FName.created p) = false) :
    safeDeleteFS noFail p fs =
      dirCleanupStep noFail
        (removeFile (removeFile (removeFile fs p) (mapLast FName.downloaded p))
          (mapLast FName.created p)) p.dropLast := by
  simp only [safeDeleteFS_def, tryRm_noFail p fs h1,
    tryRm_noFail (mapLast FName.downloaded p) (removeFile fs p)
      (by rw [dirExists_removeFile]; exact h2),
    tryRm_noFail (mapLast FName.created p)
      (removeFile (removeFile fs p) (mapLast FName.downloaded p))
      (by rw [dirExists_removeFile, dirExists_removeFile]; exact h3)]

/-! ## `readdir` child lemmas -/

theorem mem_readdir_file (fs : FS) (d : FPath) (n : FName)
    (h : fileExists fs (d ++ [n]) = true) : (n, false) ∈ readdir fs d := by
  unfold readdir
  refine List.mem_append_right _ ?_
  rw [List.mem_filterMap]
  rw [fileExists_true_iff] at h
  obtain ⟨e, he, hK⟩ := h
  exact ⟨e, he, by rw [hK, childName_self_append]; rfl⟩

theorem mem_readdir_dir (fs : FS) (d : FPath) (n : FName)
    (h : (d ++ [n]) ∈ fs.dirs) : (n, true) ∈ readdir fs d := by
  unfold readdir
  refine List.mem_append_left _ ?_
  rw [List.mem_filterMap]
  exact ⟨d ++ [n], h, by rw [childName_self_append]; rfl⟩

theorem readdir_isEmpty_false_of_file (fs : FS) (d : FPath) (n : FName)
    (h : fileExists fs (d ++ [n]) = true) : (readdir fs d).isEmpty = false := by
  have hm := mem_readdir_file fs d n h
  cases hr : readdir fs d with
  | nil => rw [hr] at hm; cases hm
  | cons a l => rfl

theorem dirCleanup_of_file_child (fail : FPath → Bool) (fs : FS) (d : FPath) (n : FName)
    (h : fileExists fs (d ++ [n]) = true) : dirCleanupStep fail fs d = fs := by
  unfold dirCleanupStep
  have hne := readdir_isEmpty_false_of_file fs d n h
  by_cases eA : existsSync fs d = true
  · rw [if_pos eA]
    by_cases eB : dirExists fs d = true
    · rw [if_pos eB, if_neg (by rw [hne]; exact Bool.false_ne_true)]
    · rw [if_neg eB]
  · rw [if_neg eA]

theorem of_mem_readdir {fs : FS} {d : FPath} {x : FName} {k : Bool}
    (h : (x, k) ∈ readdir fs d) :
    (k = true ∧ (d ++ [x]) ∈ fs.dirs) ∨ (k = false ∧ fileExists fs (d ++ [x]) = true) := by
  unfold readdir at h
  rcases List.mem_append.mp h with hl | hr
  · left
    rw [List.mem_filterMap] at hl
    obtain ⟨q, hq, hmap⟩ := hl
    have hne : childName d q ≠ none := by
      intro hnone; rw [hnone] at hmap; cases hmap
    obtain ⟨hdrop, n, rfl⟩ := childName_ne_none_parent hne
    rw [childName_self_append] at hmap
    cases hmap
    exact ⟨rfl, hq⟩
  · right
    rw [List.mem_filterMap] at hr
    obtain ⟨e, he, hmap⟩ := hr
    have hne : childName d e.1 ≠ none := by
      intro hnone; rw [hnone] at hmap; cases hmap
    obtain ⟨hdrop, n, hq⟩ := childName_ne_none_parent hne
    rw [hq, childName_self_append] at hmap
    cases hmap
    refine ⟨rfl, ?_⟩
    rw [fileExists_true_iff]
    exact ⟨e, he, hq⟩

/-- A generic fold-invariant principle for the walk bodies. -/
theorem foldl_preserve {α : Type} (f : SchedState → α → SchedState) (P : SchedState → Prop)
    (l : List α) (st : SchedState) (h0 : P st)
    (hstep : ∀ s a, a ∈ l → P s → P (f s a)) : P (l.foldl f st) := by
  induction l generalizing st with
  | nil => exact h0
  | cons a t ih =>
    exact ih (f st a) (hstep st a (List.mem_cons_self a t) h0)
      (fun s b hb hs => hstep s b (List.mem_cons_of_mem a hb) hs)

/-! ## Prefix helper lemmas -/

theorem append_singleton_prefix_iff (A : FPath) (x y : FName) (t : FPath) :
    (A ++ [x]) <+: (A ++ y :: t) ↔ x = y := by
  rw [List.prefix_append_right_inj]
  constructor
  · intro h
    rcases h with ⟨s, hs⟩
    cases hs
    rfl
  · rintro rfl
    exact ⟨t, rfl⟩

theorem prefix_append_singleton (A : FPath) (x : FName) : A <+: A ++ [x] := ⟨[x], rfl⟩

/-! ## Monotonicity: the walk bodies never create files or directories -/

theorem dirExists_mono_removeFile {fs : FS} {p q : FPath}
    (h : dirExists (removeFile fs p) q = true) : dirExists fs q = true := by
  rwa [dirExists_removeFile] at h

theorem dirExists_mono_removeRecursive {fs : FS} {p q : FPath}
    (h : dirExists (removeRecursive fs p) q = true) : dirExists fs q = true := by
  by_cases hp : p <+: q
  · rw [dirExists_removeRecursive_under fs p q hp] at h; cases h
  · rwa [dirExists_removeRecursive_outside fs p q hp] at h

theorem dirExists_mono_writeFile {fs : FS} {p q : FPath} {c : Option Int} {now : Int}
    (h : dirExists (writeFile fs p c now) q = true) : dirExists fs q = true := by
  rwa [dirExists_writeFile] at h

theorem fileExists_false_removeFile {fs : FS} {p q : FPath}
    (h : fileExists fs q = false) : fileExists (removeFile fs p) q = false := by
  by_cases hqp : q = p
  · subst hqp; exact fileExists_removeFile_self fs q
  · rwa [fileExists_removeFile_ne fs p q hqp]

theorem fileExists_false_removeRecursive {fs : FS} {p q : FPath}
    (h : fileExists fs q = false) : fileExists (removeRecursive fs p) q = false := by
  by_cases hp : p <+: q
  · exact fileExists_removeRecursive_under fs p q hp
  · rwa [fileExists_removeRecursive_outside fs p q hp]

theorem dirExists_mono_tryRm {fail : FPath → Bool} {t : FPath} {fs fs' : FS}
    (h : tryRm fail t fs = .ok fs') {q : FPath}
    (hq : dirExists fs' q = true) : dirExists fs q = true := by
  unfold tryRm at h
  split at h
  · split at h
    · cases h
    · cases h; exact dirExists_mono_removeFile hq
  · cases h; exact hq

theorem dirExists_mono_dirCleanup {fail : FPath → Bool} {fs : FS} {d q : FPath}
    (h : dirExists (dirCleanupStep fail fs d) q = true) : dirExists fs q = true := by
  unfold dirCleanupStep at h
  split_ifs at h
  all_goals first
    | exact h
    | exact dirExists_mono_removeRecursive h

theorem dirExists_mono_safeDeleteFS {fail : FPath → Bool} {t : FPath} {fs : FS} {q : FPath}
    (h : dirExists (safeDeleteFS fail t fs) q = true) : dirExists fs q = true := by
  cases e1 : tryRm fail t fs with
  | error fsE =>
    obtain rfl := tryRm_error_eq e1
    simp only [safeDeleteFS_def, e1] at h
    exact h
  | ok fs1 =>
    cases e2 : tryRm fail (mapLast FName.downloaded t) fs1 with
    | error fsE =>
      obtain rfl := tryRm_error_eq e2
      simp only [safeDeleteFS_def, e1, e2] at h
      exact dirExists_mono_tryRm e1 h
    | ok fs2 =>
      cases e3 : tryRm fail (mapLast FName.created t) fs2 with
      | error fsE =>
        obtain rfl := tryRm_error_eq e3
        simp only [safeDeleteFS_def, e1, e2, e3] at h
        exact dirExists_mono_tryRm e1 (dirExists_mono_tryRm e2 h)
      | ok fs3 =>
        simp only [safeDeleteFS_def, e1, e2, e3] at h
        exact dirExists_mono_tryRm e1 (dirExists_mono_tryRm e2
          (dirExists_mono_tryRm e3 (dirExists_mono_dirCleanup h)))

theorem fileExists_false_tryRm {fail : FPath → Bool} {t : FPath} {fs fs' : FS}
    (h : tryRm fail t fs = .ok fs') {q : FPath}
    (hq : fileExists fs q = false) : fileExists fs' q = false := by
  unfold tryRm at h
  split at h
  · split at h
    · cases h
    · cases h; exact fileExists_false_removeFile hq
  · cases h; exact hq

theorem fileExists_false_dirCleanup {fail : FPath → Bool} {fs : FS} {d q : FPath}
    (hq : fileExists fs q = false) : fileExists (dirCleanupStep fail fs d) q = false := by
  unfold dirCleanupStep
  split_ifs
  all_goals first
    | exact hq
    | exact fileExists_false_removeRecursive hq

theorem fileExists_false_safeDeleteFS (fail : FPath → Bool) (t : FPath) (fs : FS) (q : FPath)
    (hq : fileExists fs q = false) : fileExists (safeDeleteFS fail t fs) q = false := by
  cases e1 : tryRm fail t fs with
  | error fsE =>
    obtain rfl := tryRm_error_eq e1
    simp only [safeDeleteFS_def, e1]
    exact hq
  | ok fs1 =>
    have h1 := fileExists_false_tryRm e1 hq
    cases e2 : tryRm fail (mapLast FName.downloaded t) fs1 with
    | error fsE =>
      obtain rfl := tryRm_error_eq e2
      simp only [safeDeleteFS_def, e1, e2]
      exact h1
    | ok fs2 =>
      have h2 := fileExists_false_tryRm e2 h1
      cases e3 : tryRm fail (mapLast FName.created t) fs2 with
      | error fsE =>
        obtain rfl := tryRm_error_eq e3
        simp only [safeDeleteFS_def, e1, e2, e3]
        exact h2
      | ok fs3 =>
        have h3 := fileExists_false_tryRm e3 h2
        simp only [safeDeleteFS_def, e1, e2, e3]
        exact fileExists_false_dirCleanup h3

/-! ## `readdir` preservation under the walk-body operations -/

theorem readdir_removeFile_of_childName_none (fs : FS) (g D : FPath)
    (h : childName D g = none) : readdir (removeFile fs g) D = readdir fs D := by
  unfold readdir removeFile
  congr 1
  refine filterMap_filter_of_none _ _ _ (fun e _ hk => ?_)
  have he : e.1 = g := by simpa using hk
  rw [he, h]
  rfl

theorem readdir_removeRecursive_of (fs : FS) (g D : FPath)
    (h : ∀ q, g <+: q → childName D q = none) :
    readdir (removeRecursive fs g) D = readdir fs D := by
  unfold readdir removeRecursive
  congr 1
  · refine filterMap_filter_of_none _ _ _ (fun d _ hk => ?_)
    have hd : g <+: d := by simpa using hk
    rw [h d hd]
    rfl
  · refine filterMap_filter_of_none _ _ _ (fun e _ hk => ?_)
    have he : g <+: e.1 := by simpa using hk
    rw [h e.1 he]
    rfl

theorem readdir_writeFile_of_childName_none (fs : FS) (p : FPath) (c : Option Int)
    (now : Int) (D : FPath) (h : childName D p = none) :
    readdir (writeFile fs p c now) D = readdir fs D := by
  unfold writeFile
  by_cases hex : fileExists fs p = true
  · rw [if_pos hex]
    unfold readdir
    congr 1
    rw [List.filterMap_map]
    refine List.filterMap_congr (fun e _ => ?_)
    show (childName D (if e.1 = p then (p, (⟨c, now, now⟩ : FileData)) else e).1).map _
      = (childName D e.1).map _
    by_cases hep : e.1 = p
    · rw [if_pos hep, hep]
    · rw [if_neg hep]
  · rw [if_neg hex]
    unfold readdir
    congr 1
    rw [List.filterMap_append]
    have : List.filterMap (fun e => (childName D e.1).map (fun n => (n, false)))
        [(p, (⟨c, now, now⟩ : FileData))] = [] := by
      simp [List.filterMap, h]
    rw [this, List.append_nil]

theorem dropLast_mapLast (f : FName → FName) (t : FPath) :
    (mapLast f t).dropLast = t.dropLast := by
  rcases List.eq_nil_or_concat t with rfl | ⟨A, x, rfl⟩
  · rfl
  · rw [List.concat_eq_append, mapLast_append]
    simp

theorem tryRm_ok_dirs {fail : FPath → Bool} {t : FPath} {fs fs' : FS}
    (h : tryRm fail t fs = .ok fs') : fs'.dirs = fs.dirs := by
  unfold tryRm at h
  split at h
  · split at h
    · cases h
    · cases h; rfl
  · cases h; rfl

theorem readdir_safeDeleteFS_of (fail : FPath → Bool) (t : FPath) (fs : FS) (D : FPath)
    (h : ∀ q, t.dropLast <+: q → childName D q = none) :
    readdir (safeDeleteFS fail t fs) D = readdir fs D := by
  have hpre : ∀ x : FPath, x.dropLast = t.dropLast → childName D x = none := by
    intro x hx
    rcases hcx : childName D x with _ | n
    · rfl
    · obtain ⟨hdrop, m, rfl⟩ := childName_ne_none_parent (by rw [hcx]; exact Option.some_ne_none n)
      have hD : t.dropLast = D := by rw [← hx]; simp
      have hpref : t.dropLast <+: D ++ [m] := hD ▸ prefix_append_singleton D m
      rw [h _ hpref] at hcx
      cases hcx
  have ht : childName D t = none := hpre t rfl
  have hdl : childName D (mapLast FName.downloaded t) = none :=
    hpre _ (dropLast_mapLast _ t)
  have hcr : childName D (mapLast FName.created t) = none :=
    hpre _ (dropLast_mapLast _ t)
  cases e1 : tryRm fail t fs with
  | error fsE =>
    obtain rfl := tryRm_error_eq e1
    simp only [safeDeleteFS_def, e1]
  | ok fs1 =>
    have r1 : readdir fs1 D = readdir fs D := by
      unfold tryRm at e1
      split at e1
      · split at e1
        · cases e1
        · cases e1; exact readdir_removeFile_of_childName_none fs t D ht
      · cases e1; rfl
    cases e2 : tryRm fail (mapLast FName.downloaded t) fs1 with
    | error fsE =>
      obtain rfl := tryRm_error_eq e2
      simp only [safeDeleteFS_def, e1, e2]
      exact r1
    | ok fs2 =>
      have r2 : readdir fs2 D = readdir fs1 D := by
        unfold tryRm at e2
        split at e2
        · split at e2
          · cases e2
          · cases e2; exact readdir_removeFile_of_childName_none fs1 _ D hdl
        · cases e2; rfl
      cases e3 : tryRm fail (mapLast FName.created t) fs2 with
      | error fsE =>
        obtain rfl := tryRm_error_eq e3
        simp only [safeDeleteFS_def, e1, e2, e3]
        exact r2.trans r1
      | ok fs3 =>
        have r3 : readdir fs3 D = readdir fs2 D := by
          unfold tryRm at e3
          split at e3
          · split at e3
            · cases e3
            · cases e3; exact readdir_removeFile_of_childName_none fs2 _ D hcr
          · cases e3; rfl
        have r4 : readdir (dirCleanupStep fail fs3 t.dropLast) D = readdir fs3 D := by
          unfold dirCleanupStep
          split_ifs
          all_goals first
            | rfl
            | exact readdir_removeRecursive_of fs3 t.dropLast D (fun q hq => h q hq)
        simp only [safeDeleteFS_def, e1, e2, e3]
        exact r4.trans (r3.trans (r2.trans r1))

/-- Frame for `safeDelete` on a path `t` whose directory holds a surviving
*sibling* file `q`: the sibling keeps the directory non-empty, so the final
directory-cleanup step is a no-op; consequently every path other than the
three removed ones keeps its file data, and the directory set is untouched. -/
theorem safeDeleteFS_sibling_frame (fail : FPath → Bool) (t q : FPath) (fs : FS)
    (h1 : q ≠ t) (h2 : q ≠ mapLast FName.downloaded t) (h3 : q ≠ mapLast FName.created t)
    (h5 : q.dropLast = t.dropLast) (hne : q ≠ []) (h6 : fileExists fs q = true) :
    (∀ q', q' ≠ t → q' ≠ mapLast FName.downloaded t → q' ≠ mapLast FName.created t →
      lookupFile (safeDeleteFS fail t fs) q' = lookupFile fs q') ∧
      (∀ d', dirExists (safeDeleteFS fail t fs) d' = dirExists fs d') := by
  have hq : t.dropLast ++ [q.getLast hne] = q := by
    rw [← h5]
    exact List.dropLast_append_getLast hne
  cases e1 : tryRm fail t fs with
  | error fsE =>
    obtain rfl := tryRm_error_eq e1
    simp [safeDeleteFS_def, e1]
  | ok fs1 =>
    have d1 := tryRm_ok_dirs e1
    cases e2 : tryRm fail (mapLast FName.downloaded t) fs1 with
    | error fsE =>
      obtain rfl := tryRm_error_eq e2
      simp only [safeDeleteFS_def, e1, e2]
      exact ⟨fun q' hq1 _ _ => (tryRm_frame e1 q' hq1).1,
        fun d' => by unfold dirExists; rw [d1]⟩
    | ok fs2 =>
      have d2 := tryRm_ok_dirs e2
      cases e3 : tryRm fail (mapLast FName.created t) fs2 with
      | error fsE =>
        obtain rfl := tryRm_error_eq e3
        simp only [safeDeleteFS_def, e1, e2, e3]
        exact ⟨fun q' hq1 hq2 _ => ((tryRm_frame e2 q' hq2).1).trans (tryRm_frame e1 q' hq1).1,
          fun d' => by unfold dirExists; rw [d2, d1]⟩
      | ok fs3 =>
        have d3 := tryRm_ok_dirs e3
        have h63 : fileExists fs3 q = true := by
          unfold fileExists
          rw [(tryRm_frame e3 q h3).1, (tryRm_frame e2 q h2).1, (tryRm_frame e1 q h1).1]
          exact h6
        have hclean : dirCleanupStep fail fs3 t.dropLast = fs3 :=
          dirCleanup_of_file_child fail fs3 t.dropLast (q.getLast hne) (by rw [hq]; exact h63)
        simp only [safeDeleteFS_def, e1, e2, e3, hclean]
        exact ⟨fun q' hq1 hq2 hq3 =>
          ((tryRm_frame e3 q' hq3).1).trans
            (((tryRm_frame e2 q' hq2).1).trans (tryRm_frame e1 q' hq1).1),
          fun d' => by unfold dirExists; rw [d3, d2, d1]⟩

/-! ## Walk equation lemmas and per-entry frames -/

theorem purgeWalk_succ (ttlMs now : Int) (fuel : Nat) (dir : FPath) (st : SchedState) :
    purgeWalk ttlMs now (fuel+1) dir st =
      (readdir st.fs dir).foldl
        (fun st' e =>
          if e.2 then
            let full := dir ++ [e.1]
            let st2 := purgeWalk ttlMs now fuel full st'
            if existsSync st2.fs full && (readdir st2.fs full).isEmpty then
              { st2 with fs := removeRecursive st2.fs full }
            else st2
          else purgeEntryFile ttlMs now dir st' e.1)
        st := rfl

theorem hydrateWalk_succ (g now : Int) (fuel : Nat) (dir : FPath) (st : SchedState) :
    hydrateWalk g now (fuel+1) dir st =
      (readdir st.fs dir).foldl
        (fun st' e =>
          if e.2 then hydrateWalk g now fuel (dir ++ [e.1]) st'
          else hydrateEntry g now dir st' e.1)
        st := rfl

theorem lookupFile_scheduleDeletion_ne (p q : FPath) (d : Option Int) (now : Int)
    (st : SchedState) (h : q ≠ mapLast FName.downloaded p) :
    lookupFile (scheduleDeletion p d now st).fs q = lookupFile st.fs q :=
  lookupFile_writeFile_ne st.fs (mapLast FName.downloaded p) q (some now) now h

theorem dirExists_scheduleDeletion (p q : FPath) (d : Option Int) (now : Int)
    (st : SchedState) :
    dirExists (scheduleDeletion p d now st).fs q = dirExists st.fs q :=
  dirExists_writeFile st.fs (mapLast FName.downloaded p) q (some now) now

theorem purgeEntryFile_frame (ttlMs now : Int) (D : FPath) (st : SchedState) (n : FName)
    (q : FPath) (hq : ¬ D <+: q) :
    lookupFile (purgeEntryFile ttlMs now D st n).fs q = lookupFile st.fs q ∧
      dirExists (purgeEntryFile ttlMs now D st n).fs q = dirExists st.fs q ∧
      timersFor (purgeEntryFile ttlMs now D st n) q = timersFor st q := by
  cases n with
  | created m => exact ⟨rfl, rfl, rfl⟩
  | downloaded m => exact ⟨rfl, rfl, rfl⟩
  | base s =>
    show _ ∧ _ ∧ _
    simp only [purgeEntryFile]
    split
    all_goals split
    all_goals
      first
        | exact ⟨rfl, rfl, rfl⟩
        | exact safeDelete_frame noFail (D ++ [FName.base s]) q st
            (by intro hy; exact hq (by rw [hy]; exact prefix_append_singleton D _))
            (by rw [mapLast_append]; intro hy
                exact hq (by rw [hy]; exact prefix_append_singleton D _))
            (by rw [mapLast_append]; intro hy
                exact hq (by rw [hy]; exact prefix_append_singleton D _))
            (by rw [dropLast_append_singleton]; exact hq)

theorem hydrateEntry_frame (g now : Int) (D : FPath) (st : SchedState) (n : FName)
    (q : FPath) (hq : ¬ D <+: q) :
    lookupFile (hydrateEntry g now D st n).fs q = lookupFile st.fs q ∧
      dirExists (hydrateEntry g now D st n).fs q = dirExists st.fs q ∧
      timersFor (hydrateEntry g now D st n) q = timersFor st q := by
  have hqne : ∀ y : FName, q ≠ D ++ [y] := fun y hy => hq (hy ▸ prefix_append_singleton D y)
  cases n with
  | base s => exact ⟨rfl, rfl, rfl⟩
  | created m => exact ⟨rfl, rfl, rfl⟩
  | downloaded m =>
    show _ ∧ _ ∧ _
    simp only [hydrateEntry]
    split
    · exact ⟨lookupFile_removeFile_ne st.fs _ q (hqne _), rfl, rfl⟩
    · split
      · exact safeDelete_frame noFail (D ++ [m]) q st (hqne _)
          (by rw [mapLast_append]; exact hqne _)
          (by rw [mapLast_append]; exact hqne _)
          (by rw [dropLast_append_singleton]; exact hq)
      · refine ⟨?_, dirExists_scheduleDeletion _ q _ now st, ?_⟩
        · refine lookupFile_scheduleDeletion_ne _ q _ now st ?_
          rw [mapLast_append]
          exact hqne _
        · exact timersFor_scheduleDeletion_ne _ q _ now st (hqne _)

/-! ## Walk locality: everything outside the walked directory is untouched -/

theorem purgeWalk_frame (ttlMs now : Int) :
    ∀ (fuel : Nat) (D : FPath) (st : SchedState) (q : FPath), ¬ D <+: q →
      lookupFile (purgeWalk ttlMs now fuel D st).fs q = lookupFile st.fs q ∧
        dirExists (purgeWalk ttlMs now fuel D st).fs q = dirExists st.fs q ∧
        timersFor (purgeWalk ttlMs now fuel D st) q = timersFor st q := by
  intro fuel
  induction fuel with
  | zero => exact fun D st q hq => ⟨rfl, rfl, rfl⟩
  | succ fuel ih =>
    intro D st q hq
    have hqne : ∀ y : FName, q ≠ D ++ [y] := fun y hy => hq (hy ▸ prefix_append_singleton D y)
    have hsub : ∀ y : FName, ¬ (D ++ [y]) <+: q :=
      fun y hy => hq ((prefix_append_singleton D y).trans hy)
    rw [purgeWalk_succ]
    refine foldl_preserve _
      (fun s => lookupFile s.fs q = lookupFile st.fs q ∧
        dirExists s.fs q = dirExists st.fs q ∧ timersFor s q = timersFor st q)
      _ st ⟨rfl, rfl, rfl⟩ ?_
    rintro s ⟨x, k⟩ hmem hs
    cases k with
    | false =>
      have hf := purgeEntryFile_frame ttlMs now D s x q hq
      exact ⟨hf.1.trans hs.1, hf.2.1.trans hs.2.1, hf.2.2.trans hs.2.2⟩
    | true =>
      have hw := ih (D ++ [x]) s q (hsub x)
      show _ ∧ _ ∧ _
      simp only [if_true]
      split
      · refine ⟨?_, ?_, ?_⟩
        · show lookupFile (removeRecursive _ (D ++ [x])) q = _
          rw [lookupFile_removeRecursive_outside _ _ _ (hsub x)]
          exact hw.1.trans hs.1
        · show dirExists (removeRecursive _ (D ++ [x])) q = _
          rw [dirExists_removeRecursive_outside _ _ _ (hsub x)]
          exact hw.2.1.trans hs.2.1
        · exact hw.2.2.trans hs.2.2
      · exact ⟨hw.1.trans hs.1, hw.2.1.trans hs.2.1, hw.2.2.trans hs.2.2⟩

theorem hydrateWalk_frame (g now : Int) :
    ∀ (fuel : Nat) (D : FPath) (st : SchedState) (q : FPath), ¬ D <+: q →
      lookupFile (hydrateWalk g now fuel D st).fs q = lookupFile st.fs q ∧
        dirExists (hydrateWalk g now fuel D st).fs q = dirExists st.fs q ∧
        timersFor (hydrateWalk g now fuel D st) q = timersFor st q := by
  intro fuel
  induction fuel with
  | zero => exact fun D st q hq => ⟨rfl, rfl, rfl⟩
  | succ fuel ih =>
    intro D st q hq
    have hsub : ∀ y : FName, ¬ (D ++ [y]) <+: q :=
      fun y hy => hq ((prefix_append_singleton D y).trans hy)
    rw [hydrateWalk_succ]
    refine foldl_preserve _
      (fun s => lookupFile s.fs q = lookupFile st.fs q ∧
        dirExists s.fs q = dirExists st.fs q ∧ timersFor s q = timersFor st q)
      _ st ⟨rfl, rfl, rfl⟩ ?_
    rintro s ⟨x, k⟩ hmem hs
    cases k with
    | false =>
      have hf := hydrateEntry_frame g now D s x q hq
      exact ⟨hf.1.trans hs.1, hf.2.1.trans hs.2.1, hf.2.2.trans hs.2.2⟩
    | true =>
      have hw := ih (D ++ [x]) s q (hsub x)
      show _ ∧ _ ∧ _
      simp only [if_true]
      exact ⟨hw.1.trans hs.1, hw.2.1.trans hs.2.1, hw.2.2.trans hs.2.2⟩

/-! ## `readdir` preservation across whole walks of a disjoint subtree -/

theorem readdir_purgeEntryFile (ttlMs now : Int) (X : FPath) (st : SchedState) (n : FName)
    (D : FPath) (h : ∀ q, X <+: q → childName D q = none) :
    readdir (purgeEntryFile ttlMs now X st n).fs D = readdir st.fs D := by
  cases n with
  | created m => rfl
  | downloaded m => rfl
  | base s =>
    show readdir _ D = _
    simp only [purgeEntryFile]
    split
    all_goals split
    all_goals
      first
        | rfl
        | exact readdir_safeDeleteFS_of noFail (X ++ [FName.base s]) st.fs D
            (by rw [dropLast_append_singleton]; exact h)

theorem readdir_hydrateEntry (g now : Int) (X : FPath) (st : SchedState) (n : FName)
    (D : FPath) (h : ∀ q, X <+: q → childName D q = none) :
    readdir (hydrateEntry g now X st n).fs D = readdir st.fs D := by
  cases n with
  | base s => rfl
  | created m => rfl
  | downloaded m =>
    show readdir _ D = _
    simp only [hydrateEntry]
    split
    · exact readdir_removeFile_of_childName_none st.fs _ D
        (h _ (prefix_append_singleton X _))
    · split
      · exact readdir_safeDeleteFS_of noFail (X ++ [m]) st.fs D
          (by rw [dropLast_append_singleton]; exact h)
      · show readdir (writeFile st.fs (mapLast FName.downloaded (X ++ [m])) _ _) D = _
        refine readdir_writeFile_of_childName_none st.fs _ _ _ D ?_
        rw [mapLast_append]
        exact h _ (prefix_append_singleton X _)

theorem readdir_purgeWalk (ttlMs now : Int) :
    ∀ (fuel : Nat) (X : FPath) (st : SchedState) (D : FPath),
      (∀ q, X <+: q → childName D q = none) →
      readdir (purgeWalk ttlMs now fuel X st).fs D = readdir st.fs D := by
  intro fuel
  induction fuel with
  | zero => exact fun X st D h => rfl
  | succ fuel ih =>
    intro X st D h
    have hsub : ∀ (y : FName) (q : FPath), (X ++ [y]) <+: q → childName D q = none :=
      fun y q hy => h q ((prefix_append_singleton X y).trans hy)
    rw [purgeWalk_succ]
    refine foldl_preserve _ (fun s => readdir s.fs D = readdir st.fs D) _ st rfl ?_
    rintro s ⟨x, k⟩ hmem hs
    cases k with
    | false => exact (readdir_purgeEntryFile ttlMs now X s x D h).trans hs
    | true =>
      have hw := (ih (X ++ [x]) s D (hsub x)).trans hs
      show readdir _ D = _
      simp only [if_true]
      split
      · show readdir (removeRecursive _ (X ++ [x])) D = _
        rw [readdir_removeRecursive_of _ (X ++ [x]) D (hsub x)]
        exact hw
      · exact hw

theorem readdir_hydrateWalk (g now : Int) :
    ∀ (fuel : Nat) (X : FPath) (st : SchedState) (D : FPath),
      (∀ q, X <+: q → childName D q = none) →
      readdir (hydrateWalk g now fuel X st).fs D = readdir st.fs D := by
  intro fuel
  induction fuel with
  | zero => exact fun X st D h => rfl
  | succ fuel ih =>
    intro X st D h
    have hsub : ∀ (y : FName) (q : FPath), (X ++ [y]) <+: q → childName D q = none :=
      fun y q hy => h q ((prefix_append_singleton X y).trans hy)
    rw [hydrateWalk_succ]
    refine foldl_preserve _ (fun s => readdir s.fs D = readdir st.fs D) _ st rfl ?_
    rintro s ⟨x, k⟩ hmem hs
    cases k with
    | false => exact (readdir_hydrateEntry g now X s x D h).trans hs
    | true =>
      have hw := (ih (X ++ [x]) s D (hsub x)).trans hs
      show readdir _ D = _
      simp only [if_true]
      exact hw

/-! ## Walk monotonicity (no new files, no new directories) -/

theorem dirExists_mono_purgeEntryFile {ttlMs now : Int} {X : FPath} {st : SchedState}
    {n : FName} {q : FPath}
    (h : dirExists (purgeEntryFile ttlMs now X st n).fs q = true) :
    dirExists st.fs q = true := by
  cases n with
  | created m => exact h
  | downloaded m => exact h
  | base s =>
    simp only [purgeEntryFile] at h
    split at h
    all_goals split at h
    all_goals
      first
        | exact h
        | exact dirExists_mono_safeDeleteFS h

theorem fileExists_false_purgeEntryFile {ttlMs now : Int} {X : FPath} {st : SchedState}
    {n : FName} {q : FPath} (h : fileExists st.fs q = false) :
    fileExists (purgeEntryFile ttlMs now X st n).fs q = false := by
  cases n with
  | created m => exact h
  | downloaded m => exact h
  | base s =>
    simp only [purgeEntryFile]
    split
    all_goals split
    all_goals
      first
        | exact h
        | exact fileExists_false_safeDeleteFS noFail _ st.fs q h

theorem purgeWalk_no_new (ttlMs now : Int) :
    ∀ (fuel : Nat) (X : FPath) (st : SchedState) (q : FPath),
      (dirExists (purgeWalk ttlMs now fuel X st).fs q = true → dirExists st.fs q = true) ∧
      (fileExists st.fs q = false → fileExists (purgeWalk ttlMs now fuel X st).fs q = false) := by
  intro fuel
  induction fuel with
  | zero => exact fun X st q => ⟨fun h => h, fun h => h⟩
  | succ fuel ih =>
    intro X st q
    rw [purgeWalk_succ]
    refine foldl_preserve _
      (fun s => (dirExists s.fs q = true → dirExists st.fs q = true) ∧
        (fileExists st.fs q = false → fileExists s.fs q = false)) _ st
      ⟨fun h => h, fun h => h⟩ ?_
    rintro s ⟨x, k⟩ hmem hs
    cases k with
    | false =>
      exact ⟨fun h => hs.1 (dirExists_mono_purgeEntryFile h),
        fun h => fileExists_false_purgeEntryFile (hs.2 h)⟩
    | true =>
      have hw := ih (X ++ [x]) s q
      show (dirExists (if _ then _ else _ : SchedState).fs q = true → _) ∧ _
      simp only [if_true]
      split
      · refine ⟨fun h => ?_, fun h => ?_⟩
        · exact hs.1 (hw.1 (dirExists_mono_removeRecursive h))
        · exact fileExists_false_removeRecursive (hw.2 (hs.2 h))
      · exact ⟨fun h => hs.1 (hw.1 h), fun h => hw.2 (hs.2 h)⟩

theorem append_singleton_inj {A B : FPath} {x y : FName} (h : A ++ [x] = B ++ [y]) :
    A = B ∧ x = y := by
  have := List.append_inj' h rfl
  exact ⟨this.1, by injection this.2⟩

theorem dirExists_mono_hydrateEntry {g now : Int} {X : FPath} {st : SchedState}
    {n : FName} {q : FPath}
    (h : dirExists (hydrateEntry g now X st n).fs q = true) :
    dirExists st.fs q = true := by
  cases n with
  | base s => exact h
  | created m => exact h
  | downloaded m =>
    simp only [hydrateEntry] at h
    split at h
    · exact dirExists_mono_removeFile h
    · split at h
      · exact dirExists_mono_safeDeleteFS h
      · rwa [dirExists_scheduleDeletion] at h

theorem fileExists_false_hydrateEntry {g now : Int} {X : FPath} {st : SchedState}
    {n : FName} {q : FPath} (hbase : ∃ A b, q = A ++ [FName.base b])
    (h : fileExists st.fs q = false) :
    fileExists (hydrateEntry g now X st n).fs q = false := by
  cases n with
  | base s => exact h
  | created m => exact h
  | downloaded m =>
    simp only [hydrateEntry]
    split
    · exact fileExists_false_removeFile h
    · split
      · exact fileExists_false_safeDeleteFS noFail _ st.fs q h
      · show fileExists (writeFile st.fs (mapLast FName.downloaded (X ++ [m])) _ _) q = false
        rw [mapLast_append, fileExists_writeFile_ne]
        · exact h
        · obtain ⟨A, b, rfl⟩ := hbase
          intro hy
          exact absurd (append_singleton_inj hy).2 (by intro hc; cases hc)

theorem hydrateWalk_no_new (g now : Int) :
    ∀ (fuel : Nat) (X : FPath) (st : SchedState) (q : FPath),
      (∃ A b, q = A ++ [FName.base b]) →
      (dirExists (hydrateWalk g now fuel X st).fs q = true → dirExists st.fs q = true) ∧
      (fileExists st.fs q = false → fileExists (hydrateWalk g now fuel X st).fs q = false) := by
  intro fuel
  induction fuel with
  | zero => exact fun X st q _ => ⟨fun h => h, fun h => h⟩
  | succ fuel ih =>
    intro X st q hbase
    rw [hydrateWalk_succ]
    refine foldl_preserve _
      (fun s => (dirExists s.fs q = true → dirExists st.fs q = true) ∧
        (fileExists st.fs q = false → fileExists s.fs q = false)) _ st
      ⟨fun h => h, fun h => h⟩ ?_
    rintro s ⟨x, k⟩ hmem hs
    cases k with
    | false =>
      exact ⟨fun h => hs.1 (dirExists_mono_hydrateEntry h),
        fun h => fileExists_false_hydrateEntry hbase (hs.2 h)⟩
    | true =>
      have hw := ih (X ++ [x]) s q hbase
      show (dirExists (hydrateWalk g now fuel (X ++ [x]) s).fs q = true → _) ∧ _
      exact ⟨fun h => hs.1 (hw.1 h), fun h => hw.2 (hs.2 h)⟩

theorem timersFor_purgeEntryFile_ne {ttlMs now : Int} {D : FPath} {st : SchedState}
    {n : FName} {q : FPath} (hqn : q ≠ D ++ [n]) :
    timersFor (purgeEntryFile ttlMs now D st n) q = timersFor st q := by
  cases n with
  | created m => rfl
  | downloaded m => rfl
  | base s =>
    show timersFor _ q = _
    simp only [purgeEntryFile]
    split
    all_goals split
    all_goals
      first
        | rfl
        | exact timersFor_safeDelete_ne noFail _ q st hqn

theorem purgeWalk_timers_no_file (ttlMs now : Int) :
    ∀ (fuel : Nat) (D : FPath) (st : SchedState) (q : FPath),
      fileExists st.fs q = false →
      timersFor (purgeWalk ttlMs now fuel D st) q = timersFor st q ∧
        fileExists (purgeWalk ttlMs now fuel D st).fs q = false := by
  intro fuel
  induction fuel with
  | zero => exact fun D st q hq => ⟨rfl, hq⟩
  | succ fuel ih =>
    intro D st q hq
    rw [purgeWalk_succ]
    refine foldl_preserve _
      (fun s => timersFor s q = timersFor st q ∧ fileExists s.fs q = false) _ st
      ⟨rfl, hq⟩ ?_
    rintro s ⟨x, k⟩ hmem hs
    cases k with
    | false =>
      have hstat : fileExists st.fs (D ++ [x]) = true := by
        rcases of_mem_readdir hmem with ⟨hk, -⟩ | ⟨-, hf⟩
        · cases hk
        · exact hf
      have hqn : q ≠ D ++ [x] := by
        intro hy
        rw [hy] at hq
        rw [hq] at hstat
        cases hstat
      exact ⟨(timersFor_purgeEntryFile_ne hqn).trans hs.1,
        fileExists_false_purgeEntryFile hs.2⟩
    | true =>
      have hw := ih (D ++ [x]) s q hs.2
      show timersFor (if _ then _ else _ : SchedState) q = _ ∧ _
      simp only [if_true]
      split
      · exact ⟨hw.1.trans hs.1, fileExists_false_removeRecursive hw.2⟩
      · exact ⟨hw.1.trans hs.1, hw.2⟩

/-! ## The well-formed two-level layout `<outputRoot>/<requestId>/<file>` -/

/-- The filesystem layout the service maintains (spec §3, §6): the output
root exists; directories are the root and request directories directly
below it; every regular file sits directly inside a request directory;
association lists have no duplicate keys. -/
structure TwoLevel (root : FPath) (σ : SchedState) : Prop where
  root_dir : root ∈ σ.fs.dirs
  dirs_shape : ∀ d ∈ σ.fs.dirs, d = root ∨ ∃ r, d = root ++ [r]
  files_shape : ∀ e ∈ σ.fs.files, ∃ r n, e.1 = (root ++ [r]) ++ [n] ∧ (root ++ [r]) ∈ σ.fs.dirs
  keys_nodup : (σ.fs.files.map (fun e => e.1)).Nodup
  dirs_nodup : σ.fs.dirs.Nodup

theorem lookupFile_some_mem {fs : FS} {p : FPath} {fd : FileData}
    (h : lookupFile fs p = some fd) : (p, fd) ∈ fs.files := by
  unfold lookupFile at h
  cases hf : fs.files.find? (fun e => decide (e.1 = p)) with
  | none => rw [hf] at h; cases h
  | some e =>
    rw [hf] at h
    have hm := List.mem_of_find?_eq_some hf
    have hp := List.find?_some hf
    simp only [decide_eq_true_eq] at hp
    simp only [Option.map_some'] at h
    cases h
    have : e = (e.1, e.2) := rfl
    rw [this, hp] at hm
    exact hm

theorem length_two_ne_one {root : FPath} {r n : FName} {x : FName} :
    (root ++ [r]) ++ [n] ≠ root ++ [x] := by
  intro h
  have := congrArg List.length h
  simp at this

theorem readdir_root_entries {root : FPath} {σ : SchedState} (H : TwoLevel root σ) :
    ∀ e ∈ readdir σ.fs root, e.2 = true ∧ (root ++ [e.1]) ∈ σ.fs.dirs := by
  rintro ⟨x, k⟩ he
  rcases of_mem_readdir he with ⟨hk, hd⟩ | ⟨hk, hf⟩
  · exact ⟨hk, hd⟩
  · exfalso
    rw [fileExists_true_iff] at hf
    obtain ⟨e, hmem, hK⟩ := hf
    obtain ⟨r, n, hshape, -⟩ := H.files_shape e hmem
    rw [hK] at hshape
    exact length_two_ne_one hshape.symm

theorem readdir_reqdir_entries {root : FPath} {σ : SchedState} (H : TwoLevel root σ)
    (r : FName) :
    ∀ e ∈ readdir σ.fs (root ++ [r]), e.2 = false ∧
      fileExists σ.fs ((root ++ [r]) ++ [e.1]) = true := by
  rintro ⟨x, k⟩ he
  rcases of_mem_readdir he with ⟨hk, hd⟩ | ⟨hk, hf⟩
  · exfalso
    rcases H.dirs_shape _ hd with hroot | ⟨r', hreq⟩
    · have := congrArg List.length hroot
      simp at this
    · have := congrArg List.length hreq
      simp at this
  · exact ⟨hk, hf⟩

theorem childName_eq_some {d q : FPath} {n : FName} (h : childName d q = some n) :
    q = d ++ [n] := by
  obtain ⟨hdrop, m, rfl⟩ := childName_ne_none_parent (by rw [h]; exact Option.some_ne_none n)
  rw [childName_self_append] at h
  cases h
  rfl

theorem readdir_root_eq_dirsPart {root : FPath} {σ : SchedState} (H : TwoLevel root σ) :
    readdir σ.fs root
      = σ.fs.dirs.filterMap (fun q => (childName root q).map (fun n => (n, true))) := by
  unfold readdir
  have hnil : σ.fs.files.filterMap
      (fun e => (childName root e.1).map (fun n => (n, false))) = [] := by
    rw [List.filterMap_eq_nil_iff]
    intro e he
    obtain ⟨r, n, hshape, -⟩ := H.files_shape e he
    rw [hshape]
    unfold childName
    rw [dropLast_append_singleton,
      if_neg (by intro h; have := congrArg List.length h; simp at this)]
    rfl
  rw [hnil, List.append_nil]

theorem readdir_root_names_nodup {root : FPath} {σ : SchedState} (H : TwoLevel root σ) :
    ((readdir σ.fs root).map Prod.fst).Nodup := by
  rw [readdir_root_eq_dirsPart H, List.map_filterMap]
  have heq : ∀ q : FPath,
      ((childName root q).map (fun n => (n, true))).map Prod.fst = childName root q := by
    intro q; cases childName root q <;> rfl
  rw [List.filterMap_congr (fun q _ => heq q)]
  refine List.Nodup.filterMap ?_ H.dirs_nodup
  intro a a' b hb hb'
  rw [Option.mem_def] at hb hb'
  rw [childName_eq_some hb, childName_eq_some hb']

theorem readdir_reqdir_eq_filesPart {root : FPath} {σ : SchedState} (H : TwoLevel root σ)
    (r : FName) :
    readdir σ.fs (root ++ [r])
      = σ.fs.files.filterMap
          (fun e => (childName (root ++ [r]) e.1).map (fun n => (n, false))) := by
  unfold readdir
  have hnil : σ.fs.dirs.filterMap
      (fun q => (childName (root ++ [r]) q).map (fun n => (n, true))) = [] := by
    rw [List.filterMap_eq_nil_iff]
    intro d hd
    rcases H.dirs_shape d hd with rfl | ⟨r', rfl⟩
    · unfold childName
      rw [if_neg (by
        intro h
        have := congrArg List.length h
        rw [List.length_dropLast] at this
        simp at this)]
      rfl
    · unfold childName
      rw [dropLast_append_singleton,
        if_neg (by intro h; have := congrArg List.length h; simp at this)]
      rfl
  rw [hnil, List.nil_append]

theorem readdir_reqdir_names_nodup {root : FPath} {σ : SchedState} (H : TwoLevel root σ)
    (r : FName) :
    ((readdir σ.fs (root ++ [r])).map Prod.fst).Nodup := by
  rw [readdir_reqdir_eq_filesPart H r, List.map_filterMap]
  have heq : ∀ e : FPath × FileData,
      ((childName (root ++ [r]) e.1).map (fun n => (n, false))).map Prod.fst
        = childName (root ++ [r]) e.1 := by
    intro e; cases childName (root ++ [r]) e.1 <;> rfl
  rw [List.filterMap_congr (fun e _ => heq e)]
  have : σ.fs.files.filterMap (fun e => childName (root ++ [r]) e.1)
      = (σ.fs.files.map (fun e => e.1)).filterMap (childName (root ++ [r])) := by
    rw [List.filterMap_map]
    rfl
  rw [this]
  refine List.Nodup.filterMap ?_ H.keys_nodup
  intro a a' b hb hb'
  rw [Option.mem_def] at hb hb'
  rw [childName_eq_some hb, childName_eq_some hb']

theorem split_at_name {E : List (FName × Bool)} {x : FName} {k : Bool}
    (hmem : (x, k) ∈ E) (hnn : (E.map Prod.fst).Nodup) :
    ∃ E₁ E₂, E = E₁ ++ (x, k) :: E₂ ∧ (∀ e ∈ E₁, e.1 ≠ x) ∧ (∀ e ∈ E₂, e.1 ≠ x) := by
  obtain ⟨E₁, E₂, rfl⟩ := List.append_of_mem hmem
  rw [List.map_append, List.map_cons, List.nodup_append] at hnn
  obtain ⟨h₁, h₂, hdisj⟩ := hnn
  rw [List.nodup_cons] at h₂
  refine ⟨E₁, E₂, rfl, ?_, ?_⟩
  · intro e he hx
    have hin : x ∈ E₁.map Prod.fst := by
      rw [← hx]
      exact List.mem_map_of_mem Prod.fst he
    exact hdisj hin (List.mem_cons_self _ _)
  · intro e he hx
    have hin : x ∈ E₂.map Prod.fst := by
      rw [← hx]
      exact List.mem_map_of_mem Prod.fst he
    exact h₂.1 hin

/-! ## Named step functions for the walk folds -/

/-- The directory branch of `purgeOlderThan`'s walk body (recurse, then
remove the directory when it ended up empty). -/
def purgeDirStep (ttlMs now : Int) (fuel : Nat) (dir : FPath) (st' : SchedState)
    (x : FName) : SchedState :=
  let full := dir ++ [x]
  let st2 := purgeWalk ttlMs now fuel full st'
  if existsSync st2.fs full && (readdir st2.fs full).isEmpty then
    { st2 with fs := removeRecursive st2.fs full }
  else st2

/-- One iteration of `purgeOlderThan`'s walk loop. -/
def purgeStep (ttlMs now : Int) (fuel : Nat) (dir : FPath) (st' : SchedState)
    (e : FName × Bool) : SchedState :=
  if e.2 then purgeDirStep ttlMs now fuel dir st' e.1
  else purgeEntryFile ttlMs now dir st' e.1

theorem purgeWalk_eq_foldl (ttlMs now : Int) (fuel : Nat) (dir : FPath) (st : SchedState) :
    purgeWalk ttlMs now (fuel+1) dir st
      = (readdir st.fs dir).foldl (purgeStep ttlMs now fuel dir) st := rfl

/-- One iteration of `hydrateFromDisk`'s walk loop. -/
def hydrateStep (g now : Int) (fuel : Nat) (dir : FPath) (st' : SchedState)
    (e : FName × Bool) : SchedState :=
  if e.2 then hydrateWalk g now fuel (dir ++ [e.1]) st'
  else hydrateEntry g now dir st' e.1

theorem hydrateWalk_eq_foldl (g now : Int) (fuel : Nat) (dir : FPath) (st : SchedState) :
    hydrateWalk g now (fuel+1) dir st
      = (readdir st.fs dir).foldl (hydrateStep g now fuel dir) st := rfl

/-! ## Helpers for the layout theorems -/

theorem TwoLevel.no_deep_dir {root : FPath} {σ : SchedState} (H : TwoLevel root σ)
    (r n : FName) : dirExists σ.fs ((root ++ [r]) ++ [n]) = false := by
  unfold dirExists
  rw [decide_eq_false_iff_not]
  intro hmem
  rcases H.dirs_shape _ hmem with h | ⟨r', h⟩
  · have := congrArg List.length h
    simp at this
  · have := congrArg List.length h
    simp at this

theorem not_prefix_sibling {A : FPath} {x y : FName} (hxy : x ≠ y) (t : FPath) :
    ¬ (A ++ [x]) <+: ((A ++ [y]) ++ t) := by
  rw [List.append_assoc]
  intro hp
  exact hxy ((append_singleton_prefix_iff A x y t).mp hp)

theorem exists_fuel_succ {root : FPath} {σ : SchedState} (H : TwoLevel root σ) :
    ∃ k, walkFuel σ.fs = k + 2 := by
  unfold walkFuel
  have hlen : σ.fs.dirs.length ≠ 0 := by
    intro h0
    rw [List.length_eq_zero] at h0
    have := H.root_dir
    rw [h0] at this
    cases this
  obtain ⟨m, hm⟩ := Nat.exists_eq_succ_of_ne_zero hlen
  exact ⟨m, by rw [hm]⟩

/-- The effective creation time the sweep uses for a regular file with stat
data `fd` (deleteScheduler.ts:138-151): the `.created` marker parse when
that marker exists (a non-finite parse counts as `0`), else
`st.mtimeMs || st.ctimeMs || now`. -/
def effectiveCreatedAt (fs : FS) (p : FPath) (fd : FileData) (now : Int) : Int :=
  if fileExists fs (mapLast FName.created p) then
    (readContent fs (mapLast FName.created p)).getD 0
  else if fd.mtimeMs ≠ 0 then fd.mtimeMs
  else if fd.ctimeMs ≠ 0 then fd.ctimeMs
  else now

/-! ## Step-level lemmas for the sweep theorems -/

theorem purgeDirStep_frame (ttlMs now : Int) (fuel : Nat) (A : FPath) (s : SchedState)
    (x : FName) (q : FPath) (hq : ¬ (A ++ [x]) <+: q) :
    lookupFile (purgeDirStep ttlMs now fuel A s x).fs q = lookupFile s.fs q ∧
      dirExists (purgeDirStep ttlMs now fuel A s x).fs q = dirExists s.fs q ∧
      timersFor (purgeDirStep ttlMs now fuel A s x) q = timersFor s q := by
  unfold purgeDirStep
  dsimp only
  have hw := purgeWalk_frame ttlMs now fuel (A ++ [x]) s q hq
  split
  · exact ⟨(lookupFile_removeRecursive_outside _ _ _ hq).trans hw.1,
      (dirExists_removeRecursive_outside _ _ _ hq).trans hw.2.1, hw.2.2⟩
  · exact hw

theorem readdir_purgeDirStep (ttlMs now : Int) (fuel : Nat) (A : FPath) (s : SchedState)
    (x : FName) (D : FPath) (h : ∀ q, (A ++ [x]) <+: q → childName D q = none) :
    readdir (purgeDirStep ttlMs now fuel A s x).fs D = readdir s.fs D := by
  unfold purgeDirStep
  dsimp only
  split
  · exact (readdir_removeRecursive_of _ _ _ h).trans
      (readdir_purgeWalk ttlMs now fuel (A ++ [x]) s D h)
  · exact readdir_purgeWalk ttlMs now fuel (A ++ [x]) s D h

theorem purgeDirStep_no_new (ttlMs now : Int) (fuel : Nat) (A : FPath) (s : SchedState)
    (x : FName) (q : FPath) :
    (dirExists (purgeDirStep ttlMs now fuel A s x).fs q = true → dirExists s.fs q = true) ∧
      (fileExists s.fs q = false →
        fileExists (purgeDirStep ttlMs now fuel A s x).fs q = false) := by
  unfold purgeDirStep
  dsimp only
  have hw := purgeWalk_no_new ttlMs now fuel (A ++ [x]) s q
  split
  · exact ⟨fun h => hw.1 (dirExists_mono_removeRecursive h),
      fun h => fileExists_false_removeRecursive (hw.2 h)⟩
  · exact hw

/-- The condition under which a subtree walk cannot disturb `readdir _ D`:
the walked directory is a different request directory. -/
theorem childName_none_of_other_subtree {A : FPath} {x y : FName} (hxy : x ≠ y) :
    ∀ q, (A ++ [x]) <+: q → childName (A ++ [y]) q = none := by
  intro q hq
  rcases hcn : childName (A ++ [y]) q with _ | n
  · rfl
  · exfalso
    rw [childName_eq_some hcn] at hq
    exact not_prefix_sibling hxy [n] hq

theorem purgeEntryFile_sibling (ttlMs now : Int) (D : FPath) (s : SchedState) (g : String)
    (q w : FPath)
    (hq1 : q ≠ D ++ [FName.base g])
    (hq2 : q ≠ D ++ [FName.downloaded (FName.base g)])
    (hq3 : q ≠ D ++ [FName.created (FName.base g)])
    (hw1 : w ≠ D ++ [FName.base g])
    (hw2 : w ≠ D ++ [FName.downloaded (FName.base g)])
    (hw3 : w ≠ D ++ [FName.created (FName.base g)])
    (hq5 : q.dropLast = D) (hqne : q ≠ []) (hqfile : fileExists s.fs q = true) :
    lookupFile (purgeEntryFile ttlMs now D s (FName.base g)).fs q = lookupFile s.fs q ∧
      lookupFile (purgeEntryFile ttlMs now D s (FName.base g)).fs w = lookupFile s.fs w ∧
      (∀ d', dirExists (purgeEntryFile ttlMs now D s (FName.base g)).fs d'
        = dirExists s.fs d') := by
  show _ ∧ _ ∧ _
  simp only [purgeEntryFile]
  split
  all_goals split
  all_goals
    first
      | exact ⟨rfl, rfl, fun _ => rfl⟩
      | (have hsib := safeDeleteFS_sibling_frame noFail (D ++ [FName.base g]) q s.fs hq1
            (by rw [mapLast_append]; exact hq2) (by rw [mapLast_append]; exact hq3)
            (by rw [dropLast_append_singleton]; exact hq5) hqne hqfile
         exact ⟨hsib.1 q hq1 (by rw [mapLast_append]; exact hq2)
            (by rw [mapLast_append]; exact hq3),
          hsib.1 w hw1 (by rw [mapLast_append]; exact hw2)
            (by rw [mapLast_append]; exact hw3),
          fun d' => by
            show dirExists (safeDeleteFS noFail (D ++ [FName.base g]) s.fs) d' = _
            rw [(hsib.2 d' : _)]⟩)

theorem purgeEntryFile_target_fresh (ttlMs now : Int) (D : FPath) (s : SchedState)
    (b : String) (fd : FileData) (mv : Option FileData)
    (hlp : lookupFile s.fs (D ++ [FName.base b]) = some fd)
    (hlm : lookupFile s.fs (D ++ [FName.created (FName.base b)]) = mv)
    (hdm : dirExists s.fs (D ++ [FName.created (FName.base b)]) = false)
    (hfresh : ¬ (ttlMs ≤ now - (if mv.isSome then ((mv.bind (fun m => m.content)).getD 0)
      else if fd.mtimeMs ≠ 0 then fd.mtimeMs
      else if fd.ctimeMs ≠ 0 then fd.ctimeMs else now))) :
    purgeEntryFile ttlMs now D s (FName.base b) = s := by
  have hmark : existsSync s.fs (mapLast FName.created (D ++ [FName.base b])) = mv.isSome := by
    rw [mapLast_append]
    unfold existsSync fileExists
    rw [hlm, hdm, Bool.or_false]
  have hread : readContent s.fs (mapLast FName.created (D ++ [FName.base b]))
      = mv.bind (fun m => m.content) := by
    rw [mapLast_append]
    unfold readContent
    rw [hlm]
  show purgeEntryFile _ _ _ _ _ = s
  simp only [purgeEntryFile, hmark, hread, hlp]
  cases hmv : mv with
  | some m =>
    rw [hmv] at hfresh
    simp only [hmv, Option.isSome_some, if_true]
    rw [if_neg (by simpa using hfresh)]
  | none =>
    rw [hmv] at hfresh
    simp only [hmv, Option.isSome_none, Bool.false_eq_true, if_false]
    rw [if_neg (by simpa using hfresh)]

theorem purgeEntryFile_target_expired (ttlMs now : Int) (D : FPath) (s : SchedState)
    (b : String) (fd : FileData) (mv : Option FileData)
    (hlp : lookupFile s.fs (D ++ [FName.base b]) = some fd)
    (hlm : lookupFile s.fs (D ++ [FName.created (FName.base b)]) = mv)
    (hdm : dirExists s.fs (D ++ [FName.created (FName.base b)]) = false)
    (hdp : dirExists s.fs (D ++ [FName.base b]) = false)
    (hdd : dirExists s.fs (D ++ [FName.downloaded (FName.base b)]) = false)
    (hexp : ttlMs ≤ now - (if mv.isSome then ((mv.bind (fun m => m.content)).getD 0)
      else if fd.mtimeMs ≠ 0 then fd.mtimeMs
      else if fd.ctimeMs ≠ 0 then fd.ctimeMs else now)) :
    purgeEntryFile ttlMs now D s (FName.base b)
      = safeDelete noFail (D ++ [FName.base b]) s ∧
      fileExists (purgeEntryFile ttlMs now D s (FName.base b)).fs (D ++ [FName.base b])
        = false := by
  have hmark : existsSync s.fs (mapLast FName.created (D ++ [FName.base b])) = mv.isSome := by
    rw [mapLast_append]
    unfold existsSync fileExists
    rw [hlm, hdm, Bool.or_false]
  have hread : readContent s.fs (mapLast FName.created (D ++ [FName.base b]))
      = mv.bind (fun m => m.content) := by
    rw [mapLast_append]
    unfold readContent
    rw [hlm]
  have heq : purgeEntryFile ttlMs now D s (FName.base b)
      = safeDelete noFail (D ++ [FName.base b]) s := by
    show purgeEntryFile _ _ _ _ _ = _
    simp only [purgeEntryFile, hmark, hread, hlp]
    cases hmv : mv with
    | some m =>
      rw [hmv] at hexp
      simp only [hmv, Option.isSome_some, if_true]
      rw [if_pos (by simpa using hexp)]
    | none =>
      rw [hmv] at hexp
      simp only [hmv, Option.isSome_none, Bool.false_eq_true, if_false]
      rw [if_pos (by simpa using hexp)]
  refine ⟨heq, ?_⟩
  rw [heq]
  show fileExists (safeDeleteFS noFail (D ++ [FName.base b]) s.fs) _ = false
  rw [safeDeleteFS_noFail_eq _ _ hdp (by rw [mapLast_append]; exact hdd)
    (by rw [mapLast_append]; exact hdm)]
  refine fileExists_false_dirCleanup ?_
  refine fileExists_false_removeFile (fileExists_false_removeFile ?_)
  exact fileExists_removeFile_self s.fs _

/-! ## Claim C3: what the TTL sweep deletes -/

/-- Claim C3 (amended): for a regular non-marker file `<root>/<r>/<b>` of a
well-formed output tree, the TTL sweep deletes it exactly when
`now - effectiveCreatedAt ≥ ttlMs`, where the effective creation time is
the `.created` marker parse when that marker exists (non-finite content
counting as `0`) and otherwise `mtimeMs || ctimeMs || now` from the file's
own stat data; whether a `.downloaded` marker exists is irrelevant. -/
theorem purge_deletes_iff_expired
    (root : FPath) (σ : SchedState) (ttlMs now : Int) (r : FName) (b : String)
    (fd : FileData) (H : TwoLevel root σ)
    (hp : lookupFile σ.fs ((root ++ [r]) ++ [FName.base b]) = some fd) :
    fileExists (purgeOlderThan root ttlMs now σ).fs ((root ++ [r]) ++ [FName.base b])
      = ! decide (ttlMs ≤ now -
          effectiveCreatedAt σ.fs ((root ++ [r]) ++ [FName.base b]) fd now) := by
  have hpfile : fileExists σ.fs ((root ++ [r]) ++ [FName.base b]) = true := by
    unfold fileExists
    rw [hp]
    rfl
  have hDrdirs : (root ++ [r]) ∈ σ.fs.dirs := by
    obtain ⟨r', n', hshape, hdir⟩ := H.files_shape _ (lookupFile_some_mem hp)
    obtain ⟨h2, h3⟩ := append_singleton_inj hshape
    rw [h2]
    exact hdir
  have hroot_ex : existsSync σ.fs root = true := by
    have hd : dirExists σ.fs root = true := by
      unfold dirExists
      simpa using H.root_dir
    unfold existsSync
    rw [hd, Bool.or_true]
  obtain ⟨k, hk⟩ := exists_fuel_succ H
  have hECA : effectiveCreatedAt σ.fs ((root ++ [r]) ++ [FName.base b]) fd now
      = (if (lookupFile σ.fs ((root ++ [r]) ++ [FName.created (FName.base b)])).isSome
          then (((lookupFile σ.fs ((root ++ [r]) ++ [FName.created (FName.base b)])).bind
            (fun m => m.content)).getD 0)
          else if fd.mtimeMs ≠ 0 then fd.mtimeMs
          else if fd.ctimeMs ≠ 0 then fd.ctimeMs else now) := by
    unfold effectiveCreatedAt fileExists readContent
    rw [mapLast_append]
  -- name inequalities between the target, its markers, and a sibling `g`
  have hpne : ∀ g : FName, g ≠ FName.base b →
      (root ++ [r]) ++ [FName.base b] ≠ (root ++ [r]) ++ [g] :=
    fun g hg h => hg ((append_singleton_inj h).2).symm
  have hcrne : ∀ g : FName, FName.created (FName.base b) ≠ g →
      (root ++ [r]) ++ [FName.created (FName.base b)] ≠ (root ++ [r]) ++ [g] :=
    fun g hg h => hg (append_singleton_inj h).2
  unfold purgeOlderThan
  rw [if_pos hroot_ex, hk, purgeWalk_eq_foldl]
  obtain ⟨E₁, E₂, hE, hne₁, hne₂⟩ :=
    split_at_name (mem_readdir_dir σ.fs root r hDrdirs) (readdir_root_names_nodup H)
  rw [hE, List.foldl_append, List.foldl_cons]
  -- invariant preserved by root-level steps on other request directories
  have hOtherStep : ∀ (s : SchedState) (e : FName × Bool), e ∈ readdir σ.fs root →
      e.1 ≠ r →
      (lookupFile s.fs ((root ++ [r]) ++ [FName.base b]) = some fd ∧
        lookupFile s.fs ((root ++ [r]) ++ [FName.created (FName.base b)])
          = lookupFile σ.fs ((root ++ [r]) ++ [FName.created (FName.base b)]) ∧
        readdir s.fs (root ++ [r]) = readdir σ.fs (root ++ [r]) ∧
        (∀ X, dirExists s.fs X = true → dirExists σ.fs X = true)) →
      (lookupFile (purgeStep ttlMs now (k+1) root s e).fs
          ((root ++ [r]) ++ [FName.base b]) = some fd ∧
        lookupFile (purgeStep ttlMs now (k+1) root s e).fs
            ((root ++ [r]) ++ [FName.created (FName.base b)])
          = lookupFile σ.fs ((root ++ [r]) ++ [FName.created (FName.base b)]) ∧
        readdir (purgeStep ttlMs now (k+1) root s e).fs (root ++ [r])
          = readdir σ.fs (root ++ [r]) ∧
        (∀ X, dirExists (purgeStep ttlMs now (k+1) root s e).fs X = true →
          dirExists σ.fs X = true)) := by
    rintro s ⟨x, kk⟩ hmem hxr hs
    obtain ⟨hkk, hxd⟩ := readdir_root_entries H _ hmem
    have hkk' : kk = true := hkk
    subst hkk'
    show (lookupFile (purgeDirStep ttlMs now (k+1) root s x).fs _ = _) ∧ _
    have hxr' : x ≠ r := hxr
    have hfr1 := purgeDirStep_frame ttlMs now (k+1) root s x
      ((root ++ [r]) ++ [FName.base b]) (not_prefix_sibling hxr' _)
    have hfr2 := purgeDirStep_frame ttlMs now (k+1) root s x
      ((root ++ [r]) ++ [FName.created (FName.base b)]) (not_prefix_sibling hxr' _)
    have hrd := readdir_purgeDirStep ttlMs now (k+1) root s x (root ++ [r])
      (childName_none_of_other_subtree hxr')
    refine ⟨hfr1.1.trans hs.1, hfr2.1.trans hs.2.1, hrd.trans hs.2.2.1, fun X hX => ?_⟩
    exact hs.2.2.2 X ((purgeDirStep_no_new ttlMs now (k+1) root s x X).1 hX)
  -- stage 1: fold over the earlier sibling directories
  have hst₁ := foldl_preserve (purgeStep ttlMs now (k+1) root)
    (fun s => lookupFile s.fs ((root ++ [r]) ++ [FName.base b]) = some fd ∧
      lookupFile s.fs ((root ++ [r]) ++ [FName.created (FName.base b)])
        = lookupFile σ.fs ((root ++ [r]) ++ [FName.created (FName.base b)]) ∧
      readdir s.fs (root ++ [r]) = readdir σ.fs (root ++ [r]) ∧
      (∀ X, dirExists s.fs X = true → dirExists σ.fs X = true))
    E₁ σ ⟨hp, rfl, rfl, fun X hX => hX⟩
    (fun s e he hs => hOtherStep s e (by rw [hE]; exact List.mem_append_left _ he)
      (hne₁ e he) hs)
  set s1 := List.foldl (purgeStep ttlMs now (k+1) root) σ E₁ with hs1def
  -- the target request-directory step
  have hstep_eq : purgeStep ttlMs now (k+1) root s1 (r, true)
      = purgeDirStep ttlMs now (k+1) root s1 r := rfl
  rw [hstep_eq]
  have hwalk_eq : purgeWalk ttlMs now (k+1) (root ++ [r]) s1
      = (readdir σ.fs (root ++ [r])).foldl (purgeStep ttlMs now k (root ++ [r])) s1 := by
    rw [purgeWalk_eq_foldl, hst₁.2.2.1]
  obtain ⟨F₁, F₂, hFsplit, hgne₁, hgne₂⟩ :=
    split_at_name (mem_readdir_file σ.fs (root ++ [r]) (FName.base b) hpfile)
      (readdir_reqdir_names_nodup H r)
  -- invariant preserved by in-directory steps on sibling entries
  have hInnerOther : ∀ (s : SchedState) (e : FName × Bool),
      e ∈ readdir σ.fs (root ++ [r]) → e.1 ≠ FName.base b →
      (lookupFile s.fs ((root ++ [r]) ++ [FName.base b]) = some fd ∧
        lookupFile s.fs ((root ++ [r]) ++ [FName.created (FName.base b)])
          = lookupFile σ.fs ((root ++ [r]) ++ [FName.created (FName.base b)]) ∧
        (∀ X, dirExists s.fs X = true → dirExists σ.fs X = true)) →
      (lookupFile (purgeStep ttlMs now k (root ++ [r]) s e).fs
          ((root ++ [r]) ++ [FName.base b]) = some fd ∧
        lookupFile (purgeStep ttlMs now k (root ++ [r]) s e).fs
            ((root ++ [r]) ++ [FName.created (FName.base b)])
          = lookupFile σ.fs ((root ++ [r]) ++ [FName.created (FName.base b)]) ∧
        (∀ X, dirExists (purgeStep ttlMs now k (root ++ [r]) s e).fs X = true →
          dirExists σ.fs X = true)) := by
    rintro s ⟨x, kk⟩ hmem hxb hs
    obtain ⟨hkk, hxf⟩ := readdir_reqdir_entries H r _ hmem
    have hkk' : kk = false := hkk
    subst hkk'
    show lookupFile (purgeEntryFile ttlMs now (root ++ [r]) s x).fs
        ((root ++ [r]) ++ [FName.base b]) = some fd ∧
      lookupFile (purgeEntryFile ttlMs now (root ++ [r]) s x).fs
          ((root ++ [r]) ++ [FName.created (FName.base b)])
        = lookupFile σ.fs ((root ++ [r]) ++ [FName.created (FName.base b)]) ∧
      (∀ X, dirExists (purgeEntryFile ttlMs now (root ++ [r]) s x).fs X = true →
        dirExists σ.fs X = true)
    have hxb' : x ≠ FName.base b := hxb
    cases x with
    | created m => exact hs
    | downloaded m => exact hs
    | base g =>
      have hsfile : fileExists s.fs ((root ++ [r]) ++ [FName.base b]) = true := by
        unfold fileExists
        rw [hs.1]
        rfl
      have hsib := purgeEntryFile_sibling ttlMs now (root ++ [r]) s g
        ((root ++ [r]) ++ [FName.base b]) ((root ++ [r]) ++ [FName.created (FName.base b)])
        (hpne _ hxb')
        (fun h => by simpa using (append_singleton_inj h).2)
        (fun h => by simpa using (append_singleton_inj h).2)
        (hcrne _ (by simp))
        (hcrne _ (by simp))
        (fun h => by
          have h2 := (append_singleton_inj h).2
          injection h2 with h3
          exact hxb' (by rw [h3]))
        (dropLast_append_singleton _ _) (by simp) hsfile
      refine ⟨hsib.1.trans hs.1, hsib.2.1.trans hs.2.1, fun X hX => ?_⟩
      rw [hsib.2.2 X] at hX
      exact hs.2.2 X hX
  have hIs1 : lookupFile s1.fs ((root ++ [r]) ++ [FName.base b]) = some fd ∧
      lookupFile s1.fs ((root ++ [r]) ++ [FName.created (FName.base b)])
        = lookupFile σ.fs ((root ++ [r]) ++ [FName.created (FName.base b)]) ∧
      (∀ X, dirExists s1.fs X = true → dirExists σ.fs X = true) :=
    ⟨hst₁.1, hst₁.2.1, hst₁.2.2.2⟩
  have hF1 := foldl_preserve (purgeStep ttlMs now k (root ++ [r]))
    (fun s => lookupFile s.fs ((root ++ [r]) ++ [FName.base b]) = some fd ∧
      lookupFile s.fs ((root ++ [r]) ++ [FName.created (FName.base b)])
        = lookupFile σ.fs ((root ++ [r]) ++ [FName.created (FName.base b)]) ∧
      (∀ X, dirExists s.fs X = true → dirExists σ.fs X = true))
    F₁ s1 hIs1
    (fun s e he hs => hInnerOther s e (by rw [hFsplit]; exact List.mem_append_left _ he)
      (hgne₁ e he) hs)
  set sF := List.foldl (purgeStep ttlMs now k (root ++ [r])) s1 F₁ with hsFdef
  have htgt_eq : purgeStep ttlMs now k (root ++ [r]) sF (FName.base b, false)
      = purgeEntryFile ttlMs now (root ++ [r]) sF (FName.base b) := rfl
  have hdmF : dirExists sF.fs ((root ++ [r]) ++ [FName.created (FName.base b)]) = false := by
    cases hb : dirExists sF.fs ((root ++ [r]) ++ [FName.created (FName.base b)]) with
    | false => rfl
    | true =>
      have := hF1.2.2 _ hb
      rw [H.no_deep_dir r (FName.created (FName.base b))] at this
      cases this
  have hdpF : dirExists sF.fs ((root ++ [r]) ++ [FName.base b]) = false := by
    cases hb : dirExists sF.fs ((root ++ [r]) ++ [FName.base b]) with
    | false => rfl
    | true =>
      have := hF1.2.2 _ hb
      rw [H.no_deep_dir r (FName.base b)] at this
      cases this
  have hddF : dirExists sF.fs ((root ++ [r]) ++ [FName.downloaded (FName.base b)]) = false := by
    cases hb : dirExists sF.fs ((root ++ [r]) ++ [FName.downloaded (FName.base b)]) with
    | false => rfl
    | true =>
      have := hF1.2.2 _ hb
      rw [H.no_deep_dir r (FName.downloaded (FName.base b))] at this
      cases this
  by_cases hdec : ttlMs ≤ now -
      effectiveCreatedAt σ.fs ((root ++ [r]) ++ [FName.base b]) fd now
  · -- expired: the file is deleted at its own visit and stays gone
    have hdec' := hdec
    rw [hECA] at hdec'
    have htgt := purgeEntryFile_target_expired ttlMs now (root ++ [r]) sF b fd
      (lookupFile σ.fs ((root ++ [r]) ++ [FName.created (FName.base b)]))
      hF1.1 hF1.2.1 hdmF hdpF hddF hdec'
    -- after the target step the artifact is gone; staying gone is monotone
    have hgone : ∀ (l : List (FName × Bool)) (s : SchedState)
        (hdel : fileExists s.fs ((root ++ [r]) ++ [FName.base b]) = false)
        (fuel : Nat) (A : FPath),
        fileExists ((l.foldl (purgeStep ttlMs now fuel A) s)).fs
          ((root ++ [r]) ++ [FName.base b]) = false := by
      intro l s hdel fuel A
      refine foldl_preserve _
        (fun s' => fileExists s'.fs ((root ++ [r]) ++ [FName.base b]) = false) l s hdel ?_
      rintro s' ⟨x, kk⟩ hmem hs'
      cases kk with
      | false => exact fileExists_false_purgeEntryFile hs'
      | true => exact (purgeDirStep_no_new ttlMs now fuel A s' x _).2 hs'
    have hwalkdel : fileExists (purgeWalk ttlMs now (k+1) (root ++ [r]) s1).fs
        ((root ++ [r]) ++ [FName.base b]) = false := by
      rw [hwalk_eq, hFsplit, List.foldl_append, List.foldl_cons, ← hsFdef, htgt_eq, htgt.1]
      exact hgone F₂ _ (by rw [← htgt.1]; exact htgt.2) k (root ++ [r])
    have hdirstep : fileExists (purgeDirStep ttlMs now (k+1) root s1 r).fs
        ((root ++ [r]) ++ [FName.base b]) = false := by
      unfold purgeDirStep
      dsimp only
      split
      · exact fileExists_false_removeRecursive hwalkdel
      · exact hwalkdel
    rw [show (decide (ttlMs ≤ now - effectiveCreatedAt σ.fs
        ((root ++ [r]) ++ [FName.base b]) fd now)) = true from decide_eq_true hdec]
    show fileExists (List.foldl (purgeStep ttlMs now (k+1) root)
      (purgeDirStep ttlMs now (k+1) root s1 r) E₂).fs _ = _
    rw [hgone E₂ _ hdirstep (k+1) root]
    rfl
  · -- fresh: the visit is a no-op and the file survives everything
    have hdec' := hdec
    rw [hECA] at hdec'
    have htgt := purgeEntryFile_target_fresh ttlMs now (root ++ [r]) sF b fd
      (lookupFile σ.fs ((root ++ [r]) ++ [FName.created (FName.base b)]))
      hF1.1 hF1.2.1 hdmF hdec'
    have hs2Inv : lookupFile (purgeWalk ttlMs now (k+1) (root ++ [r]) s1).fs
        ((root ++ [r]) ++ [FName.base b]) = some fd := by
      rw [hwalk_eq, hFsplit, List.foldl_append, List.foldl_cons, ← hsFdef, htgt_eq, htgt]
      have hF2 := foldl_preserve (purgeStep ttlMs now k (root ++ [r]))
        (fun s => lookupFile s.fs ((root ++ [r]) ++ [FName.base b]) = some fd ∧
          lookupFile s.fs ((root ++ [r]) ++ [FName.created (FName.base b)])
            = lookupFile σ.fs ((root ++ [r]) ++ [FName.created (FName.base b)]) ∧
          (∀ X, dirExists s.fs X = true → dirExists σ.fs X = true))
        F₂ sF hF1
        (fun s e he hs => hInnerOther s e
          (by rw [hFsplit]; exact List.mem_append_right _ (List.mem_cons_of_mem _ he))
          (hgne₂ e he) hs)
      exact hF2.1
    have hpe2 : fileExists (purgeWalk ttlMs now (k+1) (root ++ [r]) s1).fs
        ((root ++ [r]) ++ [FName.base b]) = true := by
      unfold fileExists
      rw [hs2Inv]
      rfl
    have hdirstep : purgeDirStep ttlMs now (k+1) root s1 r
        = purgeWalk ttlMs now (k+1) (root ++ [r]) s1 := by
      unfold purgeDirStep
      dsimp only
      have hie := readdir_isEmpty_false_of_file _ _ _ hpe2
      rw [if_neg (by rw [hie, Bool.and_false]; exact Bool.false_ne_true)]
    rw [hdirstep]
    have hE2step : ∀ (s : SchedState) (e : FName × Bool), e ∈ E₂ →
        lookupFile s.fs ((root ++ [r]) ++ [FName.base b]) = some fd →
        lookupFile (purgeStep ttlMs now (k+1) root s e).fs
          ((root ++ [r]) ++ [FName.base b]) = some fd := by
      rintro s ⟨x, kk⟩ hmem hs
      have hmem' : (x, kk) ∈ readdir σ.fs root := by
        rw [hE]
        exact List.mem_append_right _ (List.mem_cons_of_mem _ hmem)
      obtain ⟨hkk, hxd⟩ := readdir_root_entries H _ hmem'
      have hkk' : kk = true := hkk
      subst hkk'
      have hxr' : x ≠ r := hne₂ _ hmem
      show lookupFile (purgeDirStep ttlMs now (k+1) root s x).fs _ = _
      exact (purgeDirStep_frame ttlMs now (k+1) root s x _
        (not_prefix_sibling hxr' _)).1.trans hs
    have hE2 := foldl_preserve (purgeStep ttlMs now (k+1) root)
      (fun s => lookupFile s.fs ((root ++ [r]) ++ [FName.base b]) = some fd)
      E₂ (purgeWalk ttlMs now (k+1) (root ++ [r]) s1) hs2Inv hE2step
    rw [show fileExists (List.foldl (purgeStep ttlMs now (k+1) root)
        (purgeWalk ttlMs now (k+1) (root ++ [r]) s1) E₂).fs
        ((root ++ [r]) ++ [FName.base b]) = true from by unfold fileExists; rw [hE2]; rfl]
    rw [show (decide (ttlMs ≤ now - effectiveCreatedAt σ.fs
        ((root ++ [r]) ++ [FName.base b]) fd now)) = false from decide_eq_false hdec]
    rfl

/-! ## Plain marker names and hydrate entry lemmas -/

/-- A name as the service itself produces them: a plain artifact name, or a
single marker suffix on a plain artifact name (no stacked suffixes such as
`x.created.downloaded`). -/
def NiceName : FName → Prop
  | FName.base _ => True
  | FName.created (FName.base _) => True
  | FName.downloaded (FName.base _) => True
  | _ => False

/-- Every file of the tree has a `NiceName` filename. -/
def NiceNames (root : FPath) (σ : SchedState) : Prop :=
  ∀ e ∈ σ.fs.files, ∀ r n, e.1 = (root ++ [r]) ++ [n] → NiceName n

theorem NiceNames.of_file {root : FPath} {σ : SchedState} (HN : NiceNames root σ)
    {r n : FName} (hf : fileExists σ.fs ((root ++ [r]) ++ [n]) = true) : NiceName n := by
  rw [fileExists_true_iff] at hf
  obtain ⟨e, he, hk⟩ := hf
  exact HN e he r n hk

theorem readdir_isEmpty_false_of_dir (fs : FS) (d : FPath) (n : FName)
    (h : (d ++ [n]) ∈ fs.dirs) : (readdir fs d).isEmpty = false := by
  have hm := mem_readdir_dir fs d n h
  cases hr : readdir fs d with
  | nil => rw [hr] at hm; cases hm
  | cons a l => rfl

theorem fileExists_writeFile_cases {fs : FS} {p q : FPath} {c : Option Int} {now : Int}
    (h : fileExists (writeFile fs p c now) q = true) :
    q = p ∨ fileExists fs q = true := by
  by_cases hqp : q = p
  · exact Or.inl hqp
  · right
    rwa [fileExists_writeFile_ne fs p q c now hqp] at h

theorem hydrateWalk_dir_mono (g now : Int) :
    ∀ (fuel : Nat) (X : FPath) (st : SchedState) (q : FPath),
      dirExists (hydrateWalk g now fuel X st).fs q = true → dirExists st.fs q = true := by
  intro fuel
  induction fuel with
  | zero => exact fun X st q h => h
  | succ fuel ih =>
    intro X st q
    rw [hydrateWalk_succ]
    refine foldl_preserve _
      (fun s => dirExists s.fs q = true → dirExists st.fs q = true) _ st (fun h => h) ?_
    rintro s ⟨x, k⟩ hmem hs
    cases k with
    | false => exact fun h => hs (dirExists_mono_hydrateEntry h)
    | true => exact fun h => hs (ih (X ++ [x]) s q h)

theorem fileExists_false_hydrateEntry_ne {g now : Int} {D : FPath} {s : SchedState}
    {n : FName} {q : FPath} (hne : q ≠ D ++ [n]) (h : fileExists s.fs q = false) :
    fileExists (hydrateEntry g now D s n).fs q = false := by
  cases n with
  | base m => exact h
  | created m => exact h
  | downloaded m =>
    simp only [hydrateEntry]
    split
    · exact fileExists_false_removeFile h
    · split
      · exact fileExists_false_safeDeleteFS noFail _ s.fs q h
      · show fileExists (writeFile s.fs (mapLast FName.downloaded (D ++ [m])) _ _) q = false
        rw [mapLast_append, fileExists_writeFile_ne _ _ _ _ _ hne]
        exact h

theorem timersFor_hydrateEntry_downloaded (g now : Int) (D : FPath) (s : SchedState)
    (mm : FName) (q : FPath) (hq : q ≠ D ++ [mm]) :
    timersFor (hydrateEntry g now D s (FName.downloaded mm)) q = timersFor s q := by
  simp only [hydrateEntry]
  split
  · rfl
  · split
    · exact timersFor_safeDelete_ne noFail _ q s hq
    · exact timersFor_scheduleDeletion_ne _ q _ now s hq

/-- Frame for one hydrate iteration on a `.downloaded` marker of a *different*
artifact `<D>/<gg>`, given a surviving sibling file `q` in the directory. -/
theorem hydrateEntry_sibling (g now : Int) (D : FPath) (s : SchedState) (gg : String)
    (q w : FPath)
    (hq1 : q ≠ D ++ [FName.base gg])
    (hq2 : q ≠ D ++ [FName.downloaded (FName.base gg)])
    (hq3 : q ≠ D ++ [FName.created (FName.base gg)])
    (hw1 : w ≠ D ++ [FName.base gg])
    (hw2 : w ≠ D ++ [FName.downloaded (FName.base gg)])
    (hw3 : w ≠ D ++ [FName.created (FName.base gg)])
    (hq5 : q.dropLast = D) (hqne : q ≠ []) (hqfile : fileExists s.fs q = true) :
    lookupFile (hydrateEntry g now D s (FName.downloaded (FName.base gg))).fs q
        = lookupFile s.fs q ∧
      lookupFile (hydrateEntry g now D s (FName.downloaded (FName.base gg))).fs w
        = lookupFile s.fs w ∧
      (∀ d', dirExists (hydrateEntry g now D s (FName.downloaded (FName.base gg))).fs d'
        = dirExists s.fs d') := by
  show _ ∧ _ ∧ _
  simp only [hydrateEntry]
  split
  · refine ⟨lookupFile_removeFile_ne s.fs _ q hq2, lookupFile_removeFile_ne s.fs _ w hw2,
      fun d' => rfl⟩
  · split
    · have hsib := safeDeleteFS_sibling_frame noFail (D ++ [FName.base gg]) q s.fs hq1
        (by rw [mapLast_append]; exact hq2) (by rw [mapLast_append]; exact hq3)
        (by rw [dropLast_append_singleton]; exact hq5) hqne hqfile
      exact ⟨hsib.1 q hq1 (by rw [mapLast_append]; exact hq2)
          (by rw [mapLast_append]; exact hq3),
        hsib.1 w hw1 (by rw [mapLast_append]; exact hw2)
          (by rw [mapLast_append]; exact hw3),
        fun d' => hsib.2 d'⟩
    · refine ⟨?_, ?_, fun d' => dirExists_scheduleDeletion _ d' _ now s⟩
      · exact lookupFile_scheduleDeletion_ne _ q _ now s (by rw [mapLast_append]; exact hq2)
      · exact lookupFile_scheduleDeletion_ne _ w _ now s (by rw [mapLast_append]; exact hw2)

theorem hydrateEntry_target_orphan (g now : Int) (D : FPath) (s : SchedState) (b : String)
    (hafalse : fileExists s.fs (D ++ [FName.base b]) = false)
    (hadir : dirExists s.fs (D ++ [FName.base b]) = false) :
    hydrateEntry g now D s (FName.downloaded (FName.base b))
      = { s with fs := removeFile s.fs (D ++ [FName.downloaded (FName.base b)]) } := by
  simp only [hydrateEntry]
  rw [if_pos]
  unfold existsSync
  rw [hafalse, hadir]
  rfl

theorem hydrateEntry_target_expired (g now : Int) (D : FPath) (s : SchedState) (b : String)
    (ts : Int) (fda fdm : FileData)
    (ha : lookupFile s.fs (D ++ [FName.base b]) = some fda)
    (hm : lookupFile s.fs (D ++ [FName.downloaded (FName.base b)]) = some fdm)
    (hts : fdm.content = some ts)
    (hexp : g - (now - ts) ≤ 0) :
    hydrateEntry g now D s (FName.downloaded (FName.base b))
      = safeDelete noFail (D ++ [FName.base b]) s := by
  have hafile : fileExists s.fs (D ++ [FName.base b]) = true := by
    unfold fileExists
    rw [ha]
    rfl
  have hread : readContent s.fs (D ++ [FName.downloaded (FName.base b)]) = some ts := by
    unfold readContent
    rw [hm, Option.some_bind, hts]
  simp only [hydrateEntry]
  rw [if_neg (by unfold existsSync; rw [hafile]; simp), hread]
  simp only [Option.map_some']
  rw [if_pos (by simpa using hexp)]

theorem hydrateEntry_target_rearm (g now : Int) (D : FPath) (s : SchedState) (b : String)
    (ts : Int) (fda fdm : FileData)
    (ha : lookupFile s.fs (D ++ [FName.base b]) = some fda)
    (hm : lookupFile s.fs (D ++ [FName.downloaded (FName.base b)]) = some fdm)
    (hts : fdm.content = some ts)
    (hfresh : 0 < g - (now - ts)) :
    hydrateEntry g now D s (FName.downloaded (FName.base b))
      = scheduleDeletion (D ++ [FName.base b]) (some (g - (now - ts))) now s := by
  have hafile : fileExists s.fs (D ++ [FName.base b]) = true := by
    unfold fileExists
    rw [ha]
    rfl
  have hread : readContent s.fs (D ++ [FName.downloaded (FName.base b)]) = some ts := by
    unfold readContent
    rw [hm, Option.some_bind, hts]
  simp only [hydrateEntry]
  rw [if_neg (by unfold existsSync; rw [hafile]; simp), hread]
  simp only [Option.map_some']
  rw [if_neg (by simp; omega)]

theorem purgeOlderThan_keeps_false (root : FPath) (ttlMs now : Int) (st : SchedState)
    (q : FPath) (h : fileExists st.fs q = false) :
    fileExists (purgeOlderThan root ttlMs now st).fs q = false := by
  unfold purgeOlderThan
  split
  · exact (purgeWalk_no_new ttlMs now (walkFuel st.fs) root st q).2 h
  · exact h

theorem purgeOlderThan_timers_no_file (root : FPath) (ttlMs now : Int) (st : SchedState)
    (q : FPath) (h : fileExists st.fs q = false) :
    timersFor (purgeOlderThan root ttlMs now st) q = timersFor st q := by
  unfold purgeOlderThan
  split
  · exact (purgeWalk_timers_no_file ttlMs now (walkFuel st.fs) root st q h).1
  · rfl

/-! ## Claim C4: hydration of `.downloaded` markers whose artifact exists -/

/-- Claim C4: during hydration of a well-formed tree, a `.downloaded`
marker `<root>/<r>/<b>.downloaded` with a finite timestamp `ts` whose
artifact still exists leads to `remaining = downloadGraceMs - (now - ts)`:
when `remaining ≤ 0` the artifact is deleted before `hydrateFromDisk`
returns, and when `remaining > 0` the hydration walk leaves exactly one
pending timer for the artifact, armed for exactly `remaining` milliseconds,
with the artifact still present. -/
theorem hydrate_marker_restores_or_deletes
    (root : FPath) (σ : SchedState) (grace ttlMs now : Int) (r : FName) (b : String)
    (ts : Int) (fda fdm : FileData) (H : TwoLevel root σ) (HN : NiceNames root σ)
    (ha : lookupFile σ.fs ((root ++ [r]) ++ [FName.base b]) = some fda)
    (hm : lookupFile σ.fs ((root ++ [r]) ++ [FName.downloaded (FName.base b)]) = some fdm)
    (hts : fdm.content = some ts) :
    (grace - (now - ts) ≤ 0 →
      fileExists (hydrateFromDisk root grace ttlMs now σ).fs
        ((root ++ [r]) ++ [FName.base b]) = false) ∧
    (0 < grace - (now - ts) →
      timersFor (hydrateWalk grace now (walkFuel σ.fs) root σ)
          ((root ++ [r]) ++ [FName.base b]) = [some (grace - (now - ts))] ∧
        fileExists (hydrateWalk grace now (walkFuel σ.fs) root σ).fs
          ((root ++ [r]) ++ [FName.base b]) = true) := by
  have hafile : fileExists σ.fs ((root ++ [r]) ++ [FName.base b]) = true := by
    unfold fileExists
    rw [ha]
    rfl
  have hmfile : fileExists σ.fs ((root ++ [r]) ++ [FName.downloaded (FName.base b)])
      = true := by
    unfold fileExists
    rw [hm]
    rfl
  have hDrdirs : (root ++ [r]) ∈ σ.fs.dirs := by
    obtain ⟨r', n', hshape, hdir⟩ := H.files_shape _ (lookupFile_some_mem ha)
    obtain ⟨h2, h3⟩ := append_singleton_inj hshape
    rw [h2]
    exact hdir
  have hroot_ex : existsSync σ.fs root = true := by
    have hd : dirExists σ.fs root = true := by
      unfold dirExists
      simpa using H.root_dir
    unfold existsSync
    rw [hd, Bool.or_true]
  obtain ⟨k, hk⟩ := exists_fuel_succ H
  obtain ⟨E₁, E₂, hE, hne₁, hne₂⟩ :=
    split_at_name (mem_readdir_dir σ.fs root r hDrdirs) (readdir_root_names_nodup H)
  obtain ⟨F₁, F₂, hFsplit, hgne₁, hgne₂⟩ :=
    split_at_name (mem_readdir_file σ.fs (root ++ [r])
      (FName.downloaded (FName.base b)) hmfile) (readdir_reqdir_names_nodup H r)
  have hbase : ∃ A bb, (root ++ [r]) ++ [FName.base b] = A ++ [FName.base bb] :=
    ⟨root ++ [r], b, rfl⟩
  -- invariant preserved by root-level steps on other request directories
  have hRootStep : ∀ (s : SchedState) (e : FName × Bool), e ∈ readdir σ.fs root →
      e.1 ≠ r →
      (lookupFile s.fs ((root ++ [r]) ++ [FName.base b]) = some fda ∧
        lookupFile s.fs ((root ++ [r]) ++ [FName.downloaded (FName.base b)]) = some fdm ∧
        readdir s.fs (root ++ [r]) = readdir σ.fs (root ++ [r]) ∧
        timersFor s ((root ++ [r]) ++ [FName.base b])
          = timersFor σ ((root ++ [r]) ++ [FName.base b]) ∧
        (∀ X, dirExists s.fs X = true → dirExists σ.fs X = true)) →
      (lookupFile (hydrateStep grace now (k+1) root s e).fs
          ((root ++ [r]) ++ [FName.base b]) = some fda ∧
        lookupFile (hydrateStep grace now (k+1) root s e).fs
          ((root ++ [r]) ++ [FName.downloaded (FName.base b)]) = some fdm ∧
        readdir (hydrateStep grace now (k+1) root s e).fs (root ++ [r])
          = readdir σ.fs (root ++ [r]) ∧
        timersFor (hydrateStep grace now (k+1) root s e)
            ((root ++ [r]) ++ [FName.base b])
          = timersFor σ ((root ++ [r]) ++ [FName.base b]) ∧
        (∀ X, dirExists (hydrateStep grace now (k+1) root s e).fs X = true →
          dirExists σ.fs X = true)) := by
    rintro s ⟨x, kk⟩ hmem hxr hs
    obtain ⟨hkk, hxd⟩ := readdir_root_entries H _ hmem
    have hkk' : kk = true := hkk
    subst hkk'
    have hxr' : x ≠ r := hxr
    show (lookupFile (hydrateWalk grace now (k+1) (root ++ [x]) s).fs _ = _) ∧
      (lookupFile (hydrateWalk grace now (k+1) (root ++ [x]) s).fs _ = _) ∧
      readdir (hydrateWalk grace now (k+1) (root ++ [x]) s).fs _ = _ ∧
      timersFor (hydrateWalk grace now (k+1) (root ++ [x]) s) _ = _ ∧
      (∀ X, dirExists (hydrateWalk grace now (k+1) (root ++ [x]) s).fs X = true →
        dirExists σ.fs X = true)
    have hfa := hydrateWalk_frame grace now (k+1) (root ++ [x]) s
      ((root ++ [r]) ++ [FName.base b]) (not_prefix_sibling hxr' _)
    have hfm := hydrateWalk_frame grace now (k+1) (root ++ [x]) s
      ((root ++ [r]) ++ [FName.downloaded (FName.base b)]) (not_prefix_sibling hxr' _)
    have hrd := readdir_hydrateWalk grace now (k+1) (root ++ [x]) s (root ++ [r])
      (childName_none_of_other_subtree hxr')
    exact ⟨hfa.1.trans hs.1, hfm.1.trans hs.2.1, hrd.trans hs.2.2.1,
      hfa.2.2.trans hs.2.2.2.1,
      fun X hX => hs.2.2.2.2 X (hydrateWalk_dir_mono grace now (k+1) (root ++ [x]) s X hX)⟩
  have hst₁ := foldl_preserve (hydrateStep grace now (k+1) root)
    (fun s => lookupFile s.fs ((root ++ [r]) ++ [FName.base b]) = some fda ∧
      lookupFile s.fs ((root ++ [r]) ++ [FName.downloaded (FName.base b)]) = some fdm ∧
      readdir s.fs (root ++ [r]) = readdir σ.fs (root ++ [r]) ∧
      timersFor s ((root ++ [r]) ++ [FName.base b])
        = timersFor σ ((root ++ [r]) ++ [FName.base b]) ∧
      (∀ X, dirExists s.fs X = true → dirExists σ.fs X = true))
    E₁ σ ⟨ha, hm, rfl, rfl, fun X hX => hX⟩
    (fun s e he hs => hRootStep s e (by rw [hE]; exact List.mem_append_left _ he)
      (hne₁ e he) hs)
  set s1 := List.foldl (hydrateStep grace now (k+1) root) σ E₁ with hs1def
  -- invariant preserved by in-directory steps on other entries
  have hInnerStep : ∀ (s : SchedState) (e : FName × Bool),
      e ∈ readdir σ.fs (root ++ [r]) → e.1 ≠ FName.downloaded (FName.base b) →
      (lookupFile s.fs ((root ++ [r]) ++ [FName.base b]) = some fda ∧
        lookupFile s.fs ((root ++ [r]) ++ [FName.downloaded (FName.base b)]) = some fdm ∧
        timersFor s ((root ++ [r]) ++ [FName.base b])
          = timersFor σ ((root ++ [r]) ++ [FName.base b]) ∧
        (∀ X, dirExists s.fs X = true → dirExists σ.fs X = true)) →
      (lookupFile (hydrateStep grace now k (root ++ [r]) s e).fs
          ((root ++ [r]) ++ [FName.base b]) = some fda ∧
        lookupFile (hydrateStep grace now k (root ++ [r]) s e).fs
          ((root ++ [r]) ++ [FName.downloaded (FName.base b)]) = some fdm ∧
        timersFor (hydrateStep grace now k (root ++ [r]) s e)
            ((root ++ [r]) ++ [FName.base b])
          = timersFor σ ((root ++ [r]) ++ [FName.base b]) ∧
        (∀ X, dirExists (hydrateStep grace now k (root ++ [r]) s e).fs X = true →
          dirExists σ.fs X = true)) := by
    rintro s ⟨x, kk⟩ hmem hxm hs
    obtain ⟨hkk, hxf⟩ := readdir_reqdir_entries H r _ hmem
    have hkk' : kk = false := hkk
    subst hkk'
    have hnice := HN.of_file hxf
    have hxm' : x ≠ FName.downloaded (FName.base b) := hxm
    show (lookupFile (hydrateEntry grace now (root ++ [r]) s x).fs _ = _) ∧
      (lookupFile (hydrateEntry grace now (root ++ [r]) s x).fs _ = _) ∧
      timersFor (hydrateEntry grace now (root ++ [r]) s x) _ = _ ∧
      (∀ X, dirExists (hydrateEntry grace now (root ++ [r]) s x).fs X = true →
        dirExists σ.fs X = true)
    cases x with
    | base g => exact hs
    | created m' => exact hs
    | downloaded m' =>
      cases m' with
      | created y => exact hnice.elim
      | downloaded y => exact hnice.elim
      | base g =>
        have hgb : FName.base g ≠ FName.base b := by
          intro hh
          exact hxm' (by rw [hh])
        have hsfile : fileExists s.fs ((root ++ [r]) ++ [FName.base b]) = true := by
          unfold fileExists
          rw [hs.1]
          rfl
        have hsib := hydrateEntry_sibling grace now (root ++ [r]) s g
          ((root ++ [r]) ++ [FName.base b])
          ((root ++ [r]) ++ [FName.downloaded (FName.base b)])
          (fun h => hgb ((append_singleton_inj h).2).symm)
          (fun h => by simpa using (append_singleton_inj h).2)
          (fun h => by simpa using (append_singleton_inj h).2)
          (fun h => by simpa using (append_singleton_inj h).2)
          (fun h => by
            have h2 := (append_singleton_inj h).2
            injection h2 with h3
            exact hgb h3.symm)
          (fun h => by simpa using (append_singleton_inj h).2)
          (dropLast_append_singleton _ _) (by simp) hsfile
        refine ⟨hsib.1.trans hs.1, hsib.2.1.trans hs.2.1, ?_, fun X hX => ?_⟩
        · exact (timersFor_hydrateEntry_downloaded grace now (root ++ [r]) s
            (FName.base g) _ (fun h => hgb ((append_singleton_inj h).2).symm)).trans
            hs.2.2.1
        · rw [hsib.2.2 X] at hX
          exact hs.2.2.2 X hX
  have hIs1 : lookupFile s1.fs ((root ++ [r]) ++ [FName.base b]) = some fda ∧
      lookupFile s1.fs ((root ++ [r]) ++ [FName.downloaded (FName.base b)]) = some fdm ∧
      timersFor s1 ((root ++ [r]) ++ [FName.base b])
        = timersFor σ ((root ++ [r]) ++ [FName.base b]) ∧
      (∀ X, dirExists s1.fs X = true → dirExists σ.fs X = true) :=
    ⟨hst₁.1, hst₁.2.1, hst₁.2.2.2.1, hst₁.2.2.2.2⟩
  have hF1 := foldl_preserve (hydrateStep grace now k (root ++ [r]))
    (fun s => lookupFile s.fs ((root ++ [r]) ++ [FName.base b]) = some fda ∧
      lookupFile s.fs ((root ++ [r]) ++ [FName.downloaded (FName.base b)]) = some fdm ∧
      timersFor s ((root ++ [r]) ++ [FName.base b])
        = timersFor σ ((root ++ [r]) ++ [FName.base b]) ∧
      (∀ X, dirExists s.fs X = true → dirExists σ.fs X = true))
    F₁ s1 hIs1
    (fun s e he hs => hInnerStep s e (by rw [hFsplit]; exact List.mem_append_left _ he)
      (hgne₁ e he) hs)
  set sF := List.foldl (hydrateStep grace now k (root ++ [r])) s1 F₁ with hsFdef
  have htgt_eq : hydrateStep grace now k (root ++ [r]) sF
        (FName.downloaded (FName.base b), false)
      = hydrateEntry grace now (root ++ [r]) sF (FName.downloaded (FName.base b)) := rfl
  have hdaF : dirExists sF.fs ((root ++ [r]) ++ [FName.base b]) = false := by
    cases hb2 : dirExists sF.fs ((root ++ [r]) ++ [FName.base b]) with
    | false => rfl
    | true =>
      have := hF1.2.2.2 _ hb2
      rw [H.no_deep_dir r (FName.base b)] at this
      cases this
  have hddF : dirExists sF.fs ((root ++ [r]) ++ [FName.downloaded (FName.base b)])
      = false := by
    cases hb2 : dirExists sF.fs ((root ++ [r]) ++ [FName.downloaded (FName.base b)]) with
    | false => rfl
    | true =>
      have := hF1.2.2.2 _ hb2
      rw [H.no_deep_dir r (FName.downloaded (FName.base b))] at this
      cases this
  have hdcF : dirExists sF.fs ((root ++ [r]) ++ [FName.created (FName.base b)])
      = false := by
    cases hb2 : dirExists sF.fs ((root ++ [r]) ++ [FName.created (FName.base b)]) with
    | false => rfl
    | true =>
      have := hF1.2.2.2 _ hb2
      rw [H.no_deep_dir r (FName.created (FName.base b))] at this
      cases this
  -- evaluate the whole walk down to the target step
  have hwalk_eq : hydrateWalk grace now (walkFuel σ.fs) root σ
      = List.foldl (hydrateStep grace now (k+1) root)
          (List.foldl (hydrateStep grace now k (root ++ [r]))
            (hydrateEntry grace now (root ++ [r]) sF (FName.downloaded (FName.base b)))
            F₂)
          E₂ := by
    rw [hk, hydrateWalk_eq_foldl, hE, List.foldl_append, List.foldl_cons, ← hs1def]
    have hseq : hydrateStep grace now (k+1) root s1 (r, true)
        = hydrateWalk grace now (k+1) (root ++ [r]) s1 := rfl
    rw [hseq, hydrateWalk_eq_foldl, hst₁.2.2.1, hFsplit, List.foldl_append,
      List.foldl_cons, ← hsFdef, htgt_eq]
  constructor
  · -- grace elapsed while down: artifact deleted by the walk, kept gone by the sweep
    intro hle
    have htgt : hydrateEntry grace now (root ++ [r]) sF (FName.downloaded (FName.base b))
        = safeDelete noFail ((root ++ [r]) ++ [FName.base b]) sF :=
      hydrateEntry_target_expired grace now (root ++ [r]) sF b ts fda fdm
        hF1.1 hF1.2.1 hts hle
    have hdel : fileExists (safeDelete noFail ((root ++ [r]) ++ [FName.base b]) sF).fs
        ((root ++ [r]) ++ [FName.base b]) = false := by
      show fileExists (safeDeleteFS noFail ((root ++ [r]) ++ [FName.base b]) sF.fs) _
        = false
      rw [safeDeleteFS_noFail_eq _ _ hdaF (by rw [mapLast_append]; exact hddF)
        (by rw [mapLast_append]; exact hdcF)]
      refine fileExists_false_dirCleanup ?_
      refine fileExists_false_removeFile (fileExists_false_removeFile ?_)
      exact fileExists_removeFile_self sF.fs _
    have hkeep : ∀ (l : List (FName × Bool)) (s : SchedState) (fuel : Nat) (A : FPath),
        fileExists s.fs ((root ++ [r]) ++ [FName.base b]) = false →
        fileExists (List.foldl (hydrateStep grace now fuel A) s l).fs
          ((root ++ [r]) ++ [FName.base b]) = false := by
      intro l s fuel A hdel2
      refine foldl_preserve _
        (fun s' => fileExists s'.fs ((root ++ [r]) ++ [FName.base b]) = false) l s hdel2 ?_
      rintro s' ⟨x, kk⟩ hmem hs'
      cases kk with
      | false => exact fileExists_false_hydrateEntry hbase hs'
      | true => exact (hydrateWalk_no_new grace now fuel (A ++ [x]) s' _ hbase).2 hs'
    have hAfterWalk : fileExists (hydrateWalk grace now (walkFuel σ.fs) root σ).fs
        ((root ++ [r]) ++ [FName.base b]) = false := by
      rw [hwalk_eq, htgt]
      exact hkeep E₂ _ (k+1) root (hkeep F₂ _ k (root ++ [r]) hdel)
    unfold hydrateFromDisk
    rw [if_pos hroot_ex]
    exact purgeOlderThan_keeps_false root ttlMs now _ _ hAfterWalk
  · -- grace not elapsed: the walk re-arms a single timer for the remaining delay
    intro hpos
    have htgt : hydrateEntry grace now (root ++ [r]) sF (FName.downloaded (FName.base b))
        = scheduleDeletion ((root ++ [r]) ++ [FName.base b])
            (some (grace - (now - ts))) now sF :=
      hydrateEntry_target_rearm grace now (root ++ [r]) sF b ts fda fdm
        hF1.1 hF1.2.1 hts hpos
    have hanem : ((root ++ [r]) ++ [FName.base b])
        ≠ mapLast FName.downloaded ((root ++ [r]) ++ [FName.base b]) := by
      rw [mapLast_append]
      exact fun h => by simpa using (append_singleton_inj h).2
    have hPostTgt : lookupFile (scheduleDeletion ((root ++ [r]) ++ [FName.base b])
          (some (grace - (now - ts))) now sF).fs
          ((root ++ [r]) ++ [FName.base b]) = some fda ∧
        timersFor (scheduleDeletion ((root ++ [r]) ++ [FName.base b])
          (some (grace - (now - ts))) now sF)
          ((root ++ [r]) ++ [FName.base b]) = [some (grace - (now - ts))] :=
      ⟨(lookupFile_scheduleDeletion_ne _ _ _ now sF hanem).trans hF1.1,
        timersFor_scheduleDeletion_self _ _ now sF⟩
    have hInnerStep' : ∀ (s : SchedState) (e : FName × Bool),
        e ∈ readdir σ.fs (root ++ [r]) → e.1 ≠ FName.downloaded (FName.base b) →
        (lookupFile s.fs ((root ++ [r]) ++ [FName.base b]) = some fda ∧
          timersFor s ((root ++ [r]) ++ [FName.base b]) = [some (grace - (now - ts))]) →
        (lookupFile (hydrateStep grace now k (root ++ [r]) s e).fs
            ((root ++ [r]) ++ [FName.base b]) = some fda ∧
          timersFor (hydrateStep grace now k (root ++ [r]) s e)
            ((root ++ [r]) ++ [FName.base b]) = [some (grace - (now - ts))]) := by
      rintro s ⟨x, kk⟩ hmem hxm hs
      obtain ⟨hkk, hxf⟩ := readdir_reqdir_entries H r _ hmem
      have hkk' : kk = false := hkk
      subst hkk'
      have hnice := HN.of_file hxf
      have hxm' : x ≠ FName.downloaded (FName.base b) := hxm
      show (lookupFile (hydrateEntry grace now (root ++ [r]) s x).fs _ = _) ∧
        timersFor (hydrateEntry grace now (root ++ [r]) s x) _ = _
      cases x with
      | base g => exact hs
      | created m' => exact hs
      | downloaded m' =>
        cases m' with
        | created y => exact hnice.elim
        | downloaded y => exact hnice.elim
        | base g =>
          have hgb : FName.base g ≠ FName.base b := by
            intro hh
            exact hxm' (by rw [hh])
          have hsfile : fileExists s.fs ((root ++ [r]) ++ [FName.base b]) = true := by
            unfold fileExists
            rw [hs.1]
            rfl
          have hsib := hydrateEntry_sibling grace now (root ++ [r]) s g
            ((root ++ [r]) ++ [FName.base b]) ((root ++ [r]) ++ [FName.base b])
            (fun h => hgb ((append_singleton_inj h).2).symm)
            (fun h => by simpa using (append_singleton_inj h).2)
            (fun h => by simpa using (append_singleton_inj h).2)
            (fun h => hgb ((append_singleton_inj h).2).symm)
            (fun h => by simpa using (append_singleton_inj h).2)
            (fun h => by simpa using (append_singleton_inj h).2)
            (dropLast_append_singleton _ _) (by simp) hsfile
          exact ⟨hsib.1.trans hs.1,
            (timersFor_hydrateEntry_downloaded grace now (root ++ [r]) s
              (FName.base g) _ (fun h => hgb ((append_singleton_inj h).2).symm)).trans
              hs.2⟩
    have hF2 := foldl_preserve (hydrateStep grace now k (root ++ [r]))
      (fun s => lookupFile s.fs ((root ++ [r]) ++ [FName.base b]) = some fda ∧
        timersFor s ((root ++ [r]) ++ [FName.base b]) = [some (grace - (now - ts))])
      F₂ (scheduleDeletion ((root ++ [r]) ++ [FName.base b])
        (some (grace - (now - ts))) now sF) hPostTgt
      (fun s e he hs => hInnerStep' s e
        (by rw [hFsplit]; exact List.mem_append_right _ (List.mem_cons_of_mem _ he))
        (hgne₂ e he) hs)
    have hE2 := foldl_preserve (hydrateStep grace now (k+1) root)
      (fun s => lookupFile s.fs ((root ++ [r]) ++ [FName.base b]) = some fda ∧
        timersFor s ((root ++ [r]) ++ [FName.base b]) = [some (grace - (now - ts))])
      E₂ _ hF2 ?_
    · rw [hwalk_eq, htgt]
      refine ⟨hE2.2, ?_⟩
      unfold fileExists
      rw [hE2.1]
      rfl
    · rintro s ⟨x, kk⟩ hmem hs
      have hmem' : (x, kk) ∈ readdir σ.fs root := by
        rw [hE]
        exact List.mem_append_right _ (List.mem_cons_of_mem _ hmem)
      obtain ⟨hkk, hxd⟩ := readdir_root_entries H _ hmem'
      have hkk' : kk = true := hkk
      subst hkk'
      have hxr' : x ≠ r := hne₂ _ hmem
      show (lookupFile (hydrateWalk grace now (k+1) (root ++ [x]) s).fs _ = _) ∧
        timersFor (hydrateWalk grace now (k+1) (root ++ [x]) s) _ = _
      have hfa := hydrateWalk_frame grace now (k+1) (root ++ [x]) s
        ((root ++ [r]) ++ [FName.base b]) (not_prefix_sibling hxr' _)
      exact ⟨hfa.1.trans hs.1, hfa.2.2.trans hs.2⟩

/-! ## Claim C5: orphaned `.downloaded` markers -/

/-- Claim C5: during hydration of a well-formed tree, a `.downloaded`
marker `<root>/<r>/<b>.downloaded` whose artifact `<root>/<r>/<b>` does not
exist is itself deleted by `hydrateFromDisk` (the model is total, so no
error is raised), no timer is armed for the artifact path, and the
artifact path still does not exist afterwards. -/
theorem hydrate_orphan_marker
    (root : FPath) (σ : SchedState) (grace ttlMs now : Int) (r : FName) (b : String)
    (fdm : FileData) (H : TwoLevel root σ) (HN : NiceNames root σ)
    (hm : lookupFile σ.fs ((root ++ [r]) ++ [FName.downloaded (FName.base b)]) = some fdm)
    (hana : fileExists σ.fs ((root ++ [r]) ++ [FName.base b]) = false) :
    fileExists (hydrateFromDisk root grace ttlMs now σ).fs
        ((root ++ [r]) ++ [FName.downloaded (FName.base b)]) = false ∧
      timersFor (hydrateFromDisk root grace ttlMs now σ)
          ((root ++ [r]) ++ [FName.base b])
        = timersFor σ ((root ++ [r]) ++ [FName.base b]) ∧
      fileExists (hydrateFromDisk root grace ttlMs now σ).fs
        ((root ++ [r]) ++ [FName.base b]) = false := by
  have hmfile : fileExists σ.fs ((root ++ [r]) ++ [FName.downloaded (FName.base b)])
      = true := by
    unfold fileExists
    rw [hm]
    rfl
  have hDrdirs : (root ++ [r]) ∈ σ.fs.dirs := by
    obtain ⟨r', n', hshape, hdir⟩ := H.files_shape _ (lookupFile_some_mem hm)
    obtain ⟨h2, h3⟩ := append_singleton_inj hshape
    rw [h2]
    exact hdir
  have hroot_ex : existsSync σ.fs root = true := by
    have hd : dirExists σ.fs root = true := by
      unfold dirExists
      simpa using H.root_dir
    unfold existsSync
    rw [hd, Bool.or_true]
  obtain ⟨k, hk⟩ := exists_fuel_succ H
  obtain ⟨E₁, E₂, hE, hne₁, hne₂⟩ :=
    split_at_name (mem_readdir_dir σ.fs root r hDrdirs) (readdir_root_names_nodup H)
  obtain ⟨F₁, F₂, hFsplit, hgne₁, hgne₂⟩ :=
    split_at_name (mem_readdir_file σ.fs (root ++ [r])
      (FName.downloaded (FName.base b)) hmfile) (readdir_reqdir_names_nodup H r)
  -- root-level steps on other request directories keep the picture intact
  have hRootStep : ∀ (s : SchedState) (e : FName × Bool), e ∈ readdir σ.fs root →
      e.1 ≠ r →
      (lookupFile s.fs ((root ++ [r]) ++ [FName.downloaded (FName.base b)]) = some fdm ∧
        fileExists s.fs ((root ++ [r]) ++ [FName.base b]) = false ∧
        readdir s.fs (root ++ [r]) = readdir σ.fs (root ++ [r]) ∧
        timersFor s ((root ++ [r]) ++ [FName.base b])
          = timersFor σ ((root ++ [r]) ++ [FName.base b]) ∧
        (∀ X, dirExists s.fs X = true → dirExists σ.fs X = true)) →
      (lookupFile (hydrateStep grace now (k+1) root s e).fs
          ((root ++ [r]) ++ [FName.downloaded (FName.base b)]) = some fdm ∧
        fileExists (hydrateStep grace now (k+1) root s e).fs
          ((root ++ [r]) ++ [FName.base b]) = false ∧
        readdir (hydrateStep grace now (k+1) root s e).fs (root ++ [r])
          = readdir σ.fs (root ++ [r]) ∧
        timersFor (hydrateStep grace now (k+1) root s e)
            ((root ++ [r]) ++ [FName.base b])
          = timersFor σ ((root ++ [r]) ++ [FName.base b]) ∧
        (∀ X, dirExists (hydrateStep grace now (k+1) root s e).fs X = true →
          dirExists σ.fs X = true)) := by
    rintro s ⟨x, kk⟩ hmem hxr hs
    obtain ⟨hkk, hxd⟩ := readdir_root_entries H _ hmem
    have hkk' : kk = true := hkk
    subst hkk'
    have hxr' : x ≠ r := hxr
    show (lookupFile (hydrateWalk grace now (k+1) (root ++ [x]) s).fs _ = _) ∧
      fileExists (hydrateWalk grace now (k+1) (root ++ [x]) s).fs _ = false ∧
      readdir (hydrateWalk grace now (k+1) (root ++ [x]) s).fs _ = _ ∧
      timersFor (hydrateWalk grace now (k+1) (root ++ [x]) s) _ = _ ∧
      (∀ X, dirExists (hydrateWalk grace now (k+1) (root ++ [x]) s).fs X = true →
        dirExists σ.fs X = true)
    have hfm := hydrateWalk_frame grace now (k+1) (root ++ [x]) s
      ((root ++ [r]) ++ [FName.downloaded (FName.base b)]) (not_prefix_sibling hxr' _)
    have hfa := hydrateWalk_frame grace now (k+1) (root ++ [x]) s
      ((root ++ [r]) ++ [FName.base b]) (not_prefix_sibling hxr' _)
    have hrd := readdir_hydrateWalk grace now (k+1) (root ++ [x]) s (root ++ [r])
      (childName_none_of_other_subtree hxr')
    refine ⟨hfm.1.trans hs.1, ?_, hrd.trans hs.2.2.1, hfa.2.2.trans hs.2.2.2.1,
      fun X hX => hs.2.2.2.2 X (hydrateWalk_dir_mono grace now (k+1) (root ++ [x]) s X hX)⟩
    show (lookupFile (hydrateWalk grace now (k+1) (root ++ [x]) s).fs _).isSome = false
    rw [hfa.1]
    exact hs.2.1
  have hst₁ := foldl_preserve (hydrateStep grace now (k+1) root)
    (fun s => lookupFile s.fs ((root ++ [r]) ++ [FName.downloaded (FName.base b)])
        = some fdm ∧
      fileExists s.fs ((root ++ [r]) ++ [FName.base b]) = false ∧
      readdir s.fs (root ++ [r]) = readdir σ.fs (root ++ [r]) ∧
      timersFor s ((root ++ [r]) ++ [FName.base b])
        = timersFor σ ((root ++ [r]) ++ [FName.base b]) ∧
      (∀ X, dirExists s.fs X = true → dirExists σ.fs X = true))
    E₁ σ ⟨hm, hana, rfl, rfl, fun X hX => hX⟩
    (fun s e he hs => hRootStep s e (by rw [hE]; exact List.mem_append_left _ he)
      (hne₁ e he) hs)
  set s1 := List.foldl (hydrateStep grace now (k+1) root) σ E₁ with hs1def
  -- in-directory steps on other entries
  have hInner : ∀ (s : SchedState) (e : FName × Bool),
      e ∈ readdir σ.fs (root ++ [r]) → e.1 ≠ FName.downloaded (FName.base b) →
      (lookupFile s.fs ((root ++ [r]) ++ [FName.downloaded (FName.base b)]) = some fdm ∧
        fileExists s.fs ((root ++ [r]) ++ [FName.base b]) = false ∧
        timersFor s ((root ++ [r]) ++ [FName.base b])
          = timersFor σ ((root ++ [r]) ++ [FName.base b]) ∧
        (∀ X, dirExists s.fs X = true → dirExists σ.fs X = true)) →
      (lookupFile (hydrateStep grace now k (root ++ [r]) s e).fs
          ((root ++ [r]) ++ [FName.downloaded (FName.base b)]) = some fdm ∧
        fileExists (hydrateStep grace now k (root ++ [r]) s e).fs
          ((root ++ [r]) ++ [FName.base b]) = false ∧
        timersFor (hydrateStep grace now k (root ++ [r]) s e)
            ((root ++ [r]) ++ [FName.base b])
          = timersFor σ ((root ++ [r]) ++ [FName.base b]) ∧
        (∀ X, dirExists (hydrateStep grace now k (root ++ [r]) s e).fs X = true →
          dirExists σ.fs X = true)) := by
    rintro s ⟨x, kk⟩ hmem hxm hs
    obtain ⟨hkk, hxf⟩ := readdir_reqdir_entries H r _ hmem
    have hkk' : kk = false := hkk
    subst hkk'
    have hnice := HN.of_file hxf
    have hxm' : x ≠ FName.downloaded (FName.base b) := hxm
    show (lookupFile (hydrateEntry grace now (root ++ [r]) s x).fs _ = _) ∧
      fileExists (hydrateEntry grace now (root ++ [r]) s x).fs _ = false ∧
      timersFor (hydrateEntry grace now (root ++ [r]) s x) _ = _ ∧
      (∀ X, dirExists (hydrateEntry grace now (root ++ [r]) s x).fs X = true →
        dirExists σ.fs X = true)
    cases x with
    | base g => exact hs
    | created m' => exact hs
    | downloaded m' =>
      cases m' with
      | created y => exact hnice.elim
      | downloaded y => exact hnice.elim
      | base g =>
        have hgb : FName.base g ≠ FName.base b := by
          intro hh
          exact hxm' (by rw [hh])
        have hsmfile : fileExists s.fs
            ((root ++ [r]) ++ [FName.downloaded (FName.base b)]) = true := by
          unfold fileExists
          rw [hs.1]
          rfl
        have hsib := hydrateEntry_sibling grace now (root ++ [r]) s g
          ((root ++ [r]) ++ [FName.downloaded (FName.base b)])
          ((root ++ [r]) ++ [FName.downloaded (FName.base b)])
          (fun h => by simpa using (append_singleton_inj h).2)
          (fun h => by
            have h2 := (append_singleton_inj h).2
            injection h2 with h3
            exact hgb h3.symm)
          (fun h => by simpa using (append_singleton_inj h).2)
          (fun h => by simpa using (append_singleton_inj h).2)
          (fun h => by
            have h2 := (append_singleton_inj h).2
            injection h2 with h3
            exact hgb h3.symm)
          (fun h => by simpa using (append_singleton_inj h).2)
          (dropLast_append_singleton _ _) (by simp) hsmfile
        refine ⟨hsib.1.trans hs.1,
          fileExists_false_hydrateEntry ⟨root ++ [r], b, rfl⟩ hs.2.1,
          (timersFor_hydrateEntry_downloaded grace now (root ++ [r]) s
            (FName.base g) _ (fun h => hgb ((append_singleton_inj h).2).symm)).trans
            hs.2.2.1,
          fun X hX => ?_⟩
        rw [hsib.2.2 X] at hX
        exact hs.2.2.2 X hX
  have hF1 := foldl_preserve (hydrateStep grace now k (root ++ [r]))
    (fun s => lookupFile s.fs ((root ++ [r]) ++ [FName.downloaded (FName.base b)])
        = some fdm ∧
      fileExists s.fs ((root ++ [r]) ++ [FName.base b]) = false ∧
      timersFor s ((root ++ [r]) ++ [FName.base b])
        = timersFor σ ((root ++ [r]) ++ [FName.base b]) ∧
      (∀ X, dirExists s.fs X = true → dirExists σ.fs X = true))
    F₁ s1 ⟨hst₁.1, hst₁.2.1, hst₁.2.2.2.1, hst₁.2.2.2.2⟩
    (fun s e he hs => hInner s e (by rw [hFsplit]; exact List.mem_append_left _ he)
      (hgne₁ e he) hs)
  set sF := List.foldl (hydrateStep grace now k (root ++ [r])) s1 F₁ with hsFdef
  have hadir : dirExists sF.fs ((root ++ [r]) ++ [FName.base b]) = false := by
    cases hb2 : dirExists sF.fs ((root ++ [r]) ++ [FName.base b]) with
    | false => rfl
    | true =>
      have := hF1.2.2.2 _ hb2
      rw [H.no_deep_dir r (FName.base b)] at this
      cases this
  set s2 := { sF with fs := removeFile sF.fs ((root ++ [r]) ++ [FName.downloaded (FName.base b)]) } with hs2def
  have htgt : hydrateStep grace now k (root ++ [r]) sF
        (FName.downloaded (FName.base b), false) = s2 :=
    hydrateEntry_target_orphan grace now (root ++ [r]) sF b hF1.2.1 hadir
  have hs2m : fileExists s2.fs ((root ++ [r]) ++ [FName.downloaded (FName.base b)])
      = false := fileExists_removeFile_self sF.fs _
  have hs2a : fileExists s2.fs ((root ++ [r]) ++ [FName.base b]) = false :=
    fileExists_false_removeFile hF1.2.1
  have hs2t : timersFor s2 ((root ++ [r]) ++ [FName.base b])
      = timersFor σ ((root ++ [r]) ++ [FName.base b]) := hF1.2.2.1
  -- after the marker's own step, push the three facts through the rest of the walk
  have hInner2 : ∀ (s : SchedState) (e : FName × Bool),
      e ∈ readdir σ.fs (root ++ [r]) → e.1 ≠ FName.downloaded (FName.base b) →
      (fileExists s.fs ((root ++ [r]) ++ [FName.downloaded (FName.base b)]) = false ∧
        fileExists s.fs ((root ++ [r]) ++ [FName.base b]) = false ∧
        timersFor s ((root ++ [r]) ++ [FName.base b])
          = timersFor σ ((root ++ [r]) ++ [FName.base b])) →
      (fileExists (hydrateStep grace now k (root ++ [r]) s e).fs
          ((root ++ [r]) ++ [FName.downloaded (FName.base b)]) = false ∧
        fileExists (hydrateStep grace now k (root ++ [r]) s e).fs
          ((root ++ [r]) ++ [FName.base b]) = false ∧
        timersFor (hydrateStep grace now k (root ++ [r]) s e)
            ((root ++ [r]) ++ [FName.base b])
          = timersFor σ ((root ++ [r]) ++ [FName.base b])) := by
    rintro s ⟨x, kk⟩ hmem hxm hs
    obtain ⟨hkk, hxf⟩ := readdir_reqdir_entries H r _ hmem
    have hkk' : kk = false := hkk
    subst hkk'
    have hnice := HN.of_file hxf
    have hxm' : x ≠ FName.downloaded (FName.base b) := hxm
    show fileExists (hydrateEntry grace now (root ++ [r]) s x).fs _ = false ∧
      fileExists (hydrateEntry grace now (root ++ [r]) s x).fs _ = false ∧
      timersFor (hydrateEntry grace now (root ++ [r]) s x) _ = _
    refine ⟨fileExists_false_hydrateEntry_ne
      (fun h => hxm' ((append_singleton_inj h).2).symm) hs.1,
      fileExists_false_hydrateEntry ⟨root ++ [r], b, rfl⟩ hs.2.1, ?_⟩
    cases x with
    | base g => exact hs.2.2
    | created m' => exact hs.2.2
    | downloaded m' =>
      cases m' with
      | created y => exact hnice.elim
      | downloaded y => exact hnice.elim
      | base g =>
        have hgb : FName.base g ≠ FName.base b := by
          intro hh
          exact hxm' (by rw [hh])
        exact (timersFor_hydrateEntry_downloaded grace now (root ++ [r]) s
          (FName.base g) _ (fun h => hgb ((append_singleton_inj h).2).symm)).trans hs.2.2
  have hF2 := foldl_preserve (hydrateStep grace now k (root ++ [r]))
    (fun s => fileExists s.fs ((root ++ [r]) ++ [FName.downloaded (FName.base b)])
        = false ∧
      fileExists s.fs ((root ++ [r]) ++ [FName.base b]) = false ∧
      timersFor s ((root ++ [r]) ++ [FName.base b])
        = timersFor σ ((root ++ [r]) ++ [FName.base b]))
    F₂ s2 ⟨hs2m, hs2a, hs2t⟩
    (fun s e he hs => hInner2 s e
      (by rw [hFsplit]; exact List.mem_append_right _ (List.mem_cons_of_mem _ he))
      (hgne₂ e he) hs)
  have hRootStep2 : ∀ (s : SchedState) (e : FName × Bool), e ∈ E₂ →
      (fileExists s.fs ((root ++ [r]) ++ [FName.downloaded (FName.base b)]) = false ∧
        fileExists s.fs ((root ++ [r]) ++ [FName.base b]) = false ∧
        timersFor s ((root ++ [r]) ++ [FName.base b])
          = timersFor σ ((root ++ [r]) ++ [FName.base b])) →
      (fileExists (hydrateStep grace now (k+1) root s e).fs
          ((root ++ [r]) ++ [FName.downloaded (FName.base b)]) = false ∧
        fileExists (hydrateStep grace now (k+1) root s e).fs
          ((root ++ [r]) ++ [FName.base b]) = false ∧
        timersFor (hydrateStep grace now (k+1) root s e)
            ((root ++ [r]) ++ [FName.base b])
          = timersFor σ ((root ++ [r]) ++ [FName.base b])) := by
    rintro s ⟨x, kk⟩ hmem hs
    have hmem' : (x, kk) ∈ readdir σ.fs root := by
      rw [hE]
      exact List.mem_append_right _ (List.mem_cons_of_mem _ hmem)
    obtain ⟨hkk, hxd⟩ := readdir_root_entries H _ hmem'
    have hkk' : kk = true := hkk
    subst hkk'
    have hxr' : x ≠ r := hne₂ _ hmem
    show fileExists (hydrateWalk grace now (k+1) (root ++ [x]) s).fs _ = false ∧
      fileExists (hydrateWalk grace now (k+1) (root ++ [x]) s).fs _ = false ∧
      timersFor (hydrateWalk grace now (k+1) (root ++ [x]) s) _ = _
    have hfm := hydrateWalk_frame grace now (k+1) (root ++ [x]) s
      ((root ++ [r]) ++ [FName.downloaded (FName.base b)]) (not_prefix_sibling hxr' _)
    have hfa := hydrateWalk_frame grace now (k+1) (root ++ [x]) s
      ((root ++ [r]) ++ [FName.base b]) (not_prefix_sibling hxr' _)
    refine ⟨?_, ?_, hfa.2.2.trans hs.2.2⟩
    · show (lookupFile (hydrateWalk grace now (k+1) (root ++ [x]) s).fs _).isSome = false
      rw [hfm.1]
      exact hs.1
    · show (lookupFile (hydrateWalk grace now (k+1) (root ++ [x]) s).fs _).isSome = false
      rw [hfa.1]
      exact hs.2.1
  have hE2 := foldl_preserve (hydrateStep grace now (k+1) root)
    (fun s => fileExists s.fs ((root ++ [r]) ++ [FName.downloaded (FName.base b)])
        = false ∧
      fileExists s.fs ((root ++ [r]) ++ [FName.base b]) = false ∧
      timersFor s ((root ++ [r]) ++ [FName.base b])
        = timersFor σ ((root ++ [r]) ++ [FName.base b]))
    E₂ (List.foldl (hydrateStep grace now k (root ++ [r])) s2 F₂) hF2
    (fun s e he hs => hRootStep2 s e he hs)
  have hwalk_eq : hydrateWalk grace now (walkFuel σ.fs) root σ
      = List.foldl (hydrateStep grace now (k+1) root)
          (List.foldl (hydrateStep grace now k (root ++ [r])) s2 F₂) E₂ := by
    rw [hk, hydrateWalk_eq_foldl, hE, List.foldl_append, List.foldl_cons, ← hs1def]
    have hseq : hydrateStep grace now (k+1) root s1 (r, true)
        = hydrateWalk grace now (k+1) (root ++ [r]) s1 := rfl
    rw [hseq, hydrateWalk_eq_foldl, hst₁.2.2.1, hFsplit, List.foldl_append,
      List.foldl_cons, ← hsFdef, htgt]
  have hwm : fileExists (hydrateWalk grace now (walkFuel σ.fs) root σ).fs
      ((root ++ [r]) ++ [FName.downloaded (FName.base b)]) = false := by
    rw [hwalk_eq]
    exact hE2.1
  have hwa : fileExists (hydrateWalk grace now (walkFuel σ.fs) root σ).fs
      ((root ++ [r]) ++ [FName.base b]) = false := by
    rw [hwalk_eq]
    exact hE2.2.1
  have hwt : timersFor (hydrateWalk grace now (walkFuel σ.fs) root σ)
      ((root ++ [r]) ++ [FName.base b])
      = timersFor σ ((root ++ [r]) ++ [FName.base b]) := by
    rw [hwalk_eq]
    exact hE2.2.2
  unfold hydrateFromDisk
  rw [if_pos hroot_ex]
  exact ⟨purgeOlderThan_keeps_false root ttlMs now _ _ hwm,
    (purgeOlderThan_timers_no_file root ttlMs now _ _ hwa).trans hwt,
    purgeOlderThan_keeps_false root ttlMs now _ _ hwa⟩

/-! ## Claim C10: `.created` markers are never reclaimed -/

/-- The invariant carried through both walks for the `.created`-marker
claim: the orphaned marker `<root>/<r>/<b>.created` exists, its artifact
does not, the request directory exists, and the tree keeps the shallow
layout the server produces (all files directly inside a request directory,
with no marker suffix stacked on another marker). -/
structure OrphanInv (root : FPath) (r : FName) (b : String) (st : SchedState) : Prop where
  cr_file : fileExists st.fs ((root ++ [r]) ++ [FName.created (FName.base b)]) = true
  art_absent : fileExists st.fs ((root ++ [r]) ++ [FName.base b]) = false
  req_dir : dirExists st.fs (root ++ [r]) = true
  files_shape : ∀ q, fileExists st.fs q = true →
    ∃ x n, q = (root ++ [x]) ++ [n] ∧ NiceName n
  dirs_shape : ∀ X, dirExists st.fs X = true → X = root ∨ ∃ x, X = root ++ [x]

theorem orphanInv_depth2_not_dir {root : FPath} {r : FName} {b : String}
    {st : SchedState} (h : OrphanInv root r b st) (x n : FName) :
    dirExists st.fs ((root ++ [x]) ++ [n]) = false := by
  cases hd : dirExists st.fs ((root ++ [x]) ++ [n]) with
  | false => rfl
  | true =>
    rcases h.dirs_shape _ hd with h0 | ⟨x', hx⟩
    · have := congrArg List.length h0
      simp at this
    · exact absurd hx length_two_ne_one

theorem fileExists_scheduleDeletion_ne (p q : FPath) (d : Option Int) (now : Int)
    (st : SchedState) (h : q ≠ mapLast FName.downloaded p) :
    fileExists (scheduleDeletion p d now st).fs q = fileExists st.fs q := by
  unfold fileExists
  rw [lookupFile_scheduleDeletion_ne p q d now st h]

/-- `safeDelete` of a plain artifact `<root>/<x>/<g>` other than the
protected one preserves the orphan-marker invariant. -/
theorem safeDelete_orphanInv {root : FPath} {r : FName} {b : String}
    (x : FName) (g : String) (s : SchedState)
    (hne : ¬ (x = r ∧ g = b)) (hs : OrphanInv root r b s) :
    OrphanInv root r b (safeDelete noFail ((root ++ [x]) ++ [FName.base g]) s) := by
  have hctgt : ((root ++ [r]) ++ [FName.created (FName.base b)])
      ≠ ((root ++ [x]) ++ [FName.base g]) := by
    intro h
    simpa using (append_singleton_inj h).2
  have hcdl : ((root ++ [r]) ++ [FName.created (FName.base b)])
      ≠ ((root ++ [x]) ++ [FName.downloaded (FName.base g)]) := by
    intro h
    simpa using (append_singleton_inj h).2
  have hccr : ((root ++ [r]) ++ [FName.created (FName.base b)])
      ≠ ((root ++ [x]) ++ [FName.created (FName.base g)]) := by
    intro h
    obtain ⟨h1, h2⟩ := append_singleton_inj h
    refine hne ⟨((append_singleton_inj h1).2).symm, ?_⟩
    injection h2 with h3
    injection h3 with h4
    exact h4.symm
  have hatgt : ((root ++ [r]) ++ [FName.base b])
      ≠ ((root ++ [x]) ++ [FName.base g]) := by
    intro h
    obtain ⟨h1, h2⟩ := append_singleton_inj h
    refine hne ⟨((append_singleton_inj h1).2).symm, ?_⟩
    injection h2 with h3
    exact h3.symm
  have hfs := safeDeleteFS_noFail_eq ((root ++ [x]) ++ [FName.base g]) s.fs
    (orphanInv_depth2_not_dir hs x _)
    (by rw [mapLast_append]; exact orphanInv_depth2_not_dir hs x _)
    (by rw [mapLast_append]; exact orphanInv_depth2_not_dir hs x _)
  rw [mapLast_append, mapLast_append, dropLast_append_singleton] at hfs
  set fs3 := removeFile (removeFile (removeFile s.fs ((root ++ [x]) ++ [FName.base g]))
    ((root ++ [x]) ++ [FName.downloaded (FName.base g)]))
    ((root ++ [x]) ++ [FName.created (FName.base g)]) with hfs3def
  have hcr3 : fileExists fs3 ((root ++ [r]) ++ [FName.created (FName.base b)]) = true := by
    rw [hfs3def, fileExists_removeFile_ne _ _ _ hccr, fileExists_removeFile_ne _ _ _ hcdl,
      fileExists_removeFile_ne _ _ _ hctgt]
    exact hs.cr_file
  have ha3 : fileExists fs3 ((root ++ [r]) ++ [FName.base b]) = false :=
    fileExists_false_removeFile (fileExists_false_removeFile
      (fileExists_false_removeFile hs.art_absent))
  have hd3 : dirExists fs3 (root ++ [r]) = true := by
    rw [hfs3def, dirExists_removeFile, dirExists_removeFile, dirExists_removeFile]
    exact hs.req_dir
  have hfsh3 : ∀ q, fileExists fs3 q = true → fileExists s.fs q = true := by
    intro q hq
    cases h0 : fileExists s.fs q with
    | true => rfl
    | false =>
      rw [hfs3def, fileExists_false_removeFile (fileExists_false_removeFile
        (fileExists_false_removeFile h0))] at hq
      cases hq
  have hdsh3 : ∀ X, dirExists fs3 X = dirExists s.fs X := by
    intro X
    rw [hfs3def, dirExists_removeFile, dirExists_removeFile, dirExists_removeFile]
  have hcases : dirCleanupStep noFail fs3 (root ++ [x]) = fs3 ∨
      dirCleanupStep noFail fs3 (root ++ [x]) = removeRecursive fs3 (root ++ [x]) := by
    unfold dirCleanupStep
    split_ifs <;> first | exact Or.inl rfl | exact Or.inr rfl
  by_cases hxr : x = r
  · subst hxr
    have hclean : dirCleanupStep noFail fs3 (root ++ [x]) = fs3 :=
      dirCleanup_of_file_child noFail fs3 (root ++ [x]) (FName.created (FName.base b)) hcr3
    refine ⟨?_, ?_, ?_, ?_, ?_⟩
    · show fileExists (safeDeleteFS noFail ((root ++ [x]) ++ [FName.base g]) s.fs) _ = true
      rw [hfs, hclean]
      exact hcr3
    · show fileExists (safeDeleteFS noFail ((root ++ [x]) ++ [FName.base g]) s.fs) _ = false
      rw [hfs, hclean]
      exact ha3
    · show dirExists (safeDeleteFS noFail ((root ++ [x]) ++ [FName.base g]) s.fs) _ = true
      rw [hfs, hclean]
      exact hd3
    · intro q hq
      have hq' : fileExists (safeDeleteFS noFail ((root ++ [x]) ++ [FName.base g]) s.fs) q
          = true := hq
      rw [hfs, hclean] at hq'
      exact hs.files_shape q (hfsh3 q hq')
    · intro X hX
      have hX' : dirExists (safeDeleteFS noFail ((root ++ [x]) ++ [FName.base g]) s.fs) X
          = true := hX
      rw [hfs, hclean, hdsh3 X] at hX'
      exact hs.dirs_shape X hX'
  · rcases hcases with hclean | hclean
    · refine ⟨?_, ?_, ?_, ?_, ?_⟩
      · show fileExists (safeDeleteFS noFail ((root ++ [x]) ++ [FName.base g]) s.fs) _ = true
        rw [hfs, hclean]
        exact hcr3
      · show fileExists (safeDeleteFS noFail ((root ++ [x]) ++ [FName.base g]) s.fs) _ = false
        rw [hfs, hclean]
        exact ha3
      · show dirExists (safeDeleteFS noFail ((root ++ [x]) ++ [FName.base g]) s.fs) _ = true
        rw [hfs, hclean]
        exact hd3
      · intro q hq
        have hq' : fileExists (safeDeleteFS noFail ((root ++ [x]) ++ [FName.base g]) s.fs) q
            = true := hq
        rw [hfs, hclean] at hq'
        exact hs.files_shape q (hfsh3 q hq')
      · intro X hX
        have hX' : dirExists (safeDeleteFS noFail ((root ++ [x]) ++ [FName.base g]) s.fs) X
            = true := hX
        rw [hfs, hclean, hdsh3 X] at hX'
        exact hs.dirs_shape X hX'
    · refine ⟨?_, ?_, ?_, ?_, ?_⟩
      · show fileExists (safeDeleteFS noFail ((root ++ [x]) ++ [FName.base g]) s.fs) _ = true
        rw [hfs, hclean,
          fileExists_removeRecursive_outside _ _ _ (not_prefix_sibling hxr _)]
        exact hcr3
      · show fileExists (safeDeleteFS noFail ((root ++ [x]) ++ [FName.base g]) s.fs) _ = false
        rw [hfs, hclean]
        exact fileExists_false_removeRecursive ha3
      · show dirExists (safeDeleteFS noFail ((root ++ [x]) ++ [FName.base g]) s.fs) _ = true
        have hnp : ¬ (root ++ [x]) <+: (root ++ [r]) := by
          simpa using not_prefix_sibling (A := root) hxr ([] : FPath)
        rw [hfs, hclean, dirExists_removeRecursive_outside _ _ _ hnp]
        exact hd3
      · intro q hq
        have hq' : fileExists (safeDeleteFS noFail ((root ++ [x]) ++ [FName.base g]) s.fs) q
            = true := hq
        rw [hfs, hclean] at hq'
        cases h0 : fileExists fs3 q with
        | true => exact hs.files_shape q (hfsh3 q h0)
        | false =>
          rw [fileExists_false_removeRecursive h0] at hq'
          cases hq'
      · intro X hX
        have hX' : dirExists (safeDeleteFS noFail ((root ++ [x]) ++ [FName.base g]) s.fs) X
            = true := hX
        rw [hfs, hclean] at hX'
        have h2 := dirExists_mono_removeRecursive hX'
        rw [hdsh3 X] at h2
        exact hs.dirs_shape X h2

/-- The TTL sweep's walk preserves the orphan-marker invariant, from any
directory at the root or one level below it. -/
theorem purgeWalk_orphanInv (root : FPath) (r : FName) (b : String) (ttlMs now : Int) :
    ∀ (fuel : Nat) (D : FPath) (st : SchedState),
      (D = root ∨ ∃ x, D = root ++ [x]) → OrphanInv root r b st →
      OrphanInv root r b (purgeWalk ttlMs now fuel D st) := by
  intro fuel
  induction fuel with
  | zero => exact fun D st _ hs => hs
  | succ fuel ih =>
    intro D st hD hst
    rw [purgeWalk_eq_foldl]
    refine foldl_preserve _ (OrphanInv root r b) _ st hst ?_
    rintro s ⟨n, kk⟩ hmem hs
    cases kk with
    | true =>
      rcases of_mem_readdir hmem with ⟨-, hdirs⟩ | ⟨hk, -⟩
      · have hd : dirExists st.fs (D ++ [n]) = true := decide_eq_true hdirs
        rcases hD with hD0 | ⟨x0, hD0⟩
        · rw [hD0]
          show OrphanInv root r b (purgeDirStep ttlMs now fuel root s n)
          unfold purgeDirStep
          dsimp only
          have hw := ih (root ++ [n]) s (Or.inr ⟨n, rfl⟩) hs
          split
          · case _ hcond =>
            by_cases hnr : n = r
            · subst hnr
              have hne2 := readdir_isEmpty_false_of_file
                (purgeWalk ttlMs now fuel (root ++ [n]) s).fs (root ++ [n])
                (FName.created (FName.base b)) hw.cr_file
              rw [hne2, Bool.and_false] at hcond
              exact absurd hcond Bool.false_ne_true
            · have hnp1 : ¬ (root ++ [n])
                  <+: ((root ++ [r]) ++ [FName.created (FName.base b)]) :=
                not_prefix_sibling hnr _
              have hnp2 : ¬ (root ++ [n]) <+: (root ++ [r]) := by
                simpa using not_prefix_sibling (A := root) hnr ([] : FPath)
              refine ⟨?_, ?_, ?_, ?_, ?_⟩
              · show fileExists (removeRecursive _ (root ++ [n])) _ = true
                rw [fileExists_removeRecursive_outside _ _ _ hnp1]
                exact hw.cr_file
              · exact fileExists_false_removeRecursive hw.art_absent
              · show dirExists (removeRecursive _ (root ++ [n])) _ = true
                rw [dirExists_removeRecursive_outside _ _ _ hnp2]
                exact hw.req_dir
              · intro q hq
                have hq' : fileExists (removeRecursive
                    (purgeWalk ttlMs now fuel (root ++ [n]) s).fs (root ++ [n])) q
                    = true := hq
                cases h0 : fileExists (purgeWalk ttlMs now fuel (root ++ [n]) s).fs q with
                | true => exact hw.files_shape q h0
                | false =>
                  rw [fileExists_false_removeRecursive h0] at hq'
                  cases hq'
              · intro X hX
                have hX' : dirExists (removeRecursive
                    (purgeWalk ttlMs now fuel (root ++ [n]) s).fs (root ++ [n])) X
                    = true := hX
                exact hw.dirs_shape X (dirExists_mono_removeRecursive hX')
          · exact hw
        · exfalso
          subst hD0
          rcases hst.dirs_shape _ hd with h0 | ⟨x', hx⟩
          · have := congrArg List.length h0
            simp at this
          · exact length_two_ne_one hx
      · exact absurd hk Bool.noConfusion
    | false =>
      rcases of_mem_readdir hmem with ⟨hk, -⟩ | ⟨-, hf⟩
      · exact absurd hk Bool.false_ne_true
      · obtain ⟨x', n', hshape, hnice⟩ := hst.files_shape _ hf
        obtain ⟨hD', hn'⟩ := append_singleton_inj hshape
        subst hD'
        subst hn'
        show OrphanInv root r b (purgeEntryFile ttlMs now (root ++ [x']) s n)
        cases n with
        | created m => exact hs
        | downloaded m => exact hs
        | base g =>
          have hne2 : ¬ (x' = r ∧ g = b) := by
            rintro ⟨rfl, rfl⟩
            exact Bool.noConfusion (hf.symm.trans hst.art_absent)
          simp only [purgeEntryFile]
          split
          all_goals try split
          all_goals
            first
              | exact hs
              | exact safeDelete_orphanInv x' g s hne2 hs

/-- The hydration walk preserves the orphan-marker invariant (here the
no-stacked-marker part of the shape is essential: a `.downloaded` marker
stacked on a `.created` name would make hydration delete the `.created`
file as that marker's artifact). -/
theorem hydrateWalk_orphanInv (root : FPath) (r : FName) (b : String) (g now : Int) :
    ∀ (fuel : Nat) (D : FPath) (st : SchedState),
      (D = root ∨ ∃ x, D = root ++ [x]) → OrphanInv root r b st →
      OrphanInv root r b (hydrateWalk g now fuel D st) := by
  intro fuel
  induction fuel with
  | zero => exact fun D st _ hs => hs
  | succ fuel ih =>
    intro D st hD hst
    rw [hydrateWalk_eq_foldl]
    refine foldl_preserve _ (OrphanInv root r b) _ st hst ?_
    rintro s ⟨n, kk⟩ hmem hs
    cases kk with
    | true =>
      rcases of_mem_readdir hmem with ⟨-, hdirs⟩ | ⟨hk, -⟩
      · have hd : dirExists st.fs (D ++ [n]) = true := decide_eq_true hdirs
        rcases hD with hD0 | ⟨x0, hD0⟩
        · rw [hD0]
          exact ih (root ++ [n]) s (Or.inr ⟨n, rfl⟩) hs
        · exfalso
          subst hD0
          rcases hst.dirs_shape _ hd with h0 | ⟨x', hx⟩
          · have := congrArg List.length h0
            simp at this
          · exact length_two_ne_one hx
      · exact absurd hk Bool.noConfusion
    | false =>
      rcases of_mem_readdir hmem with ⟨hk, -⟩ | ⟨-, hf⟩
      · exact absurd hk Bool.false_ne_true
      · obtain ⟨x', n', hshape, hnice⟩ := hst.files_shape _ hf
        obtain ⟨hD', hn'⟩ := append_singleton_inj hshape
        subst hD'
        subst hn'
        show OrphanInv root r b (hydrateEntry g now (root ++ [x']) s n)
        cases n with
        | base gg => exact hs
        | created m => exact hs
        | downloaded m =>
          cases m with
          | created y => exact hnice.elim
          | downloaded y => exact hnice.elim
          | base gg =>
            simp only [hydrateEntry]
            by_cases hex : existsSync s.fs ((root ++ [x']) ++ [FName.base gg]) = false
            · rw [if_pos hex]
              have hrm : ((root ++ [r]) ++ [FName.created (FName.base b)])
                  ≠ ((root ++ [x']) ++ [FName.downloaded (FName.base gg)]) := by
                intro h
                simpa using (append_singleton_inj h).2
              refine ⟨?_, ?_, ?_, ?_, ?_⟩
              · show fileExists (removeFile s.fs _) _ = true
                rw [fileExists_removeFile_ne _ _ _ hrm]
                exact hs.cr_file
              · exact fileExists_false_removeFile hs.art_absent
              · show dirExists (removeFile s.fs _) _ = true
                rw [dirExists_removeFile]
                exact hs.req_dir
              · intro q hq
                have hq' : fileExists (removeFile s.fs
                    ((root ++ [x']) ++ [FName.downloaded (FName.base gg)])) q = true := hq
                cases h0 : fileExists s.fs q with
                | true => exact hs.files_shape q h0
                | false =>
                  rw [fileExists_false_removeFile h0] at hq'
                  cases hq'
              · intro X hX
                have hX' : dirExists (removeFile s.fs
                    ((root ++ [x']) ++ [FName.downloaded (FName.base gg)])) X = true := hX
                rw [dirExists_removeFile] at hX'
                exact hs.dirs_shape X hX'
            · rw [if_neg hex]
              have hex' : existsSync s.fs ((root ++ [x']) ++ [FName.base gg]) = true := by
                cases h2 : existsSync s.fs ((root ++ [x']) ++ [FName.base gg]) with
                | true => rfl
                | false => exact absurd h2 hex
              have hne2 : ¬ (x' = r ∧ gg = b) := by
                rintro ⟨rfl, rfl⟩
                have hfalse : existsSync s.fs ((root ++ [x']) ++ [FName.base gg])
                    = false := by
                  unfold existsSync
                  rw [hs.art_absent, orphanInv_depth2_not_dir hs x' (FName.base gg)]
                  rfl
                exact Bool.false_ne_true (hfalse.symm.trans hex')
              split
              · exact safeDelete_orphanInv x' gg s hne2 hs
              · have hwm : ((root ++ [r]) ++ [FName.created (FName.base b)])
                    ≠ mapLast FName.downloaded ((root ++ [x']) ++ [FName.base gg]) := by
                  rw [mapLast_append]
                  intro h
                  simpa using (append_singleton_inj h).2
                have hwa : ((root ++ [r]) ++ [FName.base b])
                    ≠ mapLast FName.downloaded ((root ++ [x']) ++ [FName.base gg]) := by
                  rw [mapLast_append]
                  intro h
                  simpa using (append_singleton_inj h).2
                refine ⟨?_, ?_, ?_, ?_, ?_⟩
                · rw [fileExists_scheduleDeletion_ne _ _ _ _ _ hwm]
                  exact hs.cr_file
                · rw [fileExists_scheduleDeletion_ne _ _ _ _ _ hwa]
                  exact hs.art_absent
                · rw [dirExists_scheduleDeletion]
                  exact hs.req_dir
                · intro q hq
                  have hq' : fileExists (writeFile s.fs (mapLast FName.downloaded
                      ((root ++ [x']) ++ [FName.base gg])) (some now) now) q = true := hq
                  rcases fileExists_writeFile_cases hq' with rfl | hold
                  · exact ⟨x', FName.downloaded (FName.base gg),
                      by rw [mapLast_append], trivial⟩
                  · exact hs.files_shape q hold
                · intro X hX
                  rw [dirExists_scheduleDeletion] at hX
                  exact hs.dirs_shape X hX

/-- Claim C10, amended: on a well-formed tree whose file names do not stack
a marker suffix on another marker name (`NiceNames` — without this
hypothesis the claim fails: a marker `x.created.downloaded` makes hydration
delete the file `x.created` as that marker's artifact), a `.created` marker
whose artifact is absent survives both the TTL sweep and hydration, and its
parent request directory remains existing and non-empty. -/
theorem created_marker_never_reclaimed
    (root : FPath) (σ : SchedState) (grace ttlMs now : Int) (r : FName) (b : String)
    (H : TwoLevel root σ) (HN : NiceNames root σ)
    (hc : fileExists σ.fs ((root ++ [r]) ++ [FName.created (FName.base b)]) = true)
    (hana : fileExists σ.fs ((root ++ [r]) ++ [FName.base b]) = false) :
    (fileExists (purgeOlderThan root ttlMs now σ).fs
        ((root ++ [r]) ++ [FName.created (FName.base b)]) = true ∧
      dirExists (purgeOlderThan root ttlMs now σ).fs (root ++ [r]) = true ∧
      (readdir (purgeOlderThan root ttlMs now σ).fs (root ++ [r])).isEmpty = false) ∧
    (fileExists (hydrateFromDisk root grace ttlMs now σ).fs
        ((root ++ [r]) ++ [FName.created (FName.base b)]) = true ∧
      dirExists (hydrateFromDisk root grace ttlMs now σ).fs (root ++ [r]) = true ∧
      (readdir (hydrateFromDisk root grace ttlMs now σ).fs (root ++ [r])).isEmpty
        = false) := by
  have hInv : OrphanInv root r b σ := by
    refine ⟨hc, hana, ?_, ?_, ?_⟩
    · have hc' := hc
      rw [fileExists_true_iff] at hc'
      obtain ⟨e, he, hk⟩ := hc'
      obtain ⟨r', n', hshape, hdir⟩ := H.files_shape e he
      rw [hk] at hshape
      unfold dirExists
      rw [(append_singleton_inj hshape).1]
      exact decide_eq_true hdir
    · intro q hq
      rw [fileExists_true_iff] at hq
      obtain ⟨e, he, hk⟩ := hq
      obtain ⟨r', n', hshape, -⟩ := H.files_shape e he
      refine ⟨r', n', ?_, HN e he r' n' hshape⟩
      rw [← hk]
      exact hshape
    · intro X hX
      have hmem : X ∈ σ.fs.dirs := by simpa [dirExists] using hX
      exact H.dirs_shape X hmem
  have hroot_ex : existsSync σ.fs root = true := by
    have hd : dirExists σ.fs root = true := by
      unfold dirExists
      simpa using H.root_dir
    unfold existsSync
    rw [hd, Bool.or_true]
  constructor
  · have hP := purgeWalk_orphanInv root r b ttlMs now (walkFuel σ.fs) root σ
      (Or.inl rfl) hInv
    unfold purgeOlderThan
    rw [if_pos hroot_ex]
    exact ⟨hP.cr_file, hP.req_dir, readdir_isEmpty_false_of_file _ _ _ hP.cr_file⟩
  · have hH := hydrateWalk_orphanInv root r b grace now (walkFuel σ.fs) root σ
      (Or.inl rfl) hInv
    unfold hydrateFromDisk
    rw [if_pos hroot_ex]
    unfold purgeOlderThan
    split
    · have hP2 := purgeWalk_orphanInv root r b ttlMs now
        (walkFuel (hydrateWalk grace now (walkFuel σ.fs) root σ).fs) root
        (hydrateWalk grace now (walkFuel σ.fs) root σ) (Or.inl rfl) hH
      exact ⟨hP2.cr_file, hP2.req_dir, readdir_isEmpty_false_of_file _ _ _ hP2.cr_file⟩
    · exact ⟨hH.cr_file, hH.req_dir, readdir_isEmpty_false_of_file _ _ _ hH.cr_file⟩

/-! ## Claim C1: at most one timer per path, last caller wins -/

/-- Claim C1: arming the scheduler any positive number of times in
succession for the same path leaves exactly one pending timer for that
path, carrying the delay of the last call — each `scheduleDeletion` first
clears any previously armed timer for the path. -/
theorem arm_last_caller_wins (p : FPath) (st : SchedState)
    (calls : List (Option Int × Int)) (c : Option Int × Int) :
    timersFor (List.foldl (fun s a => scheduleDeletion p a.1 a.2 s) st (calls ++ [c])) p
      = [c.1] := by
  rw [List.foldl_append, List.foldl_cons, List.foldl_nil]
  exact timersFor_scheduleDeletion_self p c.1 c.2 _

/-! ## Claim C2: `safeDelete` is idempotent -/

/-- Claim C2: running `safeDelete` twice on the same path yields exactly
the state of running it once — the second call is a no-op, for every
failure environment (in particular when the file, its markers and the
parent directory are already gone); no error reaches the caller in either
run, since the body catches everything (the model is total). -/
theorem safeDelete_idempotent (fail : FPath → Bool) (p : FPath) (st : SchedState) :
    safeDelete fail p (safeDelete fail p st) = safeDelete fail p st := by
  unfold safeDelete
  dsimp only
  rw [safeDeleteFS_idem, filter_filter_of_imp _ _ _ (fun x h => h)]

/-! ## Claim C6: the deletion cascade on the request directory -/

/-- Claim C6: `safeDelete` removes the artifact and both markers, and then
the parent request directory exactly when nothing else is left in it:
if the artifact and its markers were the only entries the directory is
removed, while a surviving sibling file keeps it (and the whole directory
state) intact. -/
theorem safeDelete_cascade (D : FPath) (g : String) (st : SchedState)
    (hD : dirExists st.fs D = true)
    (hd1 : dirExists st.fs (D ++ [FName.base g]) = false)
    (hd2 : dirExists st.fs (D ++ [FName.downloaded (FName.base g)]) = false)
    (hd3 : dirExists st.fs (D ++ [FName.created (FName.base g)]) = false) :
    (fileExists (safeDelete noFail (D ++ [FName.base g]) st).fs
        (D ++ [FName.base g]) = false ∧
      fileExists (safeDelete noFail (D ++ [FName.base g]) st).fs
        (D ++ [FName.downloaded (FName.base g)]) = false ∧
      fileExists (safeDelete noFail (D ++ [FName.base g]) st).fs
        (D ++ [FName.created (FName.base g)]) = false) ∧
    ((∀ q ∈ st.fs.dirs, childName D q = none) →
      (∀ n, fileExists st.fs (D ++ [n]) = true →
        n = FName.base g ∨ n = FName.downloaded (FName.base g)
          ∨ n = FName.created (FName.base g)) →
      dirExists (safeDelete noFail (D ++ [FName.base g]) st).fs D = false) ∧
    (∀ q, q.dropLast = D → q ≠ [] → q ≠ D ++ [FName.base g] →
      q ≠ D ++ [FName.downloaded (FName.base g)] →
      q ≠ D ++ [FName.created (FName.base g)] → fileExists st.fs q = true →
      dirExists (safeDelete noFail (D ++ [FName.base g]) st).fs D = true) := by
  have hfs := safeDeleteFS_noFail_eq (D ++ [FName.base g]) st.fs hd1
    (by rw [mapLast_append]; exact hd2) (by rw [mapLast_append]; exact hd3)
  rw [mapLast_append, mapLast_append, dropLast_append_singleton] at hfs
  set fs3 := removeFile (removeFile (removeFile st.fs (D ++ [FName.base g]))
    (D ++ [FName.downloaded (FName.base g)])) (D ++ [FName.created (FName.base g)])
    with hfs3def
  have hdirs3 : ∀ X, dirExists fs3 X = dirExists st.fs X := by
    intro X
    rw [hfs3def, dirExists_removeFile, dirExists_removeFile, dirExists_removeFile]
  refine ⟨⟨?_, ?_, ?_⟩, ?_, ?_⟩
  · show fileExists (safeDeleteFS noFail (D ++ [FName.base g]) st.fs) _ = false
    rw [hfs]
    exact fileExists_false_dirCleanup (fileExists_false_removeFile
      (fileExists_false_removeFile (fileExists_removeFile_self st.fs _)))
  · show fileExists (safeDeleteFS noFail (D ++ [FName.base g]) st.fs) _ = false
    rw [hfs]
    exact fileExists_false_dirCleanup (fileExists_false_removeFile
      (fileExists_removeFile_self _ _))
  · show fileExists (safeDeleteFS noFail (D ++ [FName.base g]) st.fs) _ = false
    rw [hfs]
    exact fileExists_false_dirCleanup (fileExists_removeFile_self _ _)
  · intro hnodir honly
    have hempty : readdir fs3 D = [] := by
      unfold readdir
      rw [List.filterMap_eq_nil_iff.mpr, List.filterMap_eq_nil_iff.mpr, List.append_nil]
      · intro e he
        rw [hfs3def] at he
        unfold removeFile at he
        simp only [List.mem_filter, decide_eq_true_eq] at he
        cases hcn : childName D e.1 with
        | none => rfl
        | some n =>
          exfalso
          have hshape := childName_eq_some hcn
          have hf : fileExists st.fs (D ++ [n]) = true := by
            rw [fileExists_true_iff]
            exact ⟨e, he.1.1.1, hshape⟩
          rcases honly n hf with rfl | rfl | rfl
          · exact he.1.1.2 hshape
          · exact he.1.2 hshape
          · exact he.2 hshape
      · intro q hq
        have hq' : q ∈ st.fs.dirs := by
          rw [hfs3def] at hq
          exact hq
        rw [hnodir q hq']
        rfl
    show dirExists (safeDeleteFS noFail (D ++ [FName.base g]) st.fs) _ = false
    rw [hfs]
    unfold dirCleanupStep
    rw [if_pos (by unfold existsSync; rw [hdirs3, hD, Bool.or_true]),
      if_pos (by rw [hdirs3]; exact hD),
      if_pos (by rw [hempty]; rfl),
      if_neg (by simp [noFail])]
    exact dirExists_removeRecursive_under _ _ _ (List.prefix_refl D)
  · intro q hdrop hqnil hq1 hq2 hq3 hqfile
    have hsib := safeDeleteFS_sibling_frame noFail (D ++ [FName.base g]) q st.fs hq1
      (by rw [mapLast_append]; exact hq2) (by rw [mapLast_append]; exact hq3)
      (by rw [dropLast_append_singleton]; exact hdrop) hqnil hqfile
    show dirExists (safeDeleteFS noFail (D ++ [FName.base g]) st.fs) _ = true
    rw [hsib.2 D]
    exact hD

/-! ## Claim C7: what the single `try` block actually guarantees -/

/-- Claim C7, amended: when deleting the artifact file throws, `safeDelete`
does NOT go on to the marker deletions — the single `try` block aborts
every remaining step, leaving the filesystem exactly as it was; the two
parts of the original claim that do hold are kept: no error reaches the
caller (the `catch` swallows it; the model is total) and the `finally`
block still clears the in-memory timer entry for the path. -/
theorem safeDelete_error_aborts_rest (fail : FPath → Bool) (p : FPath) (st : SchedState)
    (hfp : fail p = true) (hex : existsSync st.fs p = true) :
    (safeDelete fail p st).fs = st.fs ∧ timersFor (safeDelete fail p st) p = [] := by
  refine ⟨?_, timersFor_safeDelete_self fail p st⟩
  show safeDeleteFS fail p st.fs = st.fs
  have h1 : tryRm fail p st.fs = .error st.fs := by
    unfold tryRm
    rw [if_pos hex, if_pos (by rw [hfp, Bool.true_or])]
  simp only [safeDeleteFS_def, h1]

/-! ## Claim C9: the finish hook touches only the upload side -/

/-- Claim C9: the `res.on('finish')` hook of `withTempWorkspace` deletes
(recursively, force) the workspace's upload directory and nothing else:
afterwards `uploads/<rid>` is gone, every path not under it — in
particular `outputs/<rid>` and everything below it — has exactly the
files and directories it had before (the `cleanupDir(outputDir)` call is
commented out in the source). -/
theorem finishHook_deletes_only_uploads (bu bo : FPath) (rid : FName) (fs : FS)
    (hlen : bu.length = bo.length) (hne : bu ≠ bo) :
    existsSync (finishHook bu bo rid fs) (bu ++ [rid]) = false ∧
      (∀ q, ¬ (bu ++ [rid]) <+: q →
        lookupFile (finishHook bu bo rid fs) q = lookupFile fs q ∧
        dirExists (finishHook bu bo rid fs) q = dirExists fs q) ∧
      (∀ p, lookupFile (finishHook bu bo rid fs) ((bo ++ [rid]) ++ p)
          = lookupFile fs ((bo ++ [rid]) ++ p) ∧
        dirExists (finishHook bu bo rid fs) ((bo ++ [rid]) ++ p)
          = dirExists fs ((bo ++ [rid]) ++ p)) := by
  have hnp : ∀ p : FPath, ¬ (bu ++ [rid]) <+: ((bo ++ [rid]) ++ p) := by
    intro p hp
    apply hne
    have htake := List.prefix_iff_eq_take.mp hp
    have hlen2 : (bu ++ [rid]).length = (bo ++ [rid]).length := by simp [hlen]
    rw [hlen2, List.take_left] at htake
    exact (append_singleton_inj htake).1
  unfold finishHook cleanupDir
  split
  · refine ⟨?_, ?_, ?_⟩
    · unfold existsSync
      rw [fileExists_removeRecursive_under _ _ _ (List.prefix_refl _),
        dirExists_removeRecursive_under _ _ _ (List.prefix_refl _)]
      rfl
    · intro q hq
      exact ⟨lookupFile_removeRecursive_outside _ _ _ hq,
        dirExists_removeRecursive_outside _ _ _ hq⟩
    · intro p
      exact ⟨lookupFile_removeRecursive_outside _ _ _ (hnp p),
        dirExists_removeRecursive_outside _ _ _ (hnp p)⟩
  · case _ h =>
    refine ⟨?_, fun q hq => ⟨rfl, rfl⟩, fun p => ⟨rfl, rfl⟩⟩
    cases h2 : existsSync fs (bu ++ [rid]) with
    | false => rfl
    | true => exact absurd h2 h

/-! ## Claim C8: re-arming rewrites the `.downloaded` marker -/

/-! ### Concrete example states -/

/-- The outputs root used by the concrete examples (`outputs/`). -/
def exRoot : FPath := [FName.base "outputs"]

/-- The request directory name of the examples. -/
def exR : FName := FName.base "R1"

/-- The example artifact `outputs/R1/a.pdf`. -/
def exArt : FPath := [FName.base "outputs", FName.base "R1", FName.base "a.pdf"]

/-- Its `.created` marker path. -/
def exCre : FPath :=
  [FName.base "outputs", FName.base "R1", FName.created (FName.base "a.pdf")]

/-- Its `.downloaded` marker path. -/
def exDl : FPath :=
  [FName.base "outputs", FName.base "R1", FName.downloaded (FName.base "a.pdf")]

/-- The directories of all example trees: the root and one request dir. -/
def exDirs : List FPath :=
  [[FName.base "outputs"], [FName.base "outputs", FName.base "R1"]]

/-- Artifact plus `.created` marker (for the TTL-sweep example). -/
def stPurge : SchedState :=
  ⟨⟨[(exArt, ⟨some 100, 50, 60⟩), (exCre, ⟨some 100, 70, 80⟩)], exDirs⟩, []⟩

/-- Artifact with zero `mtimeMs` and fresh `ctimeMs`, no marker. -/
def stCtime : SchedState := ⟨⟨[(exArt, ⟨none, 0, 1990⟩)], exDirs⟩, []⟩

/-- Artifact plus `.downloaded` marker with timestamp `1500`. -/
def stRearm : SchedState :=
  ⟨⟨[(exArt, ⟨some 100, 50, 60⟩), (exDl, ⟨some 1500, 60, 60⟩)], exDirs⟩, []⟩

/-- An orphaned `.downloaded` marker (its artifact is absent). -/
def stOrphan : SchedState := ⟨⟨[(exDl, ⟨some 500, 60, 60⟩)], exDirs⟩, []⟩

/-- Artifact with both markers and a pending timer. -/
def stFull : SchedState :=
  ⟨⟨[(exArt, ⟨some 100, 50, 60⟩), (exCre, ⟨some 100, 70, 80⟩),
      (exDl, ⟨some 200, 90, 95⟩)], exDirs⟩, [(exArt, some 5)]⟩

/-- A stacked marker: the file `x.created` together with the marker
`x.created.downloaded`, whose "artifact" is `x.created` itself. -/
def stStack : SchedState :=
  ⟨⟨[([FName.base "outputs", FName.base "R1", FName.created (FName.base "x")],
      ⟨some 100, 50, 60⟩),
     ([FName.base "outputs", FName.base "R1",
        FName.downloaded (FName.created (FName.base "x"))], ⟨some 100, 50, 60⟩)],
    exDirs⟩, []⟩

/-- A lone orphaned `.created` marker. -/
def stOrphanCre : SchedState := ⟨⟨[(exCre, ⟨some 0, 10, 10⟩)], exDirs⟩, []⟩

/-- The failure environment in which removing exactly the example artifact
throws. -/
def failArt : FPath → Bool := fun q => decide (q = exArt)

/-- The example upload-side tree for the workspace hook. -/
def fsW : FS :=
  ⟨[([FName.base "uploads", FName.base "R1", FName.base "in.pdf"], ⟨none, 5, 5⟩),
    ([FName.base "outputs", FName.base "R1", FName.base "a.pdf"], ⟨some 100, 50, 60⟩)],
   [[FName.base "uploads"], [FName.base "uploads", FName.base "R1"],
    [FName.base "outputs"], [FName.base "outputs", FName.base "R1"]]⟩

theorem exDirs_shape : ∀ d ∈ exDirs, d = exRoot ∨ ∃ x, d = exRoot ++ [x] := by
  intro d hd
  rcases List.mem_cons.mp hd with rfl | hd
  · exact Or.inl rfl
  · rcases List.mem_cons.mp hd with rfl | hd
    · exact Or.inr ⟨exR, rfl⟩
    · cases hd

/-- Claim C8: the source intends hydration's re-arm to keep the original
download timestamp, but `scheduleDeletion` always rewrites the
`.downloaded` marker with the current time — re-arming during hydration
resets the marker's content from its original timestamp (`1500` in the
example) to `now` (`2000`). -/
theorem hydrate_rearm_rewrites_marker :
    readContent stRearm.fs exDl = some 1500 ∧
      (∀ (p : FPath) (d : Option Int) (now : Int) (st : SchedState),
        readContent (scheduleDeletion p d now st).fs (mapLast FName.downloaded p)
          = some now) ∧
      readContent (hydrateFromDisk exRoot 100000 1000000000 2000 stRearm).fs exDl
        = some 2000 := by
  refine ⟨by decide, ?_, by decide⟩
  intro p d now st
  show (lookupFile (writeFile (clearScheduledDeletion p st).fs
      (mapLast FName.downloaded p) (some now) now)
      (mapLast FName.downloaded p)).bind (fun fd => fd.content) = some now
  rw [lookupFile_writeFile_self]
  rfl

/-! ### Witnesses and counterexamples on the concrete states -/

theorem twoLevel_stPurge : TwoLevel exRoot stPurge := by
  refine ⟨by decide, exDirs_shape, ?_, by decide, by decide⟩
  intro e he
  rcases List.mem_cons.mp he with rfl | he
  · exact ⟨exR, FName.base "a.pdf", rfl, by decide⟩
  · rcases List.mem_cons.mp he with rfl | he
    · exact ⟨exR, FName.created (FName.base "a.pdf"), rfl, by decide⟩
    · cases he

theorem purge_ttl_witness :
    fileExists (purgeOlderThan exRoot 1000 2000 stPurge).fs
        ((exRoot ++ [exR]) ++ [FName.base "a.pdf"])
      = ! decide ((1000 : Int) ≤ 2000 - effectiveCreatedAt stPurge.fs
          ((exRoot ++ [exR]) ++ [FName.base "a.pdf"]) ⟨some 100, 50, 60⟩ 2000) :=
  purge_deletes_iff_expired exRoot stPurge 1000 2000 exR "a.pdf" ⟨some 100, 50, 60⟩
    twoLevel_stPurge (by decide)

/-- Counterexample to the claim's "else the file's own last-modified time"
fallback: with `mtimeMs = 0` the sweep does not use the (zero) mtime — it
falls back to `ctimeMs` (`st.mtimeMs || st.ctimeMs || now`), so a file
the claim's rule would delete (age from mtime `2000 - 0 ≥ 1900`) survives. -/
theorem purge_ctime_fallback_cex :
    lookupFile stCtime.fs exArt = some ⟨none, 0, 1990⟩ ∧
      ((1900 : Int) ≤ 2000 - 0) ∧
      fileExists (purgeOlderThan exRoot 1900 2000 stCtime).fs exArt = true := by
  refine ⟨by decide, by decide, by decide⟩

theorem twoLevel_stRearm : TwoLevel exRoot stRearm := by
  refine ⟨by decide, exDirs_shape, ?_, by decide, by decide⟩
  intro e he
  rcases List.mem_cons.mp he with rfl | he
  · exact ⟨exR, FName.base "a.pdf", rfl, by decide⟩
  · rcases List.mem_cons.mp he with rfl | he
    · exact ⟨exR, FName.downloaded (FName.base "a.pdf"), rfl, by decide⟩
    · cases he

theorem niceNames_stRearm : NiceNames exRoot stRearm := by
  intro e he r n hshape
  rcases List.mem_cons.mp he with rfl | he
  · rw [← (append_singleton_inj (show (exRoot ++ [exR]) ++ [FName.base "a.pdf"]
      = (exRoot ++ [r]) ++ [n] from hshape)).2]
    trivial
  · rcases List.mem_cons.mp he with rfl | he
    · rw [← (append_singleton_inj (show (exRoot ++ [exR])
        ++ [FName.downloaded (FName.base "a.pdf")]
        = (exRoot ++ [r]) ++ [n] from hshape)).2]
      trivial
    · cases he

theorem hydrate_marker_witness :
    (0 : Int) < 1000 - (2000 - 1500) ∧
      (timersFor (hydrateWalk 1000 2000 (walkFuel stRearm.fs) exRoot stRearm)
          ((exRoot ++ [exR]) ++ [FName.base "a.pdf"]) = [some (1000 - (2000 - 1500))] ∧
        fileExists (hydrateWalk 1000 2000 (walkFuel stRearm.fs) exRoot stRearm).fs
          ((exRoot ++ [exR]) ++ [FName.base "a.pdf"]) = true) :=
  ⟨by decide, (hydrate_marker_restores_or_deletes exRoot stRearm 1000 99999 2000 exR
    "a.pdf" 1500 ⟨some 100, 50, 60⟩ ⟨some 1500, 60, 60⟩ twoLevel_stRearm
    niceNames_stRearm (by decide) (by decide) rfl).2 (by decide)⟩

theorem twoLevel_stOrphan : TwoLevel exRoot stOrphan := by
  refine ⟨by decide, exDirs_shape, ?_, by decide, by decide⟩
  intro e he
  rcases List.mem_cons.mp he with rfl | he
  · exact ⟨exR, FName.downloaded (FName.base "a.pdf"), rfl, by decide⟩
  · cases he

theorem niceNames_stOrphan : NiceNames exRoot stOrphan := by
  intro e he r n hshape
  rcases List.mem_cons.mp he with rfl | he
  · rw [← (append_singleton_inj (show (exRoot ++ [exR])
      ++ [FName.downloaded (FName.base "a.pdf")]
      = (exRoot ++ [r]) ++ [n] from hshape)).2]
    trivial
  · cases he

theorem hydrate_orphan_witness :
    fileExists (hydrateFromDisk exRoot 1000 1000000 2000 stOrphan).fs
        ((exRoot ++ [exR]) ++ [FName.downloaded (FName.base "a.pdf")]) = false ∧
      timersFor (hydrateFromDisk exRoot 1000 1000000 2000 stOrphan)
          ((exRoot ++ [exR]) ++ [FName.base "a.pdf"])
        = timersFor stOrphan ((exRoot ++ [exR]) ++ [FName.base "a.pdf"]) ∧
      fileExists (hydrateFromDisk exRoot 1000 1000000 2000 stOrphan).fs
        ((exRoot ++ [exR]) ++ [FName.base "a.pdf"]) = false :=
  hydrate_orphan_marker exRoot stOrphan 1000 1000000 2000 exR "a.pdf" ⟨some 500, 60, 60⟩
    twoLevel_stOrphan niceNames_stOrphan (by decide) (by decide)

theorem safeDelete_cascade_witness :
    fileExists (safeDelete noFail ((exRoot ++ [exR]) ++ [FName.base "a.pdf"]) stFull).fs
        ((exRoot ++ [exR]) ++ [FName.base "a.pdf"]) = false ∧
      dirExists (safeDelete noFail ((exRoot ++ [exR]) ++ [FName.base "a.pdf"]) stFull).fs
        (exRoot ++ [exR]) = false := by
  have h := safeDelete_cascade (exRoot ++ [exR]) "a.pdf" stFull (by decide) (by decide)
    (by decide) (by decide)
  refine ⟨h.1.1, h.2.1 (by decide) ?_⟩
  intro n hf
  rw [fileExists_true_iff] at hf
  obtain ⟨e, he, hk⟩ := hf
  rcases List.mem_cons.mp he with rfl | he
  · exact Or.inl ((append_singleton_inj (show (exRoot ++ [exR]) ++ [FName.base "a.pdf"]
      = (exRoot ++ [exR]) ++ [n] from hk)).2).symm
  · rcases List.mem_cons.mp he with rfl | he
    · exact Or.inr (Or.inr ((append_singleton_inj (show (exRoot ++ [exR])
        ++ [FName.created (FName.base "a.pdf")]
        = (exRoot ++ [exR]) ++ [n] from hk)).2).symm)
    · rcases List.mem_cons.mp he with rfl | he
      · exact Or.inr (Or.inl ((append_singleton_inj (show (exRoot ++ [exR])
          ++ [FName.downloaded (FName.base "a.pdf")]
          = (exRoot ++ [exR]) ++ [n] from hk)).2).symm)
      · cases he

theorem safeDelete_abort_witness :
    (safeDelete failArt exArt stFull).fs = stFull.fs ∧
      timersFor (safeDelete failArt exArt stFull) exArt = [] :=
  safeDelete_error_aborts_rest failArt exArt stFull (by decide) (by decide)

/-- Counterexample to the original claim C7: the artifact removal throws,
yet — contrary to "does not prevent the subsequent attempts" — both marker
files survive untouched, although removing them would not have failed
(`failArt` fails only on the artifact itself). -/
theorem safeDelete_markers_survive_cex :
    fileExists stFull.fs exDl = true ∧ fileExists stFull.fs exCre = true ∧
      failArt exDl = false ∧ failArt exCre = false ∧
      fileExists (safeDelete failArt exArt stFull).fs exDl = true ∧
      fileExists (safeDelete failArt exArt stFull).fs exCre = true ∧
      timersFor (safeDelete failArt exArt stFull) exArt = [] := by
  refine ⟨by decide, by decide, by decide, by decide, by decide, by decide, by decide⟩

theorem finishHook_witness :
    existsSync (finishHook [FName.base "uploads"] [FName.base "outputs"] exR fsW)
        ([FName.base "uploads"] ++ [exR]) = false ∧
      (∀ q, ¬ ([FName.base "uploads"] ++ [exR]) <+: q →
        lookupFile (finishHook [FName.base "uploads"] [FName.base "outputs"] exR fsW) q
          = lookupFile fsW q ∧
        dirExists (finishHook [FName.base "uploads"] [FName.base "outputs"] exR fsW) q
          = dirExists fsW q) ∧
      (∀ p, lookupFile (finishHook [FName.base "uploads"] [FName.base "outputs"] exR fsW)
            (([FName.base "outputs"] ++ [exR]) ++ p)
          = lookupFile fsW (([FName.base "outputs"] ++ [exR]) ++ p) ∧
        dirExists (finishHook [FName.base "uploads"] [FName.base "outputs"] exR fsW)
            (([FName.base "outputs"] ++ [exR]) ++ p)
          = dirExists fsW (([FName.base "outputs"] ++ [exR]) ++ p)) :=
  finishHook_deletes_only_uploads [FName.base "uploads"] [FName.base "outputs"] exR fsW
    (by decide) (by decide)

theorem twoLevel_stOrphanCre : TwoLevel exRoot stOrphanCre := by
  refine ⟨by decide, exDirs_shape, ?_, by decide, by decide⟩
  intro e he
  rcases List.mem_cons.mp he with rfl | he
  · exact ⟨exR, FName.created (FName.base "a.pdf"), rfl, by decide⟩
  · cases he

theorem niceNames_stOrphanCre : NiceNames exRoot stOrphanCre := by
  intro e he r n hshape
  rcases List.mem_cons.mp he with rfl | he
  · rw [← (append_singleton_inj (show (exRoot ++ [exR])
      ++ [FName.created (FName.base "a.pdf")]
      = (exRoot ++ [r]) ++ [n] from hshape)).2]
    trivial
  · cases he

theorem created_marker_witness :
    (fileExists (purgeOlderThan exRoot 10 2000 stOrphanCre).fs
        ((exRoot ++ [exR]) ++ [FName.created (FName.base "a.pdf")]) = true ∧
      dirExists (purgeOlderThan exRoot 10 2000 stOrphanCre).fs (exRoot ++ [exR]) = true ∧
      (readdir (purgeOlderThan exRoot 10 2000 stOrphanCre).fs
        (exRoot ++ [exR])).isEmpty = false) ∧
    (fileExists (hydrateFromDisk exRoot 10 10 2000 stOrphanCre).fs
        ((exRoot ++ [exR]) ++ [FName.created (FName.base "a.pdf")]) = true ∧
      dirExists (hydrateFromDisk exRoot 10 10 2000 stOrphanCre).fs
        (exRoot ++ [exR]) = true ∧
      (readdir (hydrateFromDisk exRoot 10 10 2000 stOrphanCre).fs
        (exRoot ++ [exR])).isEmpty = false) :=
  created_marker_never_reclaimed exRoot stOrphanCre 10 10 2000 exR "a.pdf"
    twoLevel_stOrphanCre niceNames_stOrphanCre (by decide) (by decide)

/-- Counterexample to the original claim C10: with the stacked marker
`x.created.downloaded` on disk, hydration treats the file `x.created` as
that marker's artifact (the grace being long expired) and deletes it —
a `.created`-named file is reclaimed. -/
theorem created_marker_reclaimed_cex :
    fileExists stStack.fs
        [FName.base "outputs", FName.base "R1", FName.created (FName.base "x")] = true ∧
      fileExists (hydrateFromDisk exRoot 1000 1000000000 2000 stStack).fs
        [FName.base "outputs", FName.base "R1", FName.created (FName.base "x")]
        = false := by
  refine ⟨by decide, by decide⟩

end FileTools
